import Mathlib

/-!
Verification development for usdc-watch

A shallow embedding of the Go packages `internal/usdc` (amount codec and call
encoder), `internal/eth` (addresses), `internal/config` (endpoint list),
`internal/rpc` (multi-endpoint JSON-RPC dispatcher) and `cmd/usdc-watch`
(the poll/alert loop), followed by theorems about them.

Conventions of the embedding

* A Go `string` is a `List Char` (`GoString`); only valid UTF-8 text is
  represented.  `len(s)` is the UTF-8 byte length, `goLen`.
* `*big.Int` is `Int`; a nil pointer is `none` where the code tests for it.
* Functions of the Go standard library that the code calls (`strings.TrimSpace`,
  `big.Int.SetString`, `fmt` verbs, ...) are given by small definitions that
  follow the library's documented behaviour.
* A Go `(value, error)` result is an `Except GoString _`, or the literal tuple
  where the claims speak about the value returned next to an error.
* The outside world (network replies, the cancellation signal) is an explicit
  argument of the function that consults it.
-/

namespace UsdcWatch

deriving instance DecidableEq for Except

/-! ## Go strings -/

/-- Text of a Go string, one element per Unicode code point. -/
abbrev GoString := List Char

/-- Go `len(s)`: the number of bytes of the UTF-8 encoding. -/
def goLen (s : GoString) : Nat := (s.map Char.utf8Size).sum

/-- Go `unicode.IsSpace`: the Unicode White_Space property. -/
def isSpace (c : Char) : Bool :=
  let n := c.toNat
  (9 ≤ n && n ≤ 13) || n == 0x20 || n == 0x85 || n == 0xA0 || n == 0x1680 ||
  (0x2000 ≤ n && n ≤ 0x200A) || n == 0x2028 || n == 0x2029 || n == 0x202F ||
  n == 0x205F || n == 0x3000

/-- Go `strings.TrimSpace`: drop leading and trailing white space. -/
def TrimSpace (s : GoString) : GoString :=
  (((s.dropWhile isSpace).reverse).dropWhile isSpace).reverse

/-- Go `strings.HasPrefix`. -/
def HasPrefix (s pre : GoString) : Bool := pre.isPrefixOf s

/-- Go `strings.SplitN(s, sep, 2)` for a one-character separator: the text
before the first separator and, when there is one, the text after it. -/
def SplitN2 (s : GoString) (sep : Char) : List GoString :=
  match s.dropWhile (fun c => c != sep) with
  | [] => [s]
  | _ :: rest => [s.takeWhile (fun c => c != sep), rest]

/-- Go `strings.ContainsAny`. -/
def ContainsAny (s chars : GoString) : Bool := s.any (fun c => chars.contains c)

/-- Go `strings.Repeat`. -/
def Repeat (s : GoString) (count : Nat) : GoString := (List.replicate count s).flatten

/-! ## math/big -/

/-- Value of one character as a digit, as in `nat.scan` of `math/big`
(`MaxBase + 1 = 63` for a character that is no digit in any base). -/
def digitValue (base : Nat) (ch : Char) : Nat :=
  let n := ch.toNat
  if 48 ≤ n ∧ n ≤ 57 then n - 48
  else if 97 ≤ n ∧ n ≤ 122 then n - 97 + 10
  else if 65 ≤ n ∧ n ≤ 90 then (if base ≤ 36 then n - 65 + 10 else n - 65 + 36)
  else 63

/-- Digit loop of `nat.scan` for an explicit base: every character has to be
a digit below the base. -/
def scanDigits (base : Nat) : List Char → Nat → Option Nat
  | [], acc => some acc
  | ch :: rest, acc =>
    if digitValue base ch < base then scanDigits base rest (acc * base + digitValue base ch)
    else none

/-- Go `(*big.Int).SetString(s, base)` for an explicit base `2 ≤ base`: an
optional sign `+` or `-`, then at least one digit of that base, and nothing
else; `none` is the `ok = false` result. -/
def SetString (s : GoString) (base : Nat) : Option Int :=
  let signed : Bool × List Char :=
    match s with
    | '-' :: rest => (true, rest)
    | '+' :: rest => (false, rest)
    | _ => (false, s)
  match signed.2 with
  | [] => none
  | body =>
    match scanDigits base body 0 with
    | none => none
    | some v => some (if signed.1 then -(v : Int) else (v : Int))

/-- Go `(*big.Int).String()`: decimal digits, with `-` in front of a negative
number. -/
def bigString (z : Int) : GoString :=
  if z < 0 then '-' :: Nat.toDigits 10 z.natAbs else Nat.toDigits 10 z.natAbs

/-- Go `fmt` verb `%06d` applied to an integer: zero padding to width six
between the sign and the digits. -/
def fmt06d (v : Int) : GoString :=
  if v < 0 then '-' :: List.leftpad 5 '0' (Nat.toDigits 10 v.natAbs)
  else List.leftpad 6 '0' (Nat.toDigits 10 v.natAbs)

/-! ## internal/usdc -/

/-- The constant `decimals`. -/
def decimals : Nat := 6

/-- The constant `decimalFactor`. -/
def decimalFactor : Int := 1000000

/-- The function `ParseAmount` of `internal/usdc/usdc.go`. -/
def ParseAmount (input : GoString) : Except GoString Int :=
  let trimmed := TrimSpace input
  if trimmed = [] then
    .error "amount is empty".toList
  else if HasPrefix trimmed ['-'] then
    .error "amount cannot be negative".toList
  else
    let trimmed := if HasPrefix trimmed ['+'] then trimmed.drop 1 else trimmed
    let parts := SplitN2 trimmed '.'
    let whole := parts.headD []
    let frac := if parts.length = 2 then parts.getD 1 [] else []
    let whole := if whole = [] then ['0'] else whole
    if ContainsAny whole [' ', '_'] || ContainsAny frac [' ', '_'] then
      .error "amount cannot contain spaces or underscores".toList
    else if goLen frac > decimals then
      .error "amount has more than 6 decimal places".toList
    else
      let frac := frac ++ Repeat ['0'] (decimals - goLen frac)
      let combined := whole ++ frac
      match SetString combined 10 with
      | none => .error ("invalid amount: ".toList ++ input)
      | some amount => .ok amount

/-- The function `FormatAmount` of `internal/usdc/usdc.go`; `none` is the nil
pointer.  `Quo` is truncated division and `Mod` the Euclidean modulus. -/
def FormatAmount (amount : Option Int) : GoString :=
  match amount with
  | none => ['0']
  | some a =>
    let divisor := decimalFactor
    let intPart := Int.tdiv a divisor
    let fracPart := Int.emod a divisor
    if fracPart = 0 then bigString intPart
    else bigString intPart ++ '.' :: fmt06d fracPart

/-! ## internal/config and internal/rpc -/

/-- The struct `config.Endpoint`. -/
structure Endpoint where
  Name : GoString
  URL : GoString
deriving DecidableEq

/-- The zero value `config.Endpoint{}`. -/
def Endpoint.zero : Endpoint := { Name := [], URL := [] }

/-- A `json.RawMessage`, by the shape of the JSON text it holds: the nil
slice (the field was not in the response), the literal `null`, a string
literal (with the text it denotes), or any other JSON value. -/
inductive RawMessage where
  | absent
  | null
  | str (text : GoString)
  | other (json : GoString)
deriving DecidableEq

/-- The struct `jsonRPCError`, without the `Data` field, which is never read. -/
structure jsonRPCError where
  Code : Int
  Message : GoString
deriving DecidableEq

/-- The struct `jsonRPCResponse`, without `JSONRPC` and `ID`, which are never
read; `Error = none` is the nil pointer. -/
structure jsonRPCResponse where
  Result : RawMessage
  Error : Option jsonRPCError
deriving DecidableEq

/-- What the outside world does with one request of `callSingle`: the request
cannot be encoded or built, the transport fails (this covers a cancelled or
timed-out context), or an HTTP response arrives, given by its status code, the
text of the first 512 bytes of its body and the outcome of JSON-decoding its
body into a `jsonRPCResponse`. -/
inductive Reply where
  | encodeFailed (err : GoString)
  | buildFailed (err : GoString)
  | transportFailed (err : GoString)
  | http (status : Int) (preview : GoString) (body : Except GoString jsonRPCResponse)
deriving DecidableEq

/-- The struct `rpc.Client`: the endpoint pool, the rotation cursor `next` and
the request counter `callID` (a `uint64`).  The HTTP client and the mutex have
no counterpart: calls are sequential here. -/
structure Client where
  endpoints : List Endpoint
  next : Nat
  callID : Nat
deriving DecidableEq

/-- The function `NewClient` of `internal/rpc/client.go`. -/
def NewClient (endpoints : List Endpoint) : Except GoString Client :=
  if endpoints.length = 0 then
    .error "rpc client requires at least one endpoint".toList
  else
    .ok { endpoints := endpoints, next := 0, callID := 0 }

/-- Go `fmt` verb `%d` applied to an integer. -/
def fmtd (v : Int) : GoString := bigString v

/-- Go `strings.Join`. -/
def Join (elems : List GoString) (sep : GoString) : GoString := sep.intercalate elems

/-- The method `Client.callSingle`: one attempt on one endpoint.  The request
(context, URL, method, parameters and the fresh id) only matters to the outside
world, whose reaction is `reply`. -/
def callSingle (c : Client) (_endpoint : Endpoint) (reply : Reply) :
    Except GoString RawMessage × Client :=
  let c := { c with callID := (c.callID + 1) % 2 ^ 64 }
  match reply with
  | .encodeFailed err => (.error ("encode request: ".toList ++ err), c)
  | .buildFailed err => (.error ("build request: ".toList ++ err), c)
  | .transportFailed err => (.error err, c)
  | .http status preview body =>
    if status ≠ 200 then
      (.error ("http ".toList ++ fmtd status ++ ": ".toList ++ TrimSpace preview), c)
    else
      match body with
      | .error err => (.error ("decode response: ".toList ++ err), c)
      | .ok rpcResp =>
        match rpcResp.Error with
        | some e =>
          (.error ("rpc error ".toList ++ fmtd e.Code ++ ": ".toList ++ e.Message), c)
        | none => (.ok rpcResp.Result, c)

/-- The method `Client.nextIndex`: read the cursor and advance it. -/
def nextIndex (c : Client) : Nat × Client :=
  (c.next, { c with next := (c.next + 1) % c.endpoints.length })

/-- What `Client.Call` returns, `(result, endpoint, err)`, and next to it the
indices of the endpoints handed to `callSingle`, in order (`tried` is not a
value of the program; it records the attempts). -/
structure CallResult where
  result : RawMessage
  endpoint : Endpoint
  err : Option GoString
  tried : List Nat
deriving DecidableEq

/-- The `for i := 0; i < len(c.endpoints); i++` loop of `Client.Call`:
`remaining` passes are left, `i` is the loop variable, `net idx` is the reply
of the world to this call's request to `c.endpoints[idx]`.  The sum
`start + i` stays below twice the length of a slice, so the Go `int` does not
overflow and the arithmetic is that of `Nat`. -/
def callLoop (start : Nat) (net : Nat → Reply) :
    Nat → Nat → Client → List GoString → List Nat → CallResult × Client
  | 0, _, c, errs, tried =>
    ({ result := .absent, endpoint := Endpoint.zero,
       err := some ("all endpoints failed: ".toList ++ Join errs "; ".toList),
       tried := tried }, c)
  | remaining + 1, i, c, errs, tried =>
    let idx := (start + i) % c.endpoints.length
    let endpoint := c.endpoints.getD idx Endpoint.zero
    match callSingle c endpoint (net idx) with
    | (.ok result, c) =>
      ({ result := result, endpoint := endpoint, err := none, tried := tried ++ [idx] }, c)
    | (.error err, c) =>
      callLoop start net remaining (i + 1) c
        (errs ++ [endpoint.Name ++ ": ".toList ++ err]) (tried ++ [idx])

/-- The method `Client.Call` of `internal/rpc/client.go`. -/
def Call (c : Client) (net : Nat → Reply) : CallResult × Client :=
  if c.endpoints.length = 0 then
    ({ result := .absent, endpoint := Endpoint.zero,
       err := some "no endpoints configured".toList, tried := [] }, c)
  else
    let started := nextIndex c
    callLoop started.1 net c.endpoints.length 0 started.2 [] []

/-! ## cmd/usdc-watch -/

/-- Go `json.Unmarshal(raw, &hexValue)` for a `string` target holding `into`:
empty input and a value that is no string are errors, a string literal is
stored, and `null` leaves the target as it was. -/
def jsonUnmarshalString (raw : RawMessage) (into : GoString) : Except GoString GoString :=
  match raw with
  | .absent => .error "unexpected end of JSON input".toList
  | .null => .ok into
  | .str text => .ok text
  | .other _ => .error "json: cannot unmarshal value into Go value of type string".toList

/-- The function `hexToBigInt` of `cmd/usdc-watch/main.go`. -/
def hexToBigInt (value : GoString) : Except GoString Int :=
  if !HasPrefix value ['0', 'x'] then
    .error ("unexpected hex result: ".toList ++ value)
  else
    let hexPart := value.drop 2
    if hexPart = [] then .ok 0
    else
      match SetString hexPart 16 with
      | none => .error ("invalid hex value: ".toList ++ value)
      | some amount => .ok amount

/-- The function `fetchBalance` of `cmd/usdc-watch/main.go`.  Success carries
the balance and the name of the serving endpoint; the endpoint name that the
Go code also returns next to an error is never read and is left out. -/
def fetchBalance (client : Client) (net : Nat → Reply) :
    Except GoString (Int × GoString) × Client :=
  let called := Call client net
  match called.1.err with
  | some err => (.error err, called.2)
  | none =>
    match jsonUnmarshalString called.1.result [] with
    | .error err => (.error ("decode result: ".toList ++ err), called.2)
    | .ok hexValue =>
      match hexToBigInt hexValue with
      | .error err => (.error err, called.2)
      | .ok balance => (.ok (balance, called.1.endpoint.Name), called.2)

/-- The function `formatAmountFixed` of `cmd/usdc-watch/main.go`. -/
def formatAmountFixed (amount : Int) : GoString :=
  let formatted := FormatAmount (some amount)
  if formatted.contains '.' then formatted else formatted ++ ".000000".toList

/-- The function `buildAlertMessage` of `cmd/usdc-watch/main.go`. -/
def buildAlertMessage (balance threshold : Int) : GoString :=
  "USDC balance ".toList ++ formatAmountFixed balance ++ " >= threshold ".toList ++
    formatAmountFixed threshold

/-- The outside world of `runLoop`, by loop iteration: whether the `select`
of that iteration takes the `ctx.Done()` case before the timer fires, whether
`ctx.Err()` is non-nil at the guard in front of the check, how the network
answers the requests of that iteration's check (by endpoint index), and the
error, if any, that `sendAlert` returns. -/
structure World where
  done : Nat → Bool
  ctxErr : Nat → Bool
  net : Nat → Nat → Reply
  alertErr : Nat → Option GoString

/-- What `runLoop` does that can be seen from outside, tagged with the loop
iteration: its log lines, and the calls of `fetchBalance` (`check`) and of
`sendAlert` (`send`, with the message). -/
inductive Event where
  | stopping (iteration : Nat)
  | check (iteration : Nat)
  | fetchFailed (iteration : Nat) (err : GoString)
  | balance (iteration : Nat) (amount : Int) (endpointName : GoString)
  | alert (iteration : Nat) (amount : Int) (threshold : Int)
  | send (iteration : Nat) (message : GoString)
  | webhookFailed (iteration : Nat) (err : GoString)
  | webhookNotified (iteration : Nat)
deriving DecidableEq

/-- The `if alertURL != ""` block of `runLoop`: the call of `sendAlert` and
the log line for its outcome. -/
def notify (w : World) (alertURL : GoString) (iteration : Nat) (balance threshold : Int) :
    List Event :=
  if alertURL ≠ [] then
    [.send iteration (buildAlertMessage balance threshold),
     match w.alertErr iteration with
     | some err => .webhookFailed iteration err
     | none => .webhookNotified iteration]
  else []

/-- The check of one iteration of `runLoop` (from `context.WithTimeout` to
the end of the `if err != nil ... else ...` statement): the events, whether
the `return` under `if exitAfterAlert` is taken, and the client afterwards. -/
def checkOnce (w : World) (threshold : Int) (exitAfterAlert : Bool) (alertURL : GoString)
    (iteration : Nat) (client : Client) : List Event × Bool × Client :=
  match fetchBalance client (w.net iteration) with
  | (.error err, client) =>
    ([.check iteration, .fetchFailed iteration err], false, client)
  | (.ok (balance, endpointName), client) =>
    if balance ≥ threshold then
      ([.check iteration, .balance iteration balance endpointName,
        .alert iteration balance threshold] ++
          notify w alertURL iteration balance threshold, exitAfterAlert, client)
    else
      ([.check iteration, .balance iteration balance endpointName], false, client)

/-- The `for iteration := 0; ; iteration++` loop of `runLoop`, entered at
`iteration` and cut off after `fuel` passes.  The result is the events so far
and whether the function has returned.  The counter is a `Nat`: the Go `int`
would need `2^63` passes, each with a network round trip, to wrap. -/
def runLoopFrom (w : World) (threshold : Int) (once exitAfterAlert : Bool) (alertURL : GoString) :
    Nat → Nat → Client → List Event × Bool
  | 0, _, _ => ([], false)
  | fuel + 1, iteration, client =>
    if iteration > 0 ∧ once = true then ([], true)
    else if iteration > 0 ∧ w.done iteration = true then ([.stopping iteration], true)
    else if w.ctxErr iteration = true then ([.stopping iteration], true)
    else
      let checked := checkOnce w threshold exitAfterAlert alertURL iteration client
      if checked.2.1 = true then (checked.1, true)
      else if once = true then (checked.1, true)
      else
        let later := runLoopFrom w threshold once exitAfterAlert alertURL fuel (iteration + 1)
          checked.2.2
        (checked.1 ++ later.1, later.2)

/-- The function `runLoop` of `cmd/usdc-watch/main.go`, observed for at most
`fuel` passes of its loop. -/
def runLoop (w : World) (client : Client) (threshold : Int) (once exitAfterAlert : Bool)
    (alertURL : GoString) (fuel : Nat) : List Event × Bool :=
  runLoopFrom w threshold once exitAfterAlert alertURL fuel 0 client

/-! ## internal/eth and the call encoder of internal/usdc -/

/-- Go `strings.HasSuffix`. -/
def HasSuffix (s suf : GoString) : Bool := suf.isSuffixOf s

/-- Go `strings.ToLower`, exact on ASCII text.  Letters outside ASCII are left
as they are; the code lowers only text that has passed `hex.DecodeString`,
which is ASCII. -/
def ToLower (s : GoString) : GoString :=
  s.map (fun c => if 65 ≤ c.toNat ∧ c.toNat ≤ 90 then Char.ofNat (c.toNat + 32) else c)

/-- The characters that `fromHexChar` of `encoding/hex` accepts: `0`..`9`,
`a`..`f` and `A`..`F`. -/
def isHexChar (c : Char) : Bool :=
  decide ((48 ≤ c.toNat ∧ c.toNat ≤ 57) ∨ (97 ≤ c.toNat ∧ c.toNat ≤ 102) ∨
    (65 ≤ c.toNat ∧ c.toNat ≤ 70))

/-- Go `hex.DecodeString`, as far as its error goes: `InvalidByteError` when
some byte is no hex character (the byte is not part of the text here),
`ErrLength` when all are and the length is odd.  The decoded bytes, which the
caller discards, are left out. -/
def hexDecodeString (s : GoString) : Except GoString Unit :=
  if s.all isHexChar = false then .error "encoding/hex: invalid byte".toList
  else if goLen s % 2 = 1 then .error "encoding/hex: odd length hex string".toList
  else .ok ()

/-- The function `NormalizeAddress` of `internal/eth/address.go`. -/
def NormalizeAddress (addr : GoString) : Except GoString GoString :=
  let trimmed := TrimSpace addr
  if trimmed = [] then
    .error "address is empty".toList
  else
    let trimmed :=
      if HasPrefix trimmed ['0', 'x'] || HasPrefix trimmed ['0', 'X'] then trimmed.drop 2
      else trimmed
    if goLen trimmed ≠ 40 then
      .error ("address must be 40 hex characters, got ".toList ++ fmtd (goLen trimmed))
    else
      match hexDecodeString trimmed with
      | .error err => .error ("invalid hex address: ".toList ++ err)
      | .ok _ => .ok (['0', 'x'] ++ ToLower trimmed)

/-- The function `AddressDataHex` of `internal/eth/address.go`.  The slice
`normalized[2:]` cuts off the two bytes of the prefix `0x`. -/
def AddressDataHex (addr : GoString) : Except GoString GoString :=
  match NormalizeAddress addr with
  | .error err => .error err
  | .ok normalized => .ok (normalized.drop 2)

/-- The constant `methodBalanceOf`. -/
def methodBalanceOf : GoString := "70a08231".toList

/-- The function `EncodeBalanceOfCall` of `internal/usdc/usdc.go`. -/
def EncodeBalanceOfCall (address : GoString) : Except GoString GoString :=
  match AddressDataHex address with
  | .error err => .error err
  | .ok addrHex =>
    if goLen addrHex ≠ 40 then
      .error ("unexpected address length: ".toList ++ fmtd (goLen addrHex))
    else
      .ok (['0', 'x'] ++ methodBalanceOf ++ Repeat ['0'] (64 - goLen addrHex) ++ addrHex)

/-! ## internal/config: LoadEndpoints -/

/-- What `os.Open` and the `bufio.Scanner` make of the file once it is open:
the lines that `scanner.Scan` yields, and the value of `scanner.Err()` after
the last of them. -/
structure ConfigFile where
  lines : List GoString
  scanErr : Option GoString

/-- The variables of `LoadEndpoints`: `endpoints`, `current`, `inCollection`
and `lineNo`.  The list `blocks` is not a variable of the program: it records
the name and url of every block as read, at the moment `flush` appends it. -/
structure LoadState where
  endpoints : List Endpoint
  current : Endpoint
  inCollection : Bool
  lineNo : Nat
  blocks : List Endpoint

/-- The closure `flush` of `LoadEndpoints`. -/
def flush (st : LoadState) (force : Bool) : Except GoString LoadState :=
  if !st.inCollection then .ok st
  else if TrimSpace st.current.URL = [] then
    if force then
      .error ("endpoint missing url near line ".toList ++ fmtd st.lineNo)
    else
      .ok { st with current := Endpoint.zero, inCollection := false }
  else
    let named : Endpoint :=
      if TrimSpace st.current.Name = [] then
        { st.current with Name := "endpoint-".toList ++ fmtd (st.endpoints.length + 1) }
      else st.current
    .ok { st with endpoints := st.endpoints ++ [named], current := Endpoint.zero,
                  inCollection := false, blocks := st.blocks ++ [st.current] }

/-- The quote stripping of `LoadEndpoints`: a value of at least two bytes
that starts and ends with `"`, or starts and ends with an apostrophe, loses
its first and last byte. -/
def unquote (value : GoString) : GoString :=
  if goLen value ≥ 2 then
    if (value.head? = some (Char.ofNat 34) ∧ value.getLast? = some (Char.ofNat 34)) ∨
        (value.head? = some (Char.ofNat 39) ∧ value.getLast? = some (Char.ofNat 39)) then
      (value.drop 1).dropLast
    else value
  else value

/-- The body of the `for scanner.Scan()` loop of `LoadEndpoints`, for one
line. -/
def scanLine (st : LoadState) (rawLine : GoString) : Except GoString LoadState :=
  let st := { st with lineNo := st.lineNo + 1 }
  let line := TrimSpace rawLine
  if line = [] || HasPrefix line ['#'] then .ok st
  else if HasPrefix line ['[', '['] && HasSuffix line [']', ']'] then
    match flush st true with
    | .error err => .error err
    | .ok st =>
      if line = "[[rpc.endpoints]]".toList then
        .ok { st with inCollection := true, current := Endpoint.zero }
      else
        .ok { st with inCollection := false }
  else if !st.inCollection then .ok st
  else
    let parts := SplitN2 line '='
    if parts.length ≠ 2 then
      .error ("invalid line ".toList ++ fmtd st.lineNo ++ ": ".toList ++ rawLine)
    else
      let key := TrimSpace (parts.headD [])
      let value := unquote (TrimSpace (parts.getD 1 []))
      if key = "name".toList then .ok { st with current := { st.current with Name := value } }
      else if key = "url".toList then .ok { st with current := { st.current with URL := value } }
      else .ok st

/-- The `for scanner.Scan()` loop of `LoadEndpoints`. -/
def scanLines (st : LoadState) : List GoString → Except GoString LoadState
  | [] => .ok st
  | rawLine :: rest =>
    match scanLine st rawLine with
    | .error err => .error err
    | .ok st => scanLines st rest

/-- The function `LoadEndpoints` of `internal/config/endpoints.go` up to its
last statement: the state in which it returns `endpoints`. -/
def loadState (opened : Except GoString ConfigFile) : Except GoString LoadState :=
  match opened with
  | .error err => .error ("open endpoints file: ".toList ++ err)
  | .ok file =>
    match scanLines { endpoints := [], current := Endpoint.zero, inCollection := false,
                      lineNo := 0, blocks := [] } file.lines with
    | .error err => .error err
    | .ok st =>
      match file.scanErr with
      | some err => .error ("scan endpoints file: ".toList ++ err)
      | none =>
        match flush st true with
        | .error err => .error err
        | .ok st =>
          if st.endpoints.length = 0 then .error "no endpoints found in configuration".toList
          else .ok st

/-- The function `LoadEndpoints` of `internal/config/endpoints.go`; `opened`
is the outcome of `os.Open(path)`. -/
def LoadEndpoints (opened : Except GoString ConfigFile) : Except GoString (List Endpoint) :=
  match loadState opened with
  | .error err => .error err
  | .ok st => .ok st.endpoints

/-! ## Decimal notation, as the specification reads it -/

/-- A decimal digit `0`..`9`. -/
def isDecimalDigit (c : Char) : Bool := decide (48 ≤ c.toNat ∧ c.toNat ≤ 57)

/-- The natural number that a run of decimal digits denotes. -/
def digitsValue (ds : List Char) : Nat := ds.foldl (fun acc c => acc * 10 + (c.toNat - 48)) 0

/-- The unsigned decimal strings of the specification: one or more digits,
optionally followed by `.` and at most six digits. -/
def plainDecimal (s : GoString) : Bool :=
  let whole := s.takeWhile (fun c => c != '.')
  !whole.isEmpty && whole.all isDecimalDigit &&
    match s.dropWhile (fun c => c != '.') with
    | [] => true
    | _ :: frac => frac.all isDecimalDigit && decide (frac.length ≤ 6)

/-- The rational number that a decimal string denotes: the digits before the
first `.` as an integer plus the digits after it as a decimal fraction. -/
def decimalValue (s : GoString) : ℚ :=
  let whole := s.takeWhile (fun c => c != '.')
  let frac := (s.dropWhile (fun c => c != '.')).drop 1
  (digitsValue whole : ℚ) + (digitsValue frac : ℚ) / 10 ^ frac.length

/-! ## The dispatcher's attempts, as the specification reads them -/

/-- Result of this call's attempt on the endpoint at index `idx`. -/
def attempt (c : Client) (net : Nat → Reply) (idx : Nat) : Except GoString RawMessage :=
  (callSingle c (c.endpoints.getD idx Endpoint.zero) (net idx)).1

/-- The order in which a call on `c` goes through the endpoint indices: from
the cursor on, wrapping around. -/
def attemptOrder (c : Client) : List Nat :=
  (List.range c.endpoints.length).map (fun i => (c.next + i) % c.endpoints.length)

/-- The entry of the aggregate error for the endpoint at index `idx`: its name,
a colon and the reason for which the attempt on it failed. -/
def failureLine (c : Client) (net : Nat → Reply) (idx : Nat) : GoString :=
  (c.endpoints.getD idx Endpoint.zero).Name ++ ": ".toList ++
    (match attempt c net idx with
     | .error reason => reason
     | .ok _ => [])

/-- The client after a sequence of calls, one per element of `nets`. -/
def runCalls (c : Client) (nets : List (Nat → Reply)) : Client :=
  nets.foldl (fun c net => (Call c net).2) c

/-! ## Reading the events of the loop -/

/-- The loop iteration in which an event happened. -/
def Event.iteration : Event → Nat
  | .stopping k => k
  | .check k => k
  | .fetchFailed k _ => k
  | .balance k _ _ => k
  | .alert k _ _ => k
  | .send k _ => k
  | .webhookFailed k _ => k
  | .webhookNotified k => k

/-- Number of balance checks among the events. -/
def checkCount (events : List Event) : Nat :=
  events.countP (fun e => match e with
    | .check _ => true
    | _ => false)

/-! ## Scenarios of the specification -/

/-- Endpoint `A` of the dispatcher scenarios. -/
def endpointA : Endpoint := { Name := ['A'], URL := "http://a.example".toList }

/-- Endpoint `B` of the dispatcher scenarios. -/
def endpointB : Endpoint := { Name := ['B'], URL := "http://b.example".toList }

/-- A fresh client on the pool `[A, B]`, cursor at 0. -/
def clientAB : Client := { endpoints := [endpointA, endpointB], next := 0, callID := 0 }

/-- The world in which `A` (index 0) refuses the connection and `B` (index 1)
answers with the result `"0x01"`. -/
def netAFailsBSucceeds : Nat → Reply := fun idx =>
  if idx = 0 then .transportFailed "connection refused".toList
  else .http 200 [] (.ok { Result := .str "0x01".toList, Error := none })

/-- The world in which `A` refuses the connection and `B` answers with HTTP
status 503. -/
def netBothFail : Nat → Reply := fun idx =>
  if idx = 0 then .transportFailed "connection refused".toList
  else .http 503 "busy".toList (.error [])

/-- The world without cancellation in which every endpoint answers every
request with the JSON string `hex`, and the webhook accepts every alert. -/
def worldAnswering (hex : GoString) : World :=
  { done := fun _ => false, ctxErr := fun _ => false,
    net := fun _ _ => .http 200 [] (.ok { Result := .str hex, Error := none }),
    alertErr := fun _ => none }

/-- The world of `worldAnswering` with the cancellation signal raised from
the start. -/
def worldCancelled (hex : GoString) : World :=
  { worldAnswering hex with done := fun _ => true, ctxErr := fun _ => true }

/-- The world without cancellation in which every request fails in the first
iteration and is answered with the JSON string `hex` from then on. -/
def worldFailingFirst (hex : GoString) : World :=
  { worldAnswering hex with
    net := fun iteration _ =>
      if iteration = 0 then .transportFailed "timeout".toList
      else .http 200 [] (.ok { Result := .str hex, Error := none }) }

/-! ## Addresses, numerals and configuration blocks, as the specification reads them -/

/-- The input of `NormalizeAddress` after trimming surrounding white space
and stripping one optional leading `0x` or `0X`. -/
def addressBody (x : GoString) : GoString :=
  match TrimSpace x with
  | '0' :: 'x' :: rest => rest
  | '0' :: 'X' :: rest => rest
  | trimmed => trimmed

/-- A hexadecimal character in lower case. -/
def hexLower : Char → Char
  | 'A' => 'a'
  | 'B' => 'b'
  | 'C' => 'c'
  | 'D' => 'd'
  | 'E' => 'e'
  | 'F' => 'f'
  | c => c

/-- The text `s` is the decimal numeral of `n`: digits only, at least one,
denoting `n`, and without a leading zero unless it is `0` itself. -/
def isNumeralOf (s : GoString) (n : Nat) : Bool :=
  !s.isEmpty && s.all isDecimalDigit && decide (digitsValue s = n) &&
    (s.head? != some '0' || s == ['0'])

/-- The fractional part that `ParseAmount` sees: the text after the first
`.` of the input, surrounding white space of the input removed. -/
def fractionalPart (input : GoString) : GoString :=
  ((TrimSpace input).dropWhile (fun c => c != '.')).drop 1

/-- The integer part that `ParseAmount` sees: the text before the first `.`
of the input, surrounding white space and one leading `+` removed. -/
def integerPart (input : GoString) : GoString :=
  (match TrimSpace input with
   | '+' :: rest => rest
   | trimmed => trimmed).takeWhile (fun c => c != '.')

/-- The blocks of a configuration file as `LoadEndpoints` reads them: the
name and the url that each `[[rpc.endpoints]]` block gives, in file order. -/
def readBlocks (opened : Except GoString ConfigFile) : List Endpoint :=
  match loadState opened with
  | .error _ => []
  | .ok st => st.blocks

/-- The text `s` between double quotes. -/
def quoted (s : GoString) : GoString := Char.ofNat 34 :: s ++ [Char.ofNat 34]

/-- The configuration of the test `TestLoadEndpoints`, line by line. -/
def testConfig : ConfigFile :=
  { lines := ["# endpoints".toList, "[[rpc.endpoints]]".toList,
              "name = ".toList ++ quoted "first".toList,
              "url = ".toList ++ quoted "https://a.example".toList,
              [], "[[rpc.endpoints]]".toList,
              "url = ".toList ++ quoted "https://b.example".toList],
    scanErr := none }

/-- The invariant of `LoadEndpoints` that ties the returned endpoints to the
blocks as read: the endpoint at position `i` comes from the block at position
`i`, which has a url; it has that url, and the name of the block, or
`endpoint-` and `i + 1` when that name is blank. -/
def LoadInv (st : LoadState) : Prop :=
  st.endpoints.length = st.blocks.length ∧
  ∀ i block, st.blocks[i]? = some block →
    ∃ ep, st.endpoints[i]? = some ep ∧ TrimSpace block.URL ≠ [] ∧ ep.URL = block.URL ∧
      (TrimSpace block.Name = [] → ep.Name = "endpoint-".toList ++ Nat.toDigits 10 (i + 1)) ∧
      (TrimSpace block.Name ≠ [] → ep.Name = block.Name)

/-- The reply with status 200 whose JSON object has neither `result` nor
`error`. -/
def replyNeither : Reply := .http 200 [] (.ok { Result := .absent, Error := none })

/-! ## Hexadecimal quantities, as the specification reads them -/

/-- The value of a hexadecimal character as a digit: `0`..`9` are 0 to 9,
`a`..`f` and `A`..`F` are 10 to 15. -/
def hexDigitValue (c : Char) : Nat :=
  if 48 ≤ c.toNat ∧ c.toNat ≤ 57 then c.toNat - 48
  else if 97 ≤ c.toNat ∧ c.toNat ≤ 102 then c.toNat - 87
  else c.toNat - 55

/-- The natural number that a run of hexadecimal digits denotes, the most
significant digit first; the empty run denotes 0. -/
def hexValue (ds : List Char) : Nat := ds.foldl (fun acc c => acc * 16 + hexDigitValue c) 0

/-! ## Lemmas: strings and digits -/

theorem dropWhile_of_all_false {α : Type} (p : α → Bool) (l : List α)
    (h : ∀ c ∈ l, p c = false) : l.dropWhile p = l := by
  cases l with
  | nil => rfl
  | cons a t => simp [List.dropWhile, h a (List.mem_cons_self a t)]

theorem TrimSpace_of_no_space (s : GoString) (h : ∀ c ∈ s, isSpace c = false) :
    TrimSpace s = s := by
  unfold TrimSpace
  rw [dropWhile_of_all_false isSpace s h,
    dropWhile_of_all_false isSpace s.reverse (fun c hc => h c (List.mem_reverse.mp hc)),
    List.reverse_reverse]

theorem isDecimalDigit_iff (c : Char) : isDecimalDigit c = true ↔ 48 ≤ c.toNat ∧ c.toNat ≤ 57 := by
  simp [isDecimalDigit]

theorem char_eq_of_toNat {c d : Char} (h : c.toNat = d.toNat) : c = d := by
  apply Char.ext
  apply UInt32.ext
  exact h

theorem digit_not_space (c : Char) (h : isDecimalDigit c = true) : isSpace c = false := by
  rw [isDecimalDigit_iff] at h
  simp only [isSpace, Bool.or_eq_false_iff, Bool.and_eq_false_iff, decide_eq_false_iff_not,
    beq_eq_false_iff_ne, ne_eq]
  omega

theorem digit_ne_dot (c : Char) (h : isDecimalDigit c = true) : (c != '.') = true := by
  rw [isDecimalDigit_iff] at h
  simp only [bne_iff_ne, ne_eq]
  intro hc
  rw [hc] at h
  revert h
  decide

theorem digit_utf8Size (c : Char) (h : isDecimalDigit c = true) : c.utf8Size = 1 := by
  rw [isDecimalDigit_iff] at h
  have h1 : c.val.toNat ≤ 127 := by
    have : c.toNat = c.val.toNat := rfl
    omega
  have h2 : c.val ≤ 127 := by
    show c.val.toNat ≤ 127
    exact h1
  simp [Char.utf8Size, h2]

theorem goLen_digits (f : List Char) (h : ∀ c ∈ f, isDecimalDigit c = true) :
    goLen f = f.length := by
  induction f with
  | nil => rfl
  | cons a t ih =>
    have ha := digit_utf8Size a (h a (List.mem_cons_self a t))
    have ht := ih (fun c hc => h c (List.mem_cons_of_mem a hc))
    simp only [goLen, List.map_cons, List.sum_cons, List.length_cons] at ht ⊢
    omega

theorem foldl_digits_acc (l : List Char) (acc : Nat) :
    l.foldl (fun acc c => acc * 10 + (c.toNat - 48)) acc = acc * 10 ^ l.length + digitsValue l := by
  induction l generalizing acc with
  | nil => simp [digitsValue]
  | cons a t ih =>
    simp only [List.foldl_cons, List.length_cons, digitsValue]
    rw [ih, ih (0 * 10 + (a.toNat - 48))]
    ring

theorem digitsValue_append (a b : List Char) :
    digitsValue (a ++ b) = digitsValue a * 10 ^ b.length + digitsValue b := by
  have h := foldl_digits_acc b (digitsValue a)
  simp only [digitsValue, List.foldl_append] at h ⊢
  exact h

theorem digitsValue_replicate_zero (k : Nat) : digitsValue (List.replicate k '0') = 0 := by
  induction k with
  | zero => rfl
  | succ k ih =>
    have h := digitsValue_append ['0'] (List.replicate k '0')
    rw [List.replicate_succ]
    simp only [List.singleton_append] at h
    rw [h, ih]
    simp [digitsValue]

theorem digitValue_digit (c : Char) (h : isDecimalDigit c = true) :
    digitValue 10 c = c.toNat - 48 ∧ digitValue 10 c < 10 := by
  rw [isDecimalDigit_iff] at h
  have hv : digitValue 10 c = c.toNat - 48 := by
    unfold digitValue
    exact if_pos h
  rw [hv]
  omega

theorem scanDigits_digits (l : List Char) (h : ∀ c ∈ l, isDecimalDigit c = true) (acc : Nat) :
    scanDigits 10 l acc = some (acc * 10 ^ l.length + digitsValue l) := by
  induction l generalizing acc with
  | nil => simp [scanDigits, digitsValue]
  | cons a t ih =>
    have ha := digitValue_digit a (h a (List.mem_cons_self a t))
    have hv := digitsValue_append [a] t
    simp only [List.singleton_append] at hv
    simp only [scanDigits, ha.2, if_true]
    rw [ih (fun c hc => h c (List.mem_cons_of_mem a hc)), ha.1, hv]
    simp only [digitsValue, List.foldl_cons, List.foldl_nil, List.length_cons]
    congr 1
    ring

theorem SetString_digits (c : Char) (t : List Char) (hc : isDecimalDigit c = true)
    (ht : ∀ d ∈ t, isDecimalDigit d = true) :
    SetString (c :: t) 10 = some (digitsValue (c :: t) : Int) := by
  have hall : ∀ d ∈ c :: t, isDecimalDigit d = true := by
    intro d hd
    rcases List.mem_cons.mp hd with rfl | hd
    · exact hc
    · exact ht d hd
  have hscan := scanDigits_digits (c :: t) hall 0
  have hminus : c ≠ '-' := by
    intro e
    rw [e] at hc
    revert hc
    decide
  have hplus : c ≠ '+' := by
    intro e
    rw [e] at hc
    revert hc
    decide
  unfold SetString
  split
  · rename_i heq
    simp only [List.cons.injEq] at heq
    exact absurd heq.1 hminus
  · rename_i heq
    simp only [List.cons.injEq] at heq
    exact absurd heq.1 hplus
  · simp only [hscan, zero_mul, zero_add]
    simp

theorem digitChar_toNat (k : Nat) (h : k < 10) : (Nat.digitChar k).toNat = 48 + k := by
  interval_cases k <;> rfl

theorem toDigitsCore_spec (fuel : Nat) : ∀ (n : Nat) (ds : List Char), n < fuel →
    ∃ l, Nat.toDigitsCore 10 fuel n ds = l ++ ds ∧ l ≠ [] ∧
      (∀ c ∈ l, isDecimalDigit c = true) ∧ digitsValue l = n := by
  induction fuel with
  | zero => intro n ds h; omega
  | succ fuel ih =>
    intro n ds h
    have hd : (Nat.digitChar (n % 10)).toNat = 48 + n % 10 :=
      digitChar_toNat (n % 10) (Nat.mod_lt n (by decide))
    have hdig : isDecimalDigit (Nat.digitChar (n % 10)) = true := by
      rw [isDecimalDigit_iff, hd]
      have := Nat.mod_lt n (show 0 < 10 by decide)
      omega
    simp only [Nat.toDigitsCore]
    by_cases hz : n / 10 = 0
    · refine ⟨[Nat.digitChar (n % 10)], ?_, by simp, ?_, ?_⟩
      · simp [hz]
      · intro c hc
        rw [List.mem_singleton.mp hc]
        exact hdig
      · simp only [digitsValue, List.foldl_cons, List.foldl_nil, hd]
        omega
    · have hlt : n / 10 < fuel := by omega
      obtain ⟨l, hl, _, hall, hval⟩ := ih (n / 10) (Nat.digitChar (n % 10) :: ds) hlt
      refine ⟨l ++ [Nat.digitChar (n % 10)], ?_, by simp, ?_, ?_⟩
      · simp [hz, hl]
      · intro c hc
        rcases List.mem_append.mp hc with hc | hc
        · exact hall c hc
        · rw [List.mem_singleton.mp hc]
          exact hdig
      · rw [digitsValue_append, hval]
        simp only [digitsValue, List.foldl_cons, List.foldl_nil, hd, List.length_singleton]
        omega

theorem toDigits_spec (n : Nat) :
    Nat.toDigits 10 n ≠ [] ∧ (∀ c ∈ Nat.toDigits 10 n, isDecimalDigit c = true) ∧
      digitsValue (Nat.toDigits 10 n) = n := by
  obtain ⟨l, hl, hne, hall, hval⟩ := toDigitsCore_spec (n + 1) n [] (Nat.lt_succ_self n)
  rw [List.append_nil] at hl
  unfold Nat.toDigits
  rw [hl]
  exact ⟨hne, hall, hval⟩

theorem toDigits_length_le (n e : Nat) (he : 0 < e) (h : n < 10 ^ e) :
    (Nat.toDigits 10 n).length ≤ e :=
  Nat.toDigitsCore_length 10 (by decide) (n + 1) n e h he

/-! ## Lemmas: the amount codec on plain decimals -/

theorem split_digits_append (w rest : List Char) (hw : ∀ c ∈ w, isDecimalDigit c = true)
    (hr : rest = [] ∨ ∃ f, rest = '.' :: f) :
    (w ++ rest).takeWhile (fun c => c != '.') = w ∧
      (w ++ rest).dropWhile (fun c => c != '.') = rest := by
  induction w with
  | nil =>
    rcases hr with rfl | ⟨f, rfl⟩
    · exact ⟨rfl, rfl⟩
    · exact ⟨rfl, rfl⟩
  | cons a t ih =>
    have ha := digit_ne_dot a (hw a (List.mem_cons_self a t))
    have ht := ih (fun c hc => hw c (List.mem_cons_of_mem a hc))
    simp only [List.cons_append, List.takeWhile_cons, List.dropWhile_cons, ha, if_true]
    exact ⟨by rw [ht.1], ht.2⟩

theorem dropWhile_head_false {α : Type} (p : α → Bool) :
    ∀ (l : List α) (c : α) (t : List α), l.dropWhile p = c :: t → p c = false := by
  intro l
  induction l with
  | nil => intro c t h; simp at h
  | cons a l ih =>
    intro c t h
    by_cases hp : p a = true
    · rw [List.dropWhile_cons, if_pos hp] at h
      exact ih c t h
    · rw [List.dropWhile_cons, if_neg hp] at h
      simp only [List.cons.injEq] at h
      rw [← h.1]
      simpa using hp

theorem plainDecimal_split (s : GoString) (h : plainDecimal s = true) :
    ∃ w f rest, s = w ++ rest ∧ w ≠ [] ∧ (∀ c ∈ w, isDecimalDigit c = true) ∧
      (∀ c ∈ f, isDecimalDigit c = true) ∧ f.length ≤ 6 ∧
      (rest = [] ∧ f = [] ∨ rest = '.' :: f) := by
  unfold plainDecimal at h
  simp only [Bool.and_eq_true, Bool.not_eq_true', List.isEmpty_eq_false, List.all_eq_true] at h
  obtain ⟨⟨hne, hw⟩, hrest⟩ := h
  have hs : s = s.takeWhile (fun c => c != '.') ++ s.dropWhile (fun c => c != '.') :=
    (List.takeWhile_append_dropWhile _ s).symm
  cases hd : s.dropWhile (fun c => c != '.') with
  | nil =>
    refine ⟨_, [], [], ?_, hne, hw, by simp, by simp, Or.inl ⟨rfl, rfl⟩⟩
    rw [hd] at hs
    exact hs
  | cons c frac =>
    rw [hd] at hrest hs
    simp only [Bool.and_eq_true, List.all_eq_true, decide_eq_true_eq] at hrest
    have hc : c = '.' := by
      have := dropWhile_head_false _ s c frac hd
      simpa using this
    subst hc
    exact ⟨_, frac, '.' :: frac, hs, hne, hw, hrest.1, hrest.2, Or.inr rfl⟩

theorem Repeat_zero_char (k : Nat) : Repeat ['0'] k = List.replicate k '0' := by
  induction k with
  | zero => rfl
  | succ k ih =>
    unfold Repeat at ih ⊢
    rw [List.replicate_succ, List.flatten_cons, ih, List.replicate_succ]
    rfl

theorem digits_no_blank (w : List Char) (hw : ∀ c ∈ w, isDecimalDigit c = true) :
    ContainsAny w [' ', '_'] = false := by
  unfold ContainsAny
  rw [List.any_eq_false]
  intro c hc
  have h := (isDecimalDigit_iff c).mp (hw c hc)
  have h1 : c ≠ ' ' := by
    intro e
    rw [e] at h
    revert h
    decide
  have h2 : c ≠ '_' := by
    intro e
    rw [e] at h
    revert h
    decide
  simp [h1, h2]

theorem ParseAmount_plain (w f rest : List Char) (hne : w ≠ [])
    (hw : ∀ c ∈ w, isDecimalDigit c = true) (hf : ∀ c ∈ f, isDecimalDigit c = true)
    (hlen : f.length ≤ 6) (hr : rest = [] ∧ f = [] ∨ rest = '.' :: f) :
    ParseAmount (w ++ rest) =
      .ok ((digitsValue w * 10 ^ 6 + digitsValue f * 10 ^ (6 - f.length) : Nat) : Int) := by
  obtain ⟨c, t, rfl⟩ := List.exists_cons_of_ne_nil hne
  have hc : isDecimalDigit c = true := hw c (List.mem_cons_self c t)
  have hr' : rest = [] ∨ ∃ f, rest = '.' :: f := by
    rcases hr with h | h
    · exact Or.inl h.1
    · exact Or.inr ⟨f, h⟩
  have hsp := split_digits_append (c :: t) rest hw hr'
  have hnospace : ∀ d ∈ (c :: t) ++ rest, isSpace d = false := by
    intro d hd
    rcases List.mem_append.mp hd with hd | hd
    · exact digit_not_space d (hw d hd)
    · rcases hr with h | h
      · rw [h.1] at hd
        simp at hd
      · rw [h] at hd
        rcases List.mem_cons.mp hd with rfl | hd
        · decide
        · exact digit_not_space d (hf d hd)
  have htrim := TrimSpace_of_no_space _ hnospace
  have hminus : HasPrefix (c :: t ++ rest) ['-'] = false := by
    have : c ≠ '-' := by
      intro e
      rw [e] at hc
      revert hc
      decide
    simp [HasPrefix, List.isPrefixOf, this.symm]
  have hplus : HasPrefix (c :: t ++ rest) ['+'] = false := by
    have : c ≠ '+' := by
      intro e
      rw [e] at hc
      revert hc
      decide
    simp [HasPrefix, List.isPrefixOf, this.symm]
  have hgl := goLen_digits f hf
  have hparts : (SplitN2 (c :: t ++ rest) '.').headD [] = c :: t ∧
      (if (SplitN2 (c :: t ++ rest) '.').length = 2
        then (SplitN2 (c :: t ++ rest) '.').getD 1 [] else []) = f := by
    unfold SplitN2
    rw [hsp.1, hsp.2]
    rcases hr with h | h
    · rw [h.1, h.2]
      simp
    · rw [h]
      simp
  have hzeros : ∀ d ∈ f ++ List.replicate (6 - f.length) '0', isDecimalDigit d = true := by
    intro d hd
    rcases List.mem_append.mp hd with hd | hd
    · exact hf d hd
    · rw [(List.mem_replicate.mp hd).2]
      decide
  have hset : SetString (c :: t ++ (f ++ List.replicate (6 - f.length) '0')) 10 =
      some ((digitsValue (c :: t) * 10 ^ 6 + digitsValue f * 10 ^ (6 - f.length) : Nat) : Int) := by
    have hall : ∀ d ∈ t ++ (f ++ List.replicate (6 - f.length) '0'), isDecimalDigit d = true := by
      intro d hd
      rcases List.mem_append.mp hd with hd | hd
      · exact hw d (List.mem_cons_of_mem c hd)
      · exact hzeros d hd
    rw [List.cons_append, SetString_digits c _ hc hall, ← List.cons_append, digitsValue_append,
      digitsValue_append, digitsValue_replicate_zero]
    have h6 : (f ++ List.replicate (6 - f.length) '0').length = 6 := by
      simp only [List.length_append, List.length_replicate]
      omega
    rw [h6]
    simp
  unfold ParseAmount
  simp only [htrim, hminus, hplus, Bool.false_eq_true, if_false, hparts.1, hparts.2, hgl,
    decimals, Repeat_zero_char, List.cons_ne_nil, List.append_eq_nil, false_and,
    digits_no_blank (c :: t) hw, digits_no_blank f hf, Bool.or_self, gt_iff_lt,
    Nat.not_lt.mpr hlen, hset]

theorem bigString_natCast (n : Nat) : bigString (n : Int) = Nat.toDigits 10 n := by
  unfold bigString
  have h : ¬ ((n : Int) < 0) := by omega
  rw [if_neg h, Int.natAbs_ofNat]

theorem fmt06d_natCast (r : Nat) (hr : r < 1000000) :
    ∃ l, fmt06d (r : Int) = l ∧ l.length = 6 ∧ (∀ c ∈ l, isDecimalDigit c = true) ∧
      digitsValue l = r := by
  have hspec := toDigits_spec r
  have hlen := toDigits_length_le r 6 (by decide) (by simpa using hr)
  refine ⟨_, rfl, ?_, ?_, ?_⟩
  · unfold fmt06d
    have h : ¬ ((r : Int) < 0) := by omega
    rw [if_neg h, Int.natAbs_ofNat]
    simp only [List.leftpad, List.length_append, List.length_replicate]
    omega
  · intro c hc
    unfold fmt06d at hc
    have h : ¬ ((r : Int) < 0) := by omega
    rw [if_neg h, Int.natAbs_ofNat] at hc
    simp only [List.leftpad] at hc
    rcases List.mem_append.mp hc with hc | hc
    · rw [(List.mem_replicate.mp hc).2]
      decide
    · exact hspec.2.1 c hc
  · unfold fmt06d
    have h : ¬ ((r : Int) < 0) := by omega
    rw [if_neg h, Int.natAbs_ofNat]
    simp only [List.leftpad]
    rw [digitsValue_append, digitsValue_replicate_zero, hspec.2.2]
    simp

theorem FormatAmount_natCast (n : Nat) :
    ∃ w rest f, FormatAmount (some (n : Int)) = w ++ rest ∧ w ≠ [] ∧
      (∀ c ∈ w, isDecimalDigit c = true) ∧ (∀ c ∈ f, isDecimalDigit c = true) ∧
      (rest = [] ∧ f = [] ∧ n % 1000000 = 0 ∨ rest = '.' :: f ∧ f.length = 6) ∧
      digitsValue w = n / 1000000 ∧ digitsValue f = n % 1000000 := by
  have hq : Int.tdiv (n : Int) decimalFactor = ((n / 1000000 : Nat) : Int) := rfl
  have hm : Int.emod (n : Int) decimalFactor = ((n % 1000000 : Nat) : Int) := rfl
  have hspec := toDigits_spec (n / 1000000)
  unfold FormatAmount
  simp only [hq, hm, bigString_natCast]
  by_cases hz : n % 1000000 = 0
  · refine ⟨Nat.toDigits 10 (n / 1000000), [], [], ?_, hspec.1, hspec.2.1, by simp,
      Or.inl ⟨rfl, rfl, hz⟩, hspec.2.2, ?_⟩
    · simp [hz]
    · simp [digitsValue, hz]
  · obtain ⟨l, hl, hlen, hall, hval⟩ := fmt06d_natCast (n % 1000000) (Nat.mod_lt n (by decide))
    refine ⟨Nat.toDigits 10 (n / 1000000), '.' :: l, l, ?_, hspec.1, hspec.2.1, hall,
      Or.inr ⟨rfl, hlen⟩, hspec.2.2, hval⟩
    have hz' : ¬ (((n % 1000000 : Nat) : Int) = 0) := by omega
    rw [if_neg hz', hl]

theorem decimalValue_split (w f rest : List Char) (hw : ∀ c ∈ w, isDecimalDigit c = true)
    (hr : rest = [] ∧ f = [] ∨ rest = '.' :: f) :
    decimalValue (w ++ rest) = (digitsValue w : ℚ) + (digitsValue f : ℚ) / 10 ^ f.length := by
  have hr' : rest = [] ∨ ∃ f, rest = '.' :: f := by
    rcases hr with h | h
    · exact Or.inl h.1
    · exact Or.inr ⟨f, h⟩
  have hsp := split_digits_append w rest hw hr'
  unfold decimalValue
  simp only [hsp.1, hsp.2]
  rcases hr with h | h
  · rw [h.1, h.2]
    rfl
  · rw [h]
    rfl

theorem plainDecimal_of_split (w f rest : List Char) (hne : w ≠ [])
    (hw : ∀ c ∈ w, isDecimalDigit c = true) (hf : ∀ c ∈ f, isDecimalDigit c = true)
    (hlen : f.length ≤ 6) (hr : rest = [] ∧ f = [] ∨ rest = '.' :: f) :
    plainDecimal (w ++ rest) = true := by
  have hr' : rest = [] ∨ ∃ f, rest = '.' :: f := by
    rcases hr with h | h
    · exact Or.inl h.1
    · exact Or.inr ⟨f, h⟩
  have hsp := split_digits_append w rest hw hr'
  unfold plainDecimal
  simp only [hsp.1, hsp.2]
  have hall : w.all isDecimalDigit = true := List.all_eq_true.mpr hw
  have hemp : w.isEmpty = false := by
    cases w with
    | nil => exact absurd rfl hne
    | cons a t => rfl
  rcases hr with h | h
  · rw [h.1]
    simp [hall, hemp]
  · rw [h]
    have hfall : f.all isDecimalDigit = true := List.all_eq_true.mpr hf
    simp [hall, hemp, hfall, hlen]

theorem natCast_div_mod (n : Nat) :
    (n : ℚ) = ((n / 1000000 : Nat) : ℚ) * 10 ^ 6 + ((n % 1000000 : Nat) : ℚ) := by
  have h := Nat.div_add_mod n 1000000
  have hc : ((1000000 * (n / 1000000) + n % 1000000 : Nat) : ℚ) = (n : ℚ) := by rw [h]
  push_cast at hc
  norm_num
  linarith

/-! ## Theorems: the amount codec -/

/-- C1. Every unsigned decimal string `s` (one or more digits, optionally `.`
and at most six digits) is accepted by `ParseAmount`, with a non-negative
amount `a` that is the value of `s` scaled by `10^6`; `FormatAmount a` is again
such a decimal string, and it denotes the same rational number as `s`. -/
theorem ParseAmount_FormatAmount_roundtrip (s : GoString) (h : plainDecimal s = true) :
    ∃ a : Int, ParseAmount s = .ok a ∧ 0 ≤ a ∧ (a : ℚ) = decimalValue s * 10 ^ 6 ∧
      plainDecimal (FormatAmount (some a)) = true ∧
      decimalValue (FormatAmount (some a)) = decimalValue s := by
  obtain ⟨w, f, rest, rfl, hne, hw, hf, hlen, hr⟩ := plainDecimal_split s h
  have hparse := ParseAmount_plain w f rest hne hw hf hlen hr
  have hval := decimalValue_split w f rest hw hr
  obtain ⟨w', rest', f', hfmt, hne', hw', hf', hr', hq, hm⟩ :=
    FormatAmount_natCast (digitsValue w * 10 ^ 6 + digitsValue f * 10 ^ (6 - f.length))
  have hr'' : rest' = [] ∧ f' = [] ∨ rest' = '.' :: f' := by
    rcases hr' with h' | h'
    · exact Or.inl ⟨h'.1, h'.2.1⟩
    · exact Or.inr h'.1
  have hlen' : f'.length ≤ 6 := by
    rcases hr' with h' | h'
    · rw [h'.2.1]
      simp
    · omega
  have hpow : (10 : ℚ) ^ 6 = 10 ^ f.length * 10 ^ (6 - f.length) := by
    rw [← pow_add]
    congr 1
    omega
  have hfrac : (digitsValue f : ℚ) / 10 ^ f.length * 10 ^ 6 =
      (digitsValue f : ℚ) * 10 ^ (6 - f.length) := by
    have hpos : (10 : ℚ) ^ f.length ≠ 0 := pow_ne_zero _ (by norm_num)
    rw [hpow]
    field_simp
    ring
  have hscaled : ((digitsValue w * 10 ^ 6 + digitsValue f * 10 ^ (6 - f.length) : Nat) : ℚ) =
      decimalValue (w ++ rest) * 10 ^ 6 := by
    rw [hval, add_mul, hfrac]
    push_cast
    ring
  refine ⟨_, hparse, by positivity, ?_, ?_, ?_⟩
  · rw [Int.cast_natCast]
    exact hscaled
  · rw [hfmt]
    exact plainDecimal_of_split w' f' rest' hne' hw' hf' hlen' hr''
  · rw [hfmt, decimalValue_split w' f' rest' hw' hr'', hq, hm]
    have key := hscaled
    rw [natCast_div_mod] at key
    have h6 : (10 : ℚ) ^ 6 ≠ 0 := by norm_num
    rcases hr' with h' | h'
    · rw [h'.2.2] at key ⊢
      simp only [Nat.cast_zero, zero_div, add_zero] at key ⊢
      exact mul_right_cancel₀ h6 key
    · rw [h'.2]
      field_simp
      linarith

/-- C1, at the string `0002.50`. -/
theorem ParseAmount_FormatAmount_roundtrip_witness :
    plainDecimal "0002.50".toList = true ∧
    ∃ a : Int, ParseAmount "0002.50".toList = .ok a ∧ 0 ≤ a ∧
      (a : ℚ) = decimalValue "0002.50".toList * 10 ^ 6 ∧
      plainDecimal (FormatAmount (some a)) = true ∧
      decimalValue (FormatAmount (some a)) = decimalValue "0002.50".toList :=
  ⟨by decide, ParseAmount_FormatAmount_roundtrip _ (by decide)⟩

/-- C2, the input `+-1`: `ParseAmount` strips the `+`, does not look for a
sign again, and `SetString` reads the `-`, so that a negative amount comes
back. -/
theorem ParseAmount_plus_minus_is_negative :
    ParseAmount "+-1".toList = .ok (-1000000) ∧ ParseAmount "-1".toList =
      .error "amount cannot be negative".toList := by
  decide

/-! ## Lemmas: the dispatcher -/

theorem callSingle_snd (c : Client) (e : Endpoint) (r : Reply) :
    (callSingle c e r).2 = { c with callID := (c.callID + 1) % 2 ^ 64 } := by
  unfold callSingle
  cases r with
  | encodeFailed err => rfl
  | buildFailed err => rfl
  | transportFailed err => rfl
  | http status preview body =>
    simp only
    split
    · rfl
    · cases body with
      | error err => rfl
      | ok resp =>
        cases h : resp.Error with
        | none => simp only [h]
        | some e => simp only [h]

theorem callSingle_fst_indep (c c' : Client) (e e' : Endpoint) (r : Reply) :
    (callSingle c e r).1 = (callSingle c' e' r).1 := by
  unfold callSingle
  cases r with
  | encodeFailed err => rfl
  | buildFailed err => rfl
  | transportFailed err => rfl
  | http status preview body =>
    simp only
    split
    · rfl
    · cases body with
      | error err => rfl
      | ok resp =>
        cases h : resp.Error with
        | none => simp only [h]
        | some e => simp only [h]

theorem attempt_indep (c c' : Client) (net : Nat → Reply) (idx : Nat) :
    attempt c net idx = attempt c' net idx :=
  callSingle_fst_indep _ _ _ _ _

theorem failureLine_congr (c c' : Client) (net : Nat → Reply) (idx : Nat)
    (h : c'.endpoints = c.endpoints) : failureLine c' net idx = failureLine c net idx := by
  unfold failureLine
  rw [h, attempt_indep c' c]

theorem callLoop_ok (start : Nat) (net : Nat → Reply) (remaining i : Nat) (c : Client)
    (errs : List GoString) (tried : List Nat) (res : RawMessage)
    (h : attempt c net ((start + i) % c.endpoints.length) = .ok res) :
    callLoop start net (remaining + 1) i c errs tried =
      ({ result := res,
         endpoint := c.endpoints.getD ((start + i) % c.endpoints.length) Endpoint.zero,
         err := none, tried := tried ++ [(start + i) % c.endpoints.length] },
       { c with callID := (c.callID + 1) % 2 ^ 64 }) := by
  unfold attempt at h
  have h2 := callSingle_snd c (c.endpoints.getD ((start + i) % c.endpoints.length) Endpoint.zero)
    (net ((start + i) % c.endpoints.length))
  rw [callLoop]
  split
  · rename_i r c' heq
    rw [heq] at h h2
    simp only at h h2
    cases h
    rw [h2]
  · rename_i e c' heq
    rw [heq] at h
    simp at h

theorem callLoop_error (start : Nat) (net : Nat → Reply) (remaining i : Nat) (c : Client)
    (errs : List GoString) (tried : List Nat) (reason : GoString)
    (h : attempt c net ((start + i) % c.endpoints.length) = .error reason) :
    callLoop start net (remaining + 1) i c errs tried =
      callLoop start net remaining (i + 1) { c with callID := (c.callID + 1) % 2 ^ 64 }
        (errs ++ [failureLine c net ((start + i) % c.endpoints.length)])
        (tried ++ [(start + i) % c.endpoints.length]) := by
  have hline : failureLine c net ((start + i) % c.endpoints.length) =
      (c.endpoints.getD ((start + i) % c.endpoints.length) Endpoint.zero).Name ++
        ": ".toList ++ reason := by
    unfold failureLine
    rw [h]
  unfold attempt at h
  have h2 := callSingle_snd c (c.endpoints.getD ((start + i) % c.endpoints.length) Endpoint.zero)
    (net ((start + i) % c.endpoints.length))
  rw [callLoop]
  split
  · rename_i r c' heq
    rw [heq] at h
    simp at h
  · rename_i e c' heq
    rw [heq] at h h2
    simp only at h h2
    cases h
    rw [h2, hline]

theorem range_map_shift {α : Type} (f : Nat → α) (m : Nat) :
    (List.range (m + 1)).map f = f 0 :: (List.range m).map (fun j => f (j + 1)) := by
  rw [List.range_succ_eq_map]
  simp [List.map_map, Function.comp_def]

theorem callLoop_spec (start : Nat) (net : Nat → Reply) :
    ∀ (remaining i : Nat) (c : Client) (errs : List GoString) (tried : List Nat),
      (callLoop start net remaining i c errs tried).2.endpoints = c.endpoints ∧
      (callLoop start net remaining i c errs tried).2.next = c.next ∧
      ((∃ k res, k < remaining ∧
          (∀ j, j < k →
            ∃ e, attempt c net ((start + (i + j)) % c.endpoints.length) = .error e) ∧
          attempt c net ((start + (i + k)) % c.endpoints.length) = .ok res ∧
          (callLoop start net remaining i c errs tried).1 =
            { result := res,
              endpoint := c.endpoints.getD ((start + (i + k)) % c.endpoints.length) Endpoint.zero,
              err := none,
              tried := tried ++
                (List.range (k + 1)).map (fun j => (start + (i + j)) % c.endpoints.length) }) ∨
       ((∀ j, j < remaining →
            ∃ e, attempt c net ((start + (i + j)) % c.endpoints.length) = .error e) ∧
          (callLoop start net remaining i c errs tried).1 =
            { result := .absent, endpoint := Endpoint.zero,
              err := some ("all endpoints failed: ".toList ++
                Join (errs ++ (List.range remaining).map
                  (fun j => failureLine c net ((start + (i + j)) % c.endpoints.length)))
                  "; ".toList),
              tried := tried ++
                (List.range remaining).map (fun j => (start + (i + j)) % c.endpoints.length) })) := by
  intro remaining
  induction remaining with
  | zero =>
    intro i c errs tried
    refine ⟨rfl, rfl, Or.inr ⟨fun j hj => absurd hj (Nat.not_lt_zero j), ?_⟩⟩
    simp [callLoop]
  | succ r ih =>
    intro i c errs tried
    cases h : attempt c net ((start + i) % c.endpoints.length) with
    | ok res =>
      rw [callLoop_ok start net r i c errs tried res h]
      exact ⟨rfl, rfl, Or.inl ⟨0, res, Nat.succ_pos r, fun j hj => absurd hj (Nat.not_lt_zero j),
        h, rfl⟩⟩
    | error reason =>
      rw [callLoop_error start net r i c errs tried reason h]
      have hshift : ∀ j, i + 1 + j = i + (j + 1) := fun j => by omega
      obtain ⟨he, hn, hcase⟩ := ih (i + 1) { c with callID := (c.callID + 1) % 2 ^ 64 }
        (errs ++ [failureLine c net ((start + i) % c.endpoints.length)])
        (tried ++ [(start + i) % c.endpoints.length])
      refine ⟨he, hn, ?_⟩
      rcases hcase with ⟨k, res, hk, hfail, hok, hout⟩ | ⟨hfail, hout⟩
      · refine Or.inl ⟨k + 1, res, Nat.succ_lt_succ hk, ?_, ?_, ?_⟩
        · intro j hj
          cases j with
          | zero => exact ⟨reason, h⟩
          | succ j =>
            obtain ⟨e, hje⟩ := hfail j (Nat.lt_of_succ_lt_succ hj)
            refine ⟨e, ?_⟩
            rw [attempt_indep _ c, hshift] at hje
            exact hje
        · rw [attempt_indep _ c, hshift] at hok
          exact hok
        · rw [hout, range_map_shift _ (k + 1)]
          simp only [hshift, Nat.add_zero, List.append_assoc, List.singleton_append]
      · refine Or.inr ⟨?_, ?_⟩
        · intro j hj
          cases j with
          | zero => exact ⟨reason, h⟩
          | succ j =>
            obtain ⟨e, hje⟩ := hfail j (Nat.lt_of_succ_lt_succ hj)
            refine ⟨e, ?_⟩
            rw [attempt_indep _ c, hshift] at hje
            exact hje
        · rw [hout, range_map_shift _ r, range_map_shift _ r]
          have hfl : ∀ idx, failureLine { c with callID := (c.callID + 1) % 2 ^ 64 } net idx =
              failureLine c net idx := fun idx => failureLine_congr c _ net idx rfl
          simp only [hshift, hfl, Nat.add_zero, List.append_assoc, List.singleton_append]

theorem Call_spec (c : Client) (net : Nat → Reply) (hn : 0 < c.endpoints.length) :
    (Call c net).2.endpoints = c.endpoints ∧
    (Call c net).2.next = (c.next + 1) % c.endpoints.length ∧
    ((∃ k res, k < c.endpoints.length ∧
        (∀ j, j < k → ∃ e, attempt c net ((c.next + j) % c.endpoints.length) = .error e) ∧
        attempt c net ((c.next + k) % c.endpoints.length) = .ok res ∧
        (Call c net).1 =
          { result := res,
            endpoint := c.endpoints.getD ((c.next + k) % c.endpoints.length) Endpoint.zero,
            err := none,
            tried := (List.range (k + 1)).map (fun j => (c.next + j) % c.endpoints.length) }) ∨
     ((∀ j, j < c.endpoints.length →
          ∃ e, attempt c net ((c.next + j) % c.endpoints.length) = .error e) ∧
        (Call c net).1 =
          { result := .absent, endpoint := Endpoint.zero,
            err := some ("all endpoints failed: ".toList ++
              Join ((attemptOrder c).map (failureLine c net)) "; ".toList),
            tried := attemptOrder c })) := by
  have hne : ¬ (c.endpoints.length = 0) := by omega
  have hcall : Call c net = callLoop c.next net c.endpoints.length 0
      { c with next := (c.next + 1) % c.endpoints.length } [] [] := by
    unfold Call nextIndex
    rw [if_neg hne]
  have hfl : ∀ idx, failureLine { c with next := (c.next + 1) % c.endpoints.length } net idx =
      failureLine c net idx := fun idx => failureLine_congr c _ net idx rfl
  obtain ⟨he, hnx, hcase⟩ := callLoop_spec c.next net c.endpoints.length 0
    { c with next := (c.next + 1) % c.endpoints.length } [] []
  rw [← hcall] at he hnx hcase
  refine ⟨he, hnx, ?_⟩
  simp only [Nat.zero_add, List.nil_append, hfl,
    attempt_indep { c with next := (c.next + 1) % c.endpoints.length } c] at hcase
  rcases hcase with ⟨k, res, hk, hfail, hok, hout⟩ | ⟨hfail, hout⟩
  · exact Or.inl ⟨k, res, hk, hfail, hok, hout⟩
  · refine Or.inr ⟨hfail, ?_⟩
    rw [hout]
    simp only [attemptOrder, List.map_map, Function.comp_def]

theorem rotation_injective (s n i j : Nat) (hi : i < n) (hj : j < n)
    (h : (s + i) % n = (s + j) % n) : i = j := by
  have h1 : i % n = j % n := Nat.ModEq.add_left_cancel' s h
  rwa [Nat.mod_eq_of_lt hi, Nat.mod_eq_of_lt hj] at h1

theorem attemptOrder_nodup (c : Client) : (attemptOrder c).Nodup := by
  unfold attemptOrder
  refine List.Nodup.map_on ?_ (List.nodup_range _)
  intro x hx y hy h
  exact rotation_injective c.next _ x y (List.mem_range.mp hx) (List.mem_range.mp hy) h

theorem mem_attemptOrder (c : Client) (idx : Nat) :
    idx ∈ attemptOrder c ↔ idx < c.endpoints.length := by
  unfold attemptOrder
  simp only [List.mem_map, List.mem_range]
  constructor
  · rintro ⟨i, hi, rfl⟩
    exact Nat.mod_lt _ (by omega)
  · intro h
    have hs : c.next % c.endpoints.length < c.endpoints.length := Nat.mod_lt _ (by omega)
    by_cases hle : c.next % c.endpoints.length ≤ idx
    · refine ⟨idx - c.next % c.endpoints.length, by omega, ?_⟩
      rw [Nat.add_mod, Nat.mod_eq_of_lt (a := idx - c.next % c.endpoints.length) (by omega)]
      have : c.next % c.endpoints.length + (idx - c.next % c.endpoints.length) = idx := by omega
      rw [this, Nat.mod_eq_of_lt h]
    · refine ⟨idx + c.endpoints.length - c.next % c.endpoints.length, by omega, ?_⟩
      rw [Nat.add_mod, Nat.mod_eq_of_lt
        (a := idx + c.endpoints.length - c.next % c.endpoints.length) (by omega)]
      have : c.next % c.endpoints.length +
          (idx + c.endpoints.length - c.next % c.endpoints.length) = idx + c.endpoints.length := by
        omega
      rw [this, Nat.add_mod_right, Nat.mod_eq_of_lt h]

theorem attemptOrder_take (c : Client) (k : Nat) (hk : k ≤ c.endpoints.length) :
    (attemptOrder c).take k =
      (List.range k).map (fun j => (c.next + j) % c.endpoints.length) := by
  unfold attemptOrder
  rw [← List.map_take, List.take_range, Nat.min_eq_left hk]

/-! ## Theorems: the dispatcher -/

/-- C3. A call on a client with `n >= 1` endpoints and cursor `s` hands to
`callSingle` an initial stretch of the indices `s, s+1, ..., s+n-1 (mod n)`, in
that order and without repetition; every attempt before the last one failed,
and the last one either succeeded, and then the call returns its result and
its endpoint with no error, or it is the `n`-th attempt and the call returns
an error. -/
theorem Call_tries_endpoints_in_rotation (c : Client) (net : Nat → Reply)
    (hn : 0 < c.endpoints.length) :
    (attemptOrder c).Nodup ∧
    ∃ k, k < c.endpoints.length ∧
      (Call c net).1.tried = (attemptOrder c).take (k + 1) ∧
      (∀ j, j < k → ∃ e, attempt c net ((c.next + j) % c.endpoints.length) = .error e) ∧
      ((∃ res, attempt c net ((c.next + k) % c.endpoints.length) = .ok res ∧
          (Call c net).1.err = none ∧ (Call c net).1.result = res ∧
          (Call c net).1.endpoint =
            c.endpoints.getD ((c.next + k) % c.endpoints.length) Endpoint.zero) ∨
       (k + 1 = c.endpoints.length ∧
          (∃ e, attempt c net ((c.next + k) % c.endpoints.length) = .error e) ∧
          (Call c net).1.err ≠ none)) := by
  refine ⟨attemptOrder_nodup c, ?_⟩
  obtain ⟨_, _, hcase⟩ := Call_spec c net hn
  rcases hcase with ⟨k, res, hk, hfail, hok, hout⟩ | ⟨hfail, hout⟩
  · refine ⟨k, hk, ?_, hfail, Or.inl ⟨res, hok, ?_, ?_, ?_⟩⟩
    · rw [hout, attemptOrder_take c (k + 1) hk]
    · rw [hout]
    · rw [hout]
    · rw [hout]
  · refine ⟨c.endpoints.length - 1, by omega, ?_, fun j hj => hfail j (by omega),
      Or.inr ⟨by omega, hfail _ (by omega), ?_⟩⟩
    · rw [hout]
      have hlen : (attemptOrder c).length = c.endpoints.length := by simp [attemptOrder]
      have h1 : c.endpoints.length - 1 + 1 = (attemptOrder c).length := by omega
      rw [h1, List.take_length]
    · rw [hout]
      simp

/-- C3, on the pool `[A, B]` with cursor 0, where `A` fails and `B`
succeeds: the first call tries `A` then `B`, returns the result of `B` and
reports `B`; the second call tries `B` first, and only `B`. -/
theorem Call_tries_endpoints_in_rotation_witness :
    0 < clientAB.endpoints.length ∧
    ((attemptOrder clientAB).Nodup ∧
      ∃ k, k < clientAB.endpoints.length ∧
        (Call clientAB netAFailsBSucceeds).1.tried = (attemptOrder clientAB).take (k + 1) ∧
        (∀ j, j < k → ∃ e, attempt clientAB netAFailsBSucceeds
          ((clientAB.next + j) % clientAB.endpoints.length) = .error e) ∧
        ((∃ res, attempt clientAB netAFailsBSucceeds
            ((clientAB.next + k) % clientAB.endpoints.length) = .ok res ∧
            (Call clientAB netAFailsBSucceeds).1.err = none ∧
            (Call clientAB netAFailsBSucceeds).1.result = res ∧
            (Call clientAB netAFailsBSucceeds).1.endpoint =
              clientAB.endpoints.getD ((clientAB.next + k) % clientAB.endpoints.length)
                Endpoint.zero) ∨
         (k + 1 = clientAB.endpoints.length ∧
            (∃ e, attempt clientAB netAFailsBSucceeds
              ((clientAB.next + k) % clientAB.endpoints.length) = .error e) ∧
            (Call clientAB netAFailsBSucceeds).1.err ≠ none))) ∧
    (Call clientAB netAFailsBSucceeds).1 =
      { result := .str "0x01".toList, endpoint := endpointB, err := none, tried := [0, 1] } ∧
    (Call (Call clientAB netAFailsBSucceeds).2 netAFailsBSucceeds).1 =
      { result := .str "0x01".toList, endpoint := endpointB, err := none, tried := [1] } :=
  ⟨by decide, Call_tries_endpoints_in_rotation clientAB netAFailsBSucceeds (by decide),
    by decide, by decide⟩

/-- C4. In every state that a client built by `NewClient` reaches through
calls, whatever the replies, the pool is unchanged and not empty, the cursor is
below the number `n` of endpoints and equals the number of calls made so far
modulo `n`, and one more call moves it to `(cursor + 1) mod n`. -/
theorem Call_advances_cursor_once (endpoints : List Endpoint) (c0 : Client)
    (h : NewClient endpoints = .ok c0) (nets : List (Nat → Reply)) :
    0 < endpoints.length ∧
    (runCalls c0 nets).endpoints = endpoints ∧
    (runCalls c0 nets).next < endpoints.length ∧
    (runCalls c0 nets).next = nets.length % endpoints.length ∧
    ∀ net, (Call (runCalls c0 nets) net).2.next =
      ((runCalls c0 nets).next + 1) % endpoints.length := by
  unfold NewClient at h
  by_cases hz : endpoints.length = 0
  · rw [if_pos hz] at h
    cases h
  · rw [if_neg hz] at h
    have hc0 : c0 = { endpoints := endpoints, next := 0, callID := 0 } := by
      cases h
      rfl
    have hpos : 0 < endpoints.length := by omega
    have hinv : ∀ (nets : List (Nat → Reply)) (c : Client), c.endpoints = endpoints →
        (runCalls c nets).endpoints = endpoints ∧
        (runCalls c nets).next % endpoints.length = (c.next + nets.length) % endpoints.length ∧
        (nets ≠ [] → (runCalls c nets).next < endpoints.length) := by
      intro nets
      induction nets with
      | nil =>
        intro c hc
        exact ⟨hc, rfl, fun hne => absurd rfl hne⟩
      | cons net rest ih =>
        intro c hc
        obtain ⟨he, hnx, _⟩ := Call_spec c net (by rw [hc]; exact hpos)
        rw [hc] at he hnx
        obtain ⟨ie, inx, ilt⟩ := ih (Call c net).2 he
        have hstep : runCalls c (net :: rest) = runCalls (Call c net).2 rest := rfl
        rw [hstep]
        refine ⟨ie, ?_, ?_⟩
        · rw [inx, hnx, List.length_cons, Nat.add_mod, Nat.mod_mod, ← Nat.add_mod]
          congr 1
          omega
        · intro _
          by_cases hrest : rest = []
          · rw [hrest]
            show (Call c net).2.next < endpoints.length
            rw [hnx]
            exact Nat.mod_lt _ hpos
          · exact ilt hrest
    obtain ⟨he, hnx, hlt⟩ := hinv nets c0 (by rw [hc0])
    have hnext0 : c0.next = 0 := by rw [hc0]
    rw [hnext0, Nat.zero_add] at hnx
    have hbound : (runCalls c0 nets).next < endpoints.length := by
      by_cases hnil : nets = []
      · rw [hnil]
        show c0.next < endpoints.length
        rw [hnext0]
        exact hpos
      · exact hlt hnil
    refine ⟨hpos, he, hbound, ?_, ?_⟩
    · rw [← hnx, Nat.mod_eq_of_lt hbound]
    · intro net
      have hcall := (Call_spec (runCalls c0 nets) net (by rw [he]; exact hpos)).2.1
      rw [he] at hcall
      exact hcall

/-- C4, on the pool `[A, B]`, after three calls of which the first and the
third need a failover. -/
theorem Call_advances_cursor_once_witness :
    NewClient [endpointA, endpointB] = .ok clientAB ∧
    (0 < [endpointA, endpointB].length ∧
      (runCalls clientAB [netAFailsBSucceeds, netBothFail, netAFailsBSucceeds]).endpoints =
        [endpointA, endpointB] ∧
      (runCalls clientAB [netAFailsBSucceeds, netBothFail, netAFailsBSucceeds]).next <
        [endpointA, endpointB].length ∧
      (runCalls clientAB [netAFailsBSucceeds, netBothFail, netAFailsBSucceeds]).next =
        [netAFailsBSucceeds, netBothFail, netAFailsBSucceeds].length %
          [endpointA, endpointB].length ∧
      ∀ net, (Call (runCalls clientAB [netAFailsBSucceeds, netBothFail, netAFailsBSucceeds])
          net).2.next =
        ((runCalls clientAB [netAFailsBSucceeds, netBothFail, netAFailsBSucceeds]).next + 1) %
          [endpointA, endpointB].length) :=
  ⟨by decide, Call_advances_cursor_once [endpointA, endpointB] clientAB (by decide)
    [netAFailsBSucceeds, netBothFail, netAFailsBSucceeds]⟩

theorem mem_intersperse_of_mem {α : Type} (sep x : α) :
    ∀ (l : List α), x ∈ l → x ∈ l.intersperse sep := by
  intro l
  induction l with
  | nil => intro h; exact h
  | cons a t ih =>
    intro h
    cases t with
    | nil => simpa using h
    | cons b t' =>
      have e : (a :: b :: t').intersperse sep = a :: sep :: (b :: t').intersperse sep := rfl
      rw [e]
      rcases List.mem_cons.mp h with rfl | h
      · exact List.mem_cons_self _ _
      · exact List.mem_cons_of_mem _ (List.mem_cons_of_mem _ (ih h))

theorem infix_Join_of_mem (sep x : GoString) (l : List GoString) (h : x ∈ l) :
    x <:+: Join l sep := by
  unfold Join List.intercalate
  exact List.infix_of_mem_flatten (mem_intersperse_of_mem sep x l h)

/-- C5. On a client with `n >= 1` endpoints a call returns an error exactly
when the attempt on every endpoint fails.  It then returns the nil result and
the zero endpoint, it has tried all endpoints in rotation order, and its error
text is `all endpoints failed: ` followed by the entries `name: reason` of the
endpoints in the order of the attempts, joined by `; `; so the entry of every
endpoint occurs in the text. -/
theorem Call_fails_iff_all_endpoints_fail (c : Client) (net : Nat → Reply)
    (hn : 0 < c.endpoints.length) :
    ((Call c net).1.err ≠ none ↔
      ∀ idx, idx < c.endpoints.length → ∃ e, attempt c net idx = .error e) ∧
    ((Call c net).1.err ≠ none →
      (Call c net).1.result = .absent ∧ (Call c net).1.endpoint = Endpoint.zero ∧
      (Call c net).1.tried = attemptOrder c ∧
      (Call c net).1.err = some ("all endpoints failed: ".toList ++
        Join ((attemptOrder c).map (failureLine c net)) "; ".toList) ∧
      ∀ idx, idx < c.endpoints.length → ∀ text, (Call c net).1.err = some text →
        failureLine c net idx <:+: text) := by
  obtain ⟨_, _, hcase⟩ := Call_spec c net hn
  rcases hcase with ⟨k, res, hk, hfail, hok, hout⟩ | ⟨hfail, hout⟩
  · have herr : (Call c net).1.err = none := by rw [hout]
    refine ⟨⟨fun h => absurd herr h, ?_⟩, fun h => absurd herr h⟩
    intro hall
    obtain ⟨e, he⟩ := hall ((c.next + k) % c.endpoints.length) (Nat.mod_lt _ hn)
    rw [hok] at he
    cases he
  · have herr : (Call c net).1.err ≠ none := by
      rw [hout]
      simp
    refine ⟨⟨fun _ => ?_, fun _ => herr⟩, fun _ => ⟨by rw [hout], by rw [hout], by rw [hout],
      by rw [hout], ?_⟩⟩
    · intro idx hidx
      obtain ⟨i, hi, rfl⟩ : ∃ i, i < c.endpoints.length ∧
          (c.next + i) % c.endpoints.length = idx := by
        have := (mem_attemptOrder c idx).mpr hidx
        unfold attemptOrder at this
        simpa [List.mem_map, List.mem_range] using this
      exact hfail i hi
    · intro idx hidx text htext
      rw [hout] at htext
      simp only [Option.some.injEq] at htext
      rw [← htext]
      have hmem : failureLine c net idx ∈ (attemptOrder c).map (failureLine c net) :=
        List.mem_map.mpr ⟨idx, (mem_attemptOrder c idx).mpr hidx, rfl⟩
      exact List.IsInfix.trans (infix_Join_of_mem _ _ _ hmem) (List.suffix_append _ _).isInfix

/-- C5, on the pool `[A, B]` where both endpoints fail: the error names `A`
and `B`, each with its reason, in the order of the attempts. -/
theorem Call_fails_iff_all_endpoints_fail_witness :
    0 < clientAB.endpoints.length ∧
    (((Call clientAB netBothFail).1.err ≠ none ↔
      ∀ idx, idx < clientAB.endpoints.length → ∃ e, attempt clientAB netBothFail idx = .error e) ∧
    ((Call clientAB netBothFail).1.err ≠ none →
      (Call clientAB netBothFail).1.result = .absent ∧
      (Call clientAB netBothFail).1.endpoint = Endpoint.zero ∧
      (Call clientAB netBothFail).1.tried = attemptOrder clientAB ∧
      (Call clientAB netBothFail).1.err = some ("all endpoints failed: ".toList ++
        Join ((attemptOrder clientAB).map (failureLine clientAB netBothFail)) "; ".toList) ∧
      ∀ idx, idx < clientAB.endpoints.length → ∀ text,
        (Call clientAB netBothFail).1.err = some text →
        failureLine clientAB netBothFail idx <:+: text)) ∧
    (Call clientAB netBothFail).1 =
      { result := .absent, endpoint := Endpoint.zero,
        err := some "all endpoints failed: A: connection refused; B: http 503: busy".toList,
        tried := [0, 1] } :=
  ⟨by decide, Call_fails_iff_all_endpoints_fail clientAB netBothFail (by decide), by decide⟩

/-! ## Lemmas: the monitor loop -/

theorem notify_iteration (w : World) (alertURL : GoString) (iteration : Nat)
    (balance threshold : Int) (e : Event) (h : e ∈ notify w alertURL iteration balance threshold) :
    e.iteration = iteration ∧ (∀ k, e ≠ .check k) ∧ (∀ k b n, e ≠ .balance k b n) ∧
      (∀ k b t', e ≠ .alert k b t') ∧ (∀ k err, e ≠ .fetchFailed k err) ∧
      (∀ k, e ≠ .stopping k) := by
  unfold notify at h
  split at h
  · simp only [List.mem_cons, List.mem_singleton, List.not_mem_nil, or_false] at h
    rcases h with rfl | rfl
    · simp [Event.iteration]
    · cases w.alertErr iteration <;> simp [Event.iteration]
  · simp at h

theorem checkOnce_cases (w : World) (threshold : Int) (exitAfterAlert : Bool)
    (alertURL : GoString) (iteration : Nat) (client : Client) :
    (∃ err, (fetchBalance client (w.net iteration)).1 = .error err ∧
      checkOnce w threshold exitAfterAlert alertURL iteration client =
        ([.check iteration, .fetchFailed iteration err], false,
          (fetchBalance client (w.net iteration)).2)) ∨
    (∃ b n, (fetchBalance client (w.net iteration)).1 = .ok (b, n) ∧ threshold ≤ b ∧
      checkOnce w threshold exitAfterAlert alertURL iteration client =
        ([.check iteration, .balance iteration b n, .alert iteration b threshold] ++
          notify w alertURL iteration b threshold, exitAfterAlert,
          (fetchBalance client (w.net iteration)).2)) ∨
    (∃ b n, (fetchBalance client (w.net iteration)).1 = .ok (b, n) ∧ b < threshold ∧
      checkOnce w threshold exitAfterAlert alertURL iteration client =
        ([.check iteration, .balance iteration b n], false,
          (fetchBalance client (w.net iteration)).2)) := by
  unfold checkOnce
  rcases hfetch : fetchBalance client (w.net iteration) with ⟨r, c'⟩
  cases r with
  | error err => exact Or.inl ⟨err, rfl, rfl⟩
  | ok v =>
    obtain ⟨b, n⟩ := v
    by_cases hb : threshold ≤ b
    · refine Or.inr (Or.inl ⟨b, n, rfl, hb, ?_⟩)
      simp only [ge_iff_le, hb, if_true]
    · refine Or.inr (Or.inr ⟨b, n, rfl, by omega, ?_⟩)
      simp only [ge_iff_le, hb, if_false]

theorem runLoopFrom_succ (w : World) (threshold : Int) (once exitAfterAlert : Bool)
    (alertURL : GoString) (fuel iteration : Nat) (client : Client) :
    runLoopFrom w threshold once exitAfterAlert alertURL (fuel + 1) iteration client =
      if iteration > 0 ∧ once = true then ([], true)
      else if iteration > 0 ∧ w.done iteration = true then ([.stopping iteration], true)
      else if w.ctxErr iteration = true then ([.stopping iteration], true)
      else if (checkOnce w threshold exitAfterAlert alertURL iteration client).2.1 = true then
        ((checkOnce w threshold exitAfterAlert alertURL iteration client).1, true)
      else if once = true then
        ((checkOnce w threshold exitAfterAlert alertURL iteration client).1, true)
      else
        ((checkOnce w threshold exitAfterAlert alertURL iteration client).1 ++
          (runLoopFrom w threshold once exitAfterAlert alertURL fuel (iteration + 1)
            (checkOnce w threshold exitAfterAlert alertURL iteration client).2.2).1,
         (runLoopFrom w threshold once exitAfterAlert alertURL fuel (iteration + 1)
            (checkOnce w threshold exitAfterAlert alertURL iteration client).2.2).2) := rfl

theorem checkOnce_iteration (w : World) (threshold : Int) (exitAfterAlert : Bool)
    (alertURL : GoString) (iteration : Nat) (client : Client) (e : Event)
    (h : e ∈ (checkOnce w threshold exitAfterAlert alertURL iteration client).1) :
    e.iteration = iteration := by
  rcases checkOnce_cases w threshold exitAfterAlert alertURL iteration client with
    ⟨err, _, hc⟩ | ⟨b, n, _, _, hc⟩ | ⟨b, n, _, _, hc⟩
  · rw [hc] at h
    simp only [List.mem_cons, List.mem_singleton, List.not_mem_nil, or_false] at h
    rcases h with rfl | rfl <;> rfl
  · rw [hc] at h
    simp only [List.mem_append, List.mem_cons, List.mem_singleton, List.not_mem_nil,
      or_false] at h
    rcases h with (rfl | rfl | rfl) | h
    · rfl
    · rfl
    · rfl
    · exact (notify_iteration w alertURL iteration b threshold e h).1
  · rw [hc] at h
    simp only [List.mem_cons, List.mem_singleton, List.not_mem_nil, or_false] at h
    rcases h with rfl | rfl <;> rfl

theorem runLoopFrom_iteration_ge (w : World) (threshold : Int) (once exitAfterAlert : Bool)
    (alertURL : GoString) (e : Event) :
    ∀ (fuel iteration : Nat) (client : Client),
      e ∈ (runLoopFrom w threshold once exitAfterAlert alertURL fuel iteration client).1 →
      iteration ≤ e.iteration := by
  intro fuel
  induction fuel with
  | zero =>
    intro iteration client h
    simp [runLoopFrom] at h
  | succ fuel ih =>
    intro iteration client h
    rw [runLoopFrom_succ] at h
    split_ifs at h with h1 h2 h3 h4 h5
    · simp at h
    · simp only [List.mem_singleton] at h
      rw [h]
      exact Nat.le_refl _
    · simp only [List.mem_singleton] at h
      rw [h]
      exact Nat.le_refl _
    · exact Nat.le_of_eq (checkOnce_iteration _ _ _ _ _ _ e h).symm
    · exact Nat.le_of_eq (checkOnce_iteration _ _ _ _ _ _ e h).symm
    · rcases List.mem_append.mp h with h | h
      · exact Nat.le_of_eq (checkOnce_iteration _ _ _ _ _ _ e h).symm
      · exact Nat.le_of_succ_le (ih _ _ h)

theorem checkOnce_alert_iff (w : World) (threshold : Int) (exitAfterAlert : Bool)
    (alertURL : GoString) (iteration : Nat) (client : Client) (k : Nat) (b : Int) :
    Event.alert k b threshold ∈
        (checkOnce w threshold exitAfterAlert alertURL iteration client).1 ↔
      (∃ n, Event.balance k b n ∈
        (checkOnce w threshold exitAfterAlert alertURL iteration client).1) ∧ threshold ≤ b := by
  rcases checkOnce_cases w threshold exitAfterAlert alertURL iteration client with
    ⟨err, _, hc⟩ | ⟨b0, n0, _, hb, hc⟩ | ⟨b0, n0, _, hb, hc⟩
  · rw [hc]
    simp
  · rw [hc]
    constructor
    · intro h
      simp only [List.mem_append, List.mem_cons, List.mem_singleton, List.not_mem_nil,
        or_false, reduceCtorEq, false_or, Event.alert.injEq] at h
      rcases h with ⟨rfl, rfl, _⟩ | h
      · exact ⟨⟨n0, by simp⟩, hb⟩
      · exact absurd rfl ((notify_iteration w alertURL iteration b0 threshold _ h).2.2.2.1 k b
          threshold)
    · rintro ⟨⟨n, h⟩, _⟩
      simp only [List.mem_append, List.mem_cons, List.mem_singleton, List.not_mem_nil,
        or_false, reduceCtorEq, false_or, Event.balance.injEq] at h
      rcases h with ⟨rfl, rfl, rfl⟩ | h
      · simp
      · exact absurd rfl ((notify_iteration w alertURL iteration b0 threshold _ h).2.2.1 k b n)
  · rw [hc]
    constructor
    · intro h
      simp at h
    · rintro ⟨⟨n, h⟩, hle⟩
      simp only [List.mem_cons, List.mem_singleton, List.not_mem_nil, or_false, reduceCtorEq,
        false_or, Event.balance.injEq] at h
      omega

theorem runLoopFrom_alert_iff (w : World) (threshold : Int) (once exitAfterAlert : Bool)
    (alertURL : GoString) (k : Nat) (b : Int) :
    ∀ (fuel iteration : Nat) (client : Client),
      Event.alert k b threshold ∈
          (runLoopFrom w threshold once exitAfterAlert alertURL fuel iteration client).1 ↔
        (∃ n, Event.balance k b n ∈
          (runLoopFrom w threshold once exitAfterAlert alertURL fuel iteration client).1) ∧
        threshold ≤ b := by
  intro fuel
  induction fuel with
  | zero =>
    intro iteration client
    simp [runLoopFrom]
  | succ fuel ih =>
    intro iteration client
    have hbody := checkOnce_alert_iff w threshold exitAfterAlert alertURL iteration client k b
    rw [runLoopFrom_succ]
    split_ifs with h1 h2 h3 h4 h5
    · simp
    · simp
    · simp
    · exact hbody
    · exact hbody
    · have hlater := ih (iteration + 1)
        (checkOnce w threshold exitAfterAlert alertURL iteration client).2.2
      simp only [List.mem_append]
      rw [hbody, hlater]
      constructor
      · rintro (⟨⟨n, h⟩, hle⟩ | ⟨⟨n, h⟩, hle⟩)
        · exact ⟨⟨n, Or.inl h⟩, hle⟩
        · exact ⟨⟨n, Or.inr h⟩, hle⟩
      · rintro ⟨⟨n, h | h⟩, hle⟩
        · exact Or.inl ⟨⟨n, h⟩, hle⟩
        · exact Or.inr ⟨⟨n, h⟩, hle⟩

theorem checkOnce_alert_iff_fetched (w : World) (threshold : Int) (exitAfterAlert : Bool)
    (alertURL : GoString) (iteration : Nat) (client : Client) :
    (∃ b, Event.alert iteration b threshold ∈
        (checkOnce w threshold exitAfterAlert alertURL iteration client).1) ↔
      ∃ b n, (fetchBalance client (w.net iteration)).1 = .ok (b, n) ∧ threshold ≤ b := by
  rcases checkOnce_cases w threshold exitAfterAlert alertURL iteration client with
    ⟨err, hf, hc⟩ | ⟨b0, n0, hf, hb, hc⟩ | ⟨b0, n0, hf, hb, hc⟩
  · rw [hc, hf]
    simp
  · rw [hc, hf]
    constructor
    · intro _
      exact ⟨b0, n0, rfl, hb⟩
    · intro _
      exact ⟨b0, by simp⟩
  · rw [hc, hf]
    constructor
    · rintro ⟨b, h⟩
      simp at h
    · rintro ⟨b, n, h, hle⟩
      simp only [Except.ok.injEq, Prod.mk.injEq] at h
      omega

theorem checkOnce_checkCount (w : World) (threshold : Int) (exitAfterAlert : Bool)
    (alertURL : GoString) (iteration : Nat) (client : Client) :
    checkCount (checkOnce w threshold exitAfterAlert alertURL iteration client).1 = 1 ∧
    Event.check iteration ∈ (checkOnce w threshold exitAfterAlert alertURL iteration client).1 := by
  rcases checkOnce_cases w threshold exitAfterAlert alertURL iteration client with
    ⟨err, _, hc⟩ | ⟨b0, n0, _, _, hc⟩ | ⟨b0, n0, _, _, hc⟩
  · rw [hc]
    exact ⟨rfl, by simp⟩
  · rw [hc]
    refine ⟨?_, by simp⟩
    unfold checkCount notify
    split
    · cases w.alertErr iteration <;> rfl
    · rfl
  · rw [hc]
    exact ⟨rfl, by simp⟩

theorem polling_stop (w : World) (threshold : Int) (exitAfterAlert : Bool)
    (alertURL : GoString) (fuel iteration : Nat) (client : Client)
    (h : (0 < iteration ∧ w.done iteration = true) ∨ w.ctxErr iteration = true) :
    runLoopFrom w threshold false exitAfterAlert alertURL (fuel + 1) iteration client =
      ([.stopping iteration], true) := by
  rw [runLoopFrom_succ]
  have g1 : ¬ (iteration > 0 ∧ false = true) := by simp
  rw [if_neg g1]
  by_cases hd : iteration > 0 ∧ w.done iteration = true
  · rw [if_pos hd]
  · rw [if_neg hd]
    rcases h with h | h
    · exact absurd h hd
    · rw [if_pos h]

theorem polling_exit (w : World) (threshold : Int) (exitAfterAlert : Bool)
    (alertURL : GoString) (fuel iteration : Nat) (client : Client)
    (h : ¬ ((0 < iteration ∧ w.done iteration = true) ∨ w.ctxErr iteration = true))
    (hx : (checkOnce w threshold exitAfterAlert alertURL iteration client).2.1 = true) :
    runLoopFrom w threshold false exitAfterAlert alertURL (fuel + 1) iteration client =
      ((checkOnce w threshold exitAfterAlert alertURL iteration client).1, true) := by
  rw [runLoopFrom_succ]
  have g1 : ¬ (iteration > 0 ∧ false = true) := by simp
  have g2 : ¬ (iteration > 0 ∧ w.done iteration = true) := fun hd => h (Or.inl hd)
  have g3 : ¬ (w.ctxErr iteration = true) := fun hc => h (Or.inr hc)
  rw [if_neg g1, if_neg g2, if_neg g3, if_pos hx]

theorem polling_continue (w : World) (threshold : Int) (exitAfterAlert : Bool)
    (alertURL : GoString) (fuel iteration : Nat) (client : Client)
    (h : ¬ ((0 < iteration ∧ w.done iteration = true) ∨ w.ctxErr iteration = true))
    (hx : ¬ (checkOnce w threshold exitAfterAlert alertURL iteration client).2.1 = true) :
    runLoopFrom w threshold false exitAfterAlert alertURL (fuel + 1) iteration client =
      ((checkOnce w threshold exitAfterAlert alertURL iteration client).1 ++
        (runLoopFrom w threshold false exitAfterAlert alertURL fuel (iteration + 1)
          (checkOnce w threshold exitAfterAlert alertURL iteration client).2.2).1,
       (runLoopFrom w threshold false exitAfterAlert alertURL fuel (iteration + 1)
          (checkOnce w threshold exitAfterAlert alertURL iteration client).2.2).2) := by
  rw [runLoopFrom_succ]
  have g1 : ¬ (iteration > 0 ∧ false = true) := by simp
  have g2 : ¬ (iteration > 0 ∧ w.done iteration = true) := fun hd => h (Or.inl hd)
  have g3 : ¬ (w.ctxErr iteration = true) := fun hc => h (Or.inr hc)
  have g5 : ¬ (false = true) := by simp
  rw [if_neg g1, if_neg g2, if_neg g3, if_neg hx, if_neg g5]

theorem checkOnce_mem_cases (w : World) (threshold : Int) (exitAfterAlert : Bool)
    (alertURL : GoString) (iteration : Nat) (client : Client) :
    ((checkOnce w threshold exitAfterAlert alertURL iteration client).2.1 = false ∧
      (∀ k b n, Event.balance k b n ∈
        (checkOnce w threshold exitAfterAlert alertURL iteration client).1 →
        k = iteration ∧ (b < threshold ∨ exitAfterAlert = false))) ∨
    ((checkOnce w threshold exitAfterAlert alertURL iteration client).2.1 = true ∧
      exitAfterAlert = true ∧
      (∀ k err, Event.fetchFailed k err ∉
        (checkOnce w threshold exitAfterAlert alertURL iteration client).1) ∧
      ∃ b0 n0, threshold ≤ b0 ∧
        (checkOnce w threshold exitAfterAlert alertURL iteration client).1 =
          [.check iteration, .balance iteration b0 n0, .alert iteration b0 threshold] ++
            notify w alertURL iteration b0 threshold ∧
        (∀ k b n, Event.balance k b n ∈
          (checkOnce w threshold exitAfterAlert alertURL iteration client).1 →
          k = iteration ∧ b = b0 ∧ n = n0)) := by
  rcases checkOnce_cases w threshold exitAfterAlert alertURL iteration client with
    ⟨err, _, hc⟩ | ⟨b0, n0, _, hb0, hc⟩ | ⟨b0, n0, _, hb0, hc⟩
  · refine Or.inl ⟨by rw [hc], ?_⟩
    intro k b n h
    rw [hc] at h
    simp at h
  · have hbal : ∀ k b n, Event.balance k b n ∈
        (checkOnce w threshold exitAfterAlert alertURL iteration client).1 →
        k = iteration ∧ b = b0 ∧ n = n0 := by
      intro k b n h
      rw [hc] at h
      simp only [List.mem_append, List.mem_cons, List.mem_singleton, List.not_mem_nil,
        or_false, reduceCtorEq, false_or, Event.balance.injEq] at h
      rcases h with h | h
      · exact h
      · exact absurd rfl ((notify_iteration w alertURL iteration b0 threshold _ h).2.2.1 k b n)
    by_cases hx : exitAfterAlert = true
    · refine Or.inr ⟨by rw [hc]; exact hx, hx, ?_, b0, n0, hb0, by rw [hc], hbal⟩
      intro k err h
      rw [hc] at h
      simp only [List.mem_append, List.mem_cons, List.mem_singleton, List.not_mem_nil,
        or_false, reduceCtorEq, false_or] at h
      exact absurd rfl ((notify_iteration w alertURL iteration b0 threshold _ h).2.2.2.2.1 k err)
    · have hx' : exitAfterAlert = false := by simpa using hx
      refine Or.inl ⟨by rw [hc]; exact hx', ?_⟩
      intro k b n h
      exact ⟨(hbal k b n h).1, Or.inr hx'⟩
  · refine Or.inl ⟨by rw [hc], ?_⟩
    intro k b n h
    rw [hc] at h
    simp only [List.mem_cons, List.mem_singleton, List.not_mem_nil, or_false, reduceCtorEq,
      false_or, Event.balance.injEq] at h
    exact ⟨h.1, Or.inl (by omega)⟩

theorem runLoopFrom_exit_after_alert (w : World) (threshold : Int) (alertURL : GoString)
    (k : Nat) (b : Int) (n : GoString) (hb : threshold ≤ b) :
    ∀ (fuel iteration : Nat) (client : Client),
      Event.balance k b n ∈
        (runLoopFrom w threshold false true alertURL fuel iteration client).1 →
      (runLoopFrom w threshold false true alertURL fuel iteration client).2 = true ∧
      ∃ before,
        (runLoopFrom w threshold false true alertURL fuel iteration client).1 =
          before ++ ([.check k, .balance k b n, .alert k b threshold] ++
            notify w alertURL k b threshold) ∧
        (∀ e ∈ before, e.iteration < k) ∧
        (∀ j b' n', Event.balance j b' n' ∈ before → b' < threshold) := by
  intro fuel
  induction fuel with
  | zero =>
    intro iteration client h
    simp [runLoopFrom] at h
  | succ fuel ih =>
    intro iteration client h
    have htag := checkOnce_iteration w threshold true alertURL iteration client
    by_cases hstop : (0 < iteration ∧ w.done iteration = true) ∨ w.ctxErr iteration = true
    · rw [polling_stop w threshold true alertURL fuel iteration client hstop] at h
      simp at h
    · rcases checkOnce_mem_cases w threshold true alertURL iteration client with
        ⟨hx, hbal⟩ | ⟨hx, _, _, b0, n0, hb0, hev, hbal⟩
      · have hx' : ¬ (checkOnce w threshold true alertURL iteration client).2.1 = true := by
          rw [hx]
          simp
        rw [polling_continue w threshold true alertURL fuel iteration client hstop hx'] at h ⊢
        have hk : Event.balance k b n ∈ (runLoopFrom w threshold false true alertURL fuel
            (iteration + 1) (checkOnce w threshold true alertURL iteration client).2.2).1 := by
          rcases List.mem_append.mp h with h | h
          · rcases (hbal k b n h).2 with hlt | hfalse
            · omega
            · simp at hfalse
          · exact h
        have hge := runLoopFrom_iteration_ge w threshold false true alertURL _ _ _ _ hk
        obtain ⟨hret, before, hev, hlt, hbefore⟩ := ih _ _ hk
        refine ⟨hret, (checkOnce w threshold true alertURL iteration client).1 ++ before, ?_, ?_,
          ?_⟩
        · show _ ++ _ = _
          rw [hev, List.append_assoc]
        · intro e he
          rcases List.mem_append.mp he with he | he
          · rw [htag e he]
            exact hge
          · exact hlt e he
        · intro j b' n' he
          rcases List.mem_append.mp he with he | he
          · rcases (hbal j b' n' he).2 with hlt' | hfalse
            · exact hlt'
            · simp at hfalse
          · exact hbefore j b' n' he
      · rw [polling_exit w threshold true alertURL fuel iteration client hstop hx] at h ⊢
        obtain ⟨rfl, rfl, rfl⟩ := hbal k b n h
        exact ⟨rfl, [], hev, fun e he => by simp at he, fun j b' n' he => by simp at he⟩

theorem runLoopFrom_next_check (w : World) (threshold : Int) (exitAfterAlert : Bool)
    (alertURL : GoString) (k : Nat) (e : Event)
    (he : (∃ err, e = .fetchFailed k err) ∨
      (∃ b n, e = .balance k b n ∧ (b < threshold ∨ exitAfterAlert = false)))
    (hdone : w.done (k + 1) = false) (hctx : w.ctxErr (k + 1) = false) :
    ∀ (fuel iteration : Nat) (client : Client),
      e ∈ (runLoopFrom w threshold false exitAfterAlert alertURL fuel iteration client).1 →
      Event.check (k + 1) ∈
        (runLoopFrom w threshold false exitAfterAlert alertURL (fuel + 1) iteration client).1 := by
  have hiter : e.iteration = k := by
    rcases he with ⟨err, rfl⟩ | ⟨b, n, rfl, _⟩ <;> rfl
  intro fuel
  induction fuel with
  | zero =>
    intro iteration client h
    simp [runLoopFrom] at h
  | succ fuel ih =>
    intro iteration client h
    have htag := checkOnce_iteration w threshold exitAfterAlert alertURL iteration client
    by_cases hstop : (0 < iteration ∧ w.done iteration = true) ∨ w.ctxErr iteration = true
    · rw [polling_stop w threshold exitAfterAlert alertURL fuel iteration client hstop] at h
      rcases he with ⟨err, rfl⟩ | ⟨b, n, rfl, _⟩ <;> simp at h
    · rcases checkOnce_mem_cases w threshold exitAfterAlert alertURL iteration client with
        ⟨hx, hbal⟩ | ⟨hx, hexit, hnofail, b0, n0, hb0, hev, hbal⟩
      · have hx' : ¬ (checkOnce w threshold exitAfterAlert alertURL iteration client).2.1 =
            true := by
          rw [hx]
          simp
        rw [polling_continue w threshold exitAfterAlert alertURL fuel iteration client hstop
          hx'] at h
        rw [polling_continue w threshold exitAfterAlert alertURL (fuel + 1) iteration client
          hstop hx']
        rcases List.mem_append.mp h with h | h
        · have hk : k = iteration := by rw [← hiter, htag e h]
          subst hk
          apply List.mem_append_right
          have hgo : ¬ ((0 < k + 1 ∧ w.done (k + 1) = true) ∨ w.ctxErr (k + 1) = true) := by
            simp [hdone, hctx]
          have hmem := (checkOnce_checkCount w threshold exitAfterAlert alertURL (k + 1)
            (checkOnce w threshold exitAfterAlert alertURL k client).2.2).2
          by_cases hx2 : (checkOnce w threshold exitAfterAlert alertURL (k + 1)
              (checkOnce w threshold exitAfterAlert alertURL k client).2.2).2.1 = true
          · rw [polling_exit w threshold exitAfterAlert alertURL fuel (k + 1) _ hgo hx2]
            exact hmem
          · rw [polling_continue w threshold exitAfterAlert alertURL fuel (k + 1) _ hgo hx2]
            exact List.mem_append_left _ hmem
        · exact List.mem_append_right _ (ih _ _ h)
      · exfalso
        rw [polling_exit w threshold exitAfterAlert alertURL fuel iteration client hstop hx] at h
        rcases he with ⟨err, rfl⟩ | ⟨b, n, rfl, hcond⟩
        · exact hnofail k err h
        · obtain ⟨_, rfl, _⟩ := hbal k b n h
          rcases hcond with hlt | hfalse
          · omega
          · rw [hexit] at hfalse
            simp at hfalse

theorem runLoopFrom_cases (w : World) (threshold : Int) (once exitAfterAlert : Bool)
    (alertURL : GoString) (fuel iteration : Nat) (client : Client) :
    (0 < iteration ∧ once = true ∧
      runLoopFrom w threshold once exitAfterAlert alertURL (fuel + 1) iteration client =
        ([], true)) ∨
    (((0 < iteration ∧ w.done iteration = true) ∨ w.ctxErr iteration = true) ∧
      runLoopFrom w threshold once exitAfterAlert alertURL (fuel + 1) iteration client =
        ([.stopping iteration], true)) ∨
    (¬ ((0 < iteration ∧ w.done iteration = true) ∨ w.ctxErr iteration = true) ∧
      runLoopFrom w threshold once exitAfterAlert alertURL (fuel + 1) iteration client =
        ((checkOnce w threshold exitAfterAlert alertURL iteration client).1, true)) ∨
    (¬ ((0 < iteration ∧ w.done iteration = true) ∨ w.ctxErr iteration = true) ∧
      once = false ∧
      (checkOnce w threshold exitAfterAlert alertURL iteration client).2.1 = false ∧
      runLoopFrom w threshold once exitAfterAlert alertURL (fuel + 1) iteration client =
        ((checkOnce w threshold exitAfterAlert alertURL iteration client).1 ++
          (runLoopFrom w threshold once exitAfterAlert alertURL fuel (iteration + 1)
            (checkOnce w threshold exitAfterAlert alertURL iteration client).2.2).1,
         (runLoopFrom w threshold once exitAfterAlert alertURL fuel (iteration + 1)
            (checkOnce w threshold exitAfterAlert alertURL iteration client).2.2).2)) := by
  rw [runLoopFrom_succ]
  by_cases h1 : iteration > 0 ∧ once = true
  · rw [if_pos h1]
    exact Or.inl ⟨h1.1, h1.2, rfl⟩
  · rw [if_neg h1]
    by_cases h2 : iteration > 0 ∧ w.done iteration = true
    · rw [if_pos h2]
      exact Or.inr (Or.inl ⟨Or.inl h2, rfl⟩)
    · rw [if_neg h2]
      by_cases h3 : w.ctxErr iteration = true
      · rw [if_pos h3]
        exact Or.inr (Or.inl ⟨Or.inr h3, rfl⟩)
      · rw [if_neg h3]
        have hgo : ¬ ((0 < iteration ∧ w.done iteration = true) ∨ w.ctxErr iteration = true) := by
          rintro (h | h)
          · exact h2 h
          · exact h3 h
        by_cases h4 : (checkOnce w threshold exitAfterAlert alertURL iteration client).2.1 = true
        · rw [if_pos h4]
          exact Or.inr (Or.inr (Or.inl ⟨hgo, rfl⟩))
        · rw [if_neg h4]
          by_cases h5 : once = true
          · rw [if_pos h5]
            exact Or.inr (Or.inr (Or.inl ⟨hgo, rfl⟩))
          · rw [if_neg h5]
            exact Or.inr (Or.inr (Or.inr ⟨hgo, by simpa using h5, by simpa using h4, rfl⟩))

theorem checkOnce_event_kinds (w : World) (threshold : Int) (exitAfterAlert : Bool)
    (alertURL : GoString) (iteration : Nat) (client : Client) (e : Event)
    (h : e ∈ (checkOnce w threshold exitAfterAlert alertURL iteration client).1) :
    (∀ k, e ≠ .stopping k) ∧
    (∀ k err, e = .fetchFailed k err → ∀ j b t',
      Event.alert j b t' ∉ (checkOnce w threshold exitAfterAlert alertURL iteration client).1) := by
  rcases checkOnce_cases w threshold exitAfterAlert alertURL iteration client with
    ⟨err, _, hc⟩ | ⟨b0, n0, _, _, hc⟩ | ⟨b0, n0, _, _, hc⟩
  · rw [hc] at h ⊢
    simp only [List.mem_cons, List.mem_singleton, List.not_mem_nil, or_false] at h
    rcases h with rfl | rfl <;> simp
  · rw [hc] at h ⊢
    simp only [List.mem_append, List.mem_cons, List.mem_singleton, List.not_mem_nil,
      or_false] at h
    rcases h with (rfl | rfl | rfl) | h
    · simp
    · simp
    · simp
    · have hn := notify_iteration w alertURL iteration b0 threshold e h
      refine ⟨hn.2.2.2.2.2, ?_⟩
      intro k err he
      exact absurd he (hn.2.2.2.2.1 k err)
  · rw [hc] at h ⊢
    simp only [List.mem_cons, List.mem_singleton, List.not_mem_nil, or_false] at h
    rcases h with rfl | rfl <;> simp

theorem runLoopFrom_check_guards (w : World) (threshold : Int) (once exitAfterAlert : Bool)
    (alertURL : GoString) (k : Nat) :
    ∀ (fuel iteration : Nat) (client : Client),
      Event.check k ∈
        (runLoopFrom w threshold once exitAfterAlert alertURL fuel iteration client).1 →
      ∀ j, iteration ≤ j → j ≤ k → w.ctxErr j = false ∧ (0 < j → w.done j = false) := by
  intro fuel
  induction fuel with
  | zero =>
    intro iteration client h
    simp [runLoopFrom] at h
  | succ fuel ih =>
    intro iteration client h j hij hjk
    have htag := checkOnce_iteration w threshold exitAfterAlert alertURL iteration client
    have hhere : ¬ ((0 < iteration ∧ w.done iteration = true) ∨ w.ctxErr iteration = true) →
        k = iteration → w.ctxErr j = false ∧ (0 < j → w.done j = false) := by
      intro hgo hk
      have hj : j = iteration := by omega
      rw [hj]
      constructor
      · simpa using fun hc => hgo (Or.inr hc)
      · intro hpos
        simpa using fun hd => hgo (Or.inl ⟨hpos, hd⟩)
    rcases runLoopFrom_cases w threshold once exitAfterAlert alertURL fuel iteration client with
      ⟨_, _, hr⟩ | ⟨_, hr⟩ | ⟨hgo, hr⟩ | ⟨hgo, _, _, hr⟩
    · rw [hr] at h
      simp at h
    · rw [hr] at h
      simp at h
    · rw [hr] at h
      exact hhere hgo (htag _ h)
    · rw [hr] at h
      rcases List.mem_append.mp h with h | h
      · exact hhere hgo (htag _ h)
      · by_cases hj : j = iteration
        · have hge := runLoopFrom_iteration_ge w threshold once exitAfterAlert alertURL _ _ _ _ h
          have hk : iteration + 1 ≤ k := hge
          rw [hj]
          constructor
          · simpa using fun hc => hgo (Or.inr hc)
          · intro hpos
            simpa using fun hd => hgo (Or.inl ⟨hpos, hd⟩)
        · exact ih _ _ h j (by omega) hjk

theorem runLoopFrom_returns_on_cancel (w : World) (threshold : Int) (once exitAfterAlert : Bool)
    (alertURL : GoString) (j : Nat)
    (hj : (0 < j ∧ w.done j = true) ∨ w.ctxErr j = true) :
    ∀ (fuel iteration : Nat) (client : Client), iteration ≤ j → j < iteration + fuel →
      (runLoopFrom w threshold once exitAfterAlert alertURL fuel iteration client).2 = true := by
  intro fuel
  induction fuel with
  | zero =>
    intro iteration client h1 h2
    omega
  | succ fuel ih =>
    intro iteration client h1 h2
    rcases runLoopFrom_cases w threshold once exitAfterAlert alertURL fuel iteration client with
      ⟨_, _, hr⟩ | ⟨_, hr⟩ | ⟨hgo, hr⟩ | ⟨hgo, _, _, hr⟩
    · rw [hr]
    · rw [hr]
    · rw [hr]
    · rw [hr]
      by_cases hji : j = iteration
      · rw [hji] at hj
        exact absurd hj hgo
      · exact ih _ _ (by omega) (by omega)

theorem runLoopFrom_stopping_last (w : World) (threshold : Int) (once exitAfterAlert : Bool)
    (alertURL : GoString) (k : Nat) :
    ∀ (fuel iteration : Nat) (client : Client),
      Event.stopping k ∈
        (runLoopFrom w threshold once exitAfterAlert alertURL fuel iteration client).1 →
      ((0 < k ∧ w.done k = true) ∨ w.ctxErr k = true) ∧
      (runLoopFrom w threshold once exitAfterAlert alertURL fuel iteration client).2 = true ∧
      ∃ before,
        (runLoopFrom w threshold once exitAfterAlert alertURL fuel iteration client).1 =
          before ++ [.stopping k] ∧ ∀ e ∈ before, e.iteration < k := by
  intro fuel
  induction fuel with
  | zero =>
    intro iteration client h
    simp [runLoopFrom] at h
  | succ fuel ih =>
    intro iteration client h
    have htag := checkOnce_iteration w threshold exitAfterAlert alertURL iteration client
    have hkind := checkOnce_event_kinds w threshold exitAfterAlert alertURL iteration client
    rcases runLoopFrom_cases w threshold once exitAfterAlert alertURL fuel iteration client with
      ⟨_, _, hr⟩ | ⟨hstop, hr⟩ | ⟨hgo, hr⟩ | ⟨hgo, _, _, hr⟩
    · rw [hr] at h
      simp at h
    · rw [hr] at h ⊢
      simp only [List.mem_singleton, Event.stopping.injEq] at h
      subst h
      exact ⟨hstop, rfl, [], rfl, fun e he => by simp at he⟩
    · rw [hr] at h
      exact absurd rfl ((hkind _ h).1 k)
    · rw [hr] at h ⊢
      rcases List.mem_append.mp h with h | h
      · exact absurd rfl ((hkind _ h).1 k)
      · have hge := runLoopFrom_iteration_ge w threshold once exitAfterAlert alertURL _ _ _ _ h
        have hk : iteration + 1 ≤ k := hge
        obtain ⟨hobs, hret, before, hev, hlt⟩ := ih _ _ h
        refine ⟨hobs, hret,
          (checkOnce w threshold exitAfterAlert alertURL iteration client).1 ++ before, ?_, ?_⟩
        · show _ ++ _ = _
          rw [hev, List.append_assoc]
        · intro e he
          rcases List.mem_append.mp he with he | he
          · rw [htag e he]
            omega
          · exact hlt e he

theorem runLoopFrom_event_has_check (w : World) (threshold : Int) (once exitAfterAlert : Bool)
    (alertURL : GoString) (e : Event) (hne : ∀ k, e ≠ .stopping k) :
    ∀ (fuel iteration : Nat) (client : Client),
      e ∈ (runLoopFrom w threshold once exitAfterAlert alertURL fuel iteration client).1 →
      Event.check e.iteration ∈
        (runLoopFrom w threshold once exitAfterAlert alertURL fuel iteration client).1 := by
  intro fuel
  induction fuel with
  | zero =>
    intro iteration client h
    simp [runLoopFrom] at h
  | succ fuel ih =>
    intro iteration client h
    have htag := checkOnce_iteration w threshold exitAfterAlert alertURL iteration client
    have hmem := (checkOnce_checkCount w threshold exitAfterAlert alertURL iteration client).2
    rcases runLoopFrom_cases w threshold once exitAfterAlert alertURL fuel iteration client with
      ⟨_, _, hr⟩ | ⟨_, hr⟩ | ⟨hgo, hr⟩ | ⟨hgo, _, _, hr⟩
    · rw [hr] at h
      simp at h
    · rw [hr] at h
      simp only [List.mem_singleton] at h
      exact absurd h (hne iteration)
    · rw [hr] at h ⊢
      rw [htag e h]
      exact hmem
    · rw [hr] at h ⊢
      rcases List.mem_append.mp h with h | h
      · rw [htag e h]
        exact List.mem_append_left _ hmem
      · exact List.mem_append_right _ (ih _ _ h)

theorem runLoopFrom_failed_no_alert (w : World) (threshold : Int) (once exitAfterAlert : Bool)
    (alertURL : GoString) (k : Nat) (err : GoString) (b t' : Int) :
    ∀ (fuel iteration : Nat) (client : Client),
      Event.fetchFailed k err ∈
        (runLoopFrom w threshold once exitAfterAlert alertURL fuel iteration client).1 →
      Event.alert k b t' ∉
        (runLoopFrom w threshold once exitAfterAlert alertURL fuel iteration client).1 := by
  intro fuel
  induction fuel with
  | zero =>
    intro iteration client h
    simp [runLoopFrom] at h
  | succ fuel ih =>
    intro iteration client h
    have htag := checkOnce_iteration w threshold exitAfterAlert alertURL iteration client
    have hkind := checkOnce_event_kinds w threshold exitAfterAlert alertURL iteration client
    rcases runLoopFrom_cases w threshold once exitAfterAlert alertURL fuel iteration client with
      ⟨_, _, hr⟩ | ⟨_, hr⟩ | ⟨hgo, hr⟩ | ⟨hgo, _, _, hr⟩
    · rw [hr] at h
      simp at h
    · rw [hr] at h
      simp at h
    · rw [hr] at h ⊢
      exact (hkind _ h).2 k err rfl k b t'
    · rw [hr] at h ⊢
      intro ha
      rcases List.mem_append.mp h with h | h
      · rcases List.mem_append.mp ha with ha | ha
        · exact (hkind _ h).2 k err rfl k b t' ha
        · have h1 : k = iteration := htag _ h
          have h2 := runLoopFrom_iteration_ge w threshold once exitAfterAlert alertURL _ _ _ _ ha
          have h3 : iteration + 1 ≤ k := h2
          omega
      · rcases List.mem_append.mp ha with ha | ha
        · have h1 : k = iteration := htag _ ha
          have h2 := runLoopFrom_iteration_ge w threshold once exitAfterAlert alertURL _ _ _ _ h
          have h3 : iteration + 1 ≤ k := h2
          omega
        · exact ih _ _ h ha

/-! ## Theorems: the monitor loop -/

/-- C6. In every check of `runLoop` the `ALERT` line is logged exactly when
`fetchBalance` succeeded with a balance `b` and `threshold <= b`; over a whole
run, the alerts are exactly the logged balances that are at least the
threshold.  With the threshold `ParseAmount("1.0") = 1000000`, a check that
fetches `0xf4240 = 1000000` alerts and one that fetches `0xf423f = 999999`
does not. -/
theorem runLoop_alerts_iff_balance_reaches_threshold (w : World) (client : Client)
    (threshold : Int) (once exitAfterAlert : Bool) (alertURL : GoString) (fuel k : Nat)
    (b : Int) :
    ((∃ b', Event.alert k b' threshold ∈
        (checkOnce w threshold exitAfterAlert alertURL k client).1) ↔
      ∃ b' n, (fetchBalance client (w.net k)).1 = .ok (b', n) ∧ threshold ≤ b') ∧
    (Event.alert k b threshold ∈
        (runLoop w client threshold once exitAfterAlert alertURL fuel).1 ↔
      (∃ n, Event.balance k b n ∈
        (runLoop w client threshold once exitAfterAlert alertURL fuel).1) ∧ threshold ≤ b) ∧
    ParseAmount "1.0".toList = .ok 1000000 ∧
    runLoop (worldAnswering "0xf4240".toList) clientAB 1000000 true true [] 1 =
      ([.check 0, .balance 0 1000000 ['A'], .alert 0 1000000 1000000], true) ∧
    runLoop (worldAnswering "0xf423f".toList) clientAB 1000000 true true [] 1 =
      ([.check 0, .balance 0 999999 ['A']], true) :=
  ⟨checkOnce_alert_iff_fetched w threshold exitAfterAlert alertURL k client,
    runLoopFrom_alert_iff w threshold once exitAfterAlert alertURL k b fuel 0 client,
    by decide, by decide, by decide⟩

/-- C7, as stated, fails when the cancellation signal is already raised at
the start: the guard in front of the check returns, and no check runs. -/
theorem runLoop_once_cancelled_runs_no_check :
    runLoop (worldCancelled "0xf4240".toList) clientAB 1000000 true true [] 1 =
      ([.stopping 0], true) ∧
    checkCount (runLoop (worldCancelled "0xf4240".toList) clientAB 1000000 true true [] 1).1 ≠ 1 := by
  decide

/-- C7, amended. With the single-shot flag set, `runLoop` returns within its
first pass, for every fetch outcome and every setting of exit-after-alert and
of the alert URL; it performs one balance check, in iteration 0, when
`ctx.Err()` is nil at the start, and no check at all when the cancellation
signal is already raised. -/
theorem runLoop_once_at_most_one_check (w : World) (client : Client) (threshold : Int)
    (exitAfterAlert : Bool) (alertURL : GoString) (fuel : Nat) :
    (runLoop w client threshold true exitAfterAlert alertURL (fuel + 1)).2 = true ∧
    checkCount (runLoop w client threshold true exitAfterAlert alertURL (fuel + 1)).1 =
      (if w.ctxErr 0 = true then 0 else 1) ∧
    (∀ k, Event.check k ∈ (runLoop w client threshold true exitAfterAlert alertURL (fuel + 1)).1 →
      k = 0) ∧
    (w.ctxErr 0 = true →
      (runLoop w client threshold true exitAfterAlert alertURL (fuel + 1)).1 = [.stopping 0]) := by
  have hcount := checkOnce_checkCount w threshold exitAfterAlert alertURL 0 client
  have htag := checkOnce_iteration w threshold exitAfterAlert alertURL 0 client
  unfold runLoop
  rw [runLoopFrom_succ]
  have h1 : ¬ (0 > 0 ∧ true = true) := by simp
  have h2 : ¬ (0 > 0 ∧ w.done 0 = true) := by simp
  rw [if_neg h1, if_neg h2]
  by_cases h3 : w.ctxErr 0 = true
  · rw [if_pos h3, if_pos h3]
    exact ⟨rfl, rfl, fun k hk => by simp at hk, fun _ => rfl⟩
  · rw [if_neg h3, if_neg h3]
    by_cases h4 : (checkOnce w threshold exitAfterAlert alertURL 0 client).2.1 = true
    · rw [if_pos h4]
      refine ⟨rfl, hcount.1, fun k hk => ?_, fun h => absurd h h3⟩
      exact htag _ hk
    · rw [if_neg h4, if_pos rfl]
      refine ⟨rfl, hcount.1, fun k hk => ?_, fun h => absurd h h3⟩
      exact htag _ hk


/-- C8. With single-shot off and exit-after-alert on, a check that fetches a
balance `b >= threshold` is followed by its alert and the attempted
notification and then `runLoop` returns: these are the last events, every
earlier event is of an earlier iteration, no earlier balance reached the
threshold, and no check of a later iteration runs.  With exit-after-alert off
such a check alerts too, and when the next iteration sees no cancellation,
the next check runs, and alerts again if its balance reaches the threshold. -/
theorem runLoop_exit_after_alert_policy (w : World) (client : Client) (threshold : Int)
    (alertURL : GoString) (fuel k : Nat) (b : Int) (n : GoString) (hb : threshold ≤ b) :
    (Event.balance k b n ∈ (runLoop w client threshold false true alertURL fuel).1 →
      (runLoop w client threshold false true alertURL fuel).2 = true ∧
      (∃ before,
        (runLoop w client threshold false true alertURL fuel).1 =
          before ++ ([.check k, .balance k b n, .alert k b threshold] ++
            notify w alertURL k b threshold) ∧
        (∀ e ∈ before, e.iteration < k) ∧
        (∀ j b' n', Event.balance j b' n' ∈ before → b' < threshold)) ∧
      (∀ j, Event.check j ∈ (runLoop w client threshold false true alertURL fuel).1 → j ≤ k)) ∧
    (Event.balance k b n ∈ (runLoop w client threshold false false alertURL fuel).1 →
      Event.alert k b threshold ∈ (runLoop w client threshold false false alertURL fuel).1 ∧
      (w.done (k + 1) = false → w.ctxErr (k + 1) = false →
        Event.check (k + 1) ∈ (runLoop w client threshold false false alertURL (fuel + 1)).1 ∧
        ∀ b' n',
          Event.balance (k + 1) b' n' ∈
            (runLoop w client threshold false false alertURL (fuel + 1)).1 →
          threshold ≤ b' →
          Event.alert (k + 1) b' threshold ∈
            (runLoop w client threshold false false alertURL (fuel + 1)).1)) := by
  constructor
  · intro h
    obtain ⟨hret, before, hev, hlt, hbal⟩ :=
      runLoopFrom_exit_after_alert w threshold alertURL k b n hb fuel 0 client h
    refine ⟨hret, ⟨before, hev, hlt, hbal⟩, ?_⟩
    intro j hj
    unfold runLoop at hj
    rw [hev] at hj
    simp only [List.mem_append, List.mem_cons, List.mem_singleton, List.not_mem_nil, or_false,
      reduceCtorEq, false_or, Event.check.injEq] at hj
    rcases hj with hj | (hj | hj)
    · exact Nat.le_of_lt (hlt _ hj)
    · exact Nat.le_of_eq hj
    · exact absurd rfl ((notify_iteration w alertURL k b threshold _ hj).2.1 j)
  · intro h
    refine ⟨(runLoopFrom_alert_iff w threshold false false alertURL k b fuel 0 client).mpr
      ⟨⟨n, h⟩, hb⟩, ?_⟩
    intro hdone hctx
    refine ⟨runLoopFrom_next_check w threshold false alertURL k (.balance k b n)
      (Or.inr ⟨b, n, rfl, Or.inr rfl⟩) hdone hctx fuel 0 client h, ?_⟩
    intro b' n' hb' hle
    exact (runLoopFrom_alert_iff w threshold false false alertURL (k + 1) b' (fuel + 1) 0
      client).mpr ⟨⟨n', hb'⟩, hle⟩

/-- C8, in the world where every request is answered with `0xf4240`, with the
threshold 1000000: with exit-after-alert on the run ends after the first
check; with it off there is a second check, and it alerts again. -/
theorem runLoop_exit_after_alert_policy_witness :
    (1000000 : Int) ≤ 1000000 ∧
    ((Event.balance 0 1000000 ['A'] ∈
        (runLoop (worldAnswering "0xf4240".toList) clientAB 1000000 false true [] 2).1 →
      (runLoop (worldAnswering "0xf4240".toList) clientAB 1000000 false true [] 2).2 = true ∧
      (∃ before,
        (runLoop (worldAnswering "0xf4240".toList) clientAB 1000000 false true [] 2).1 =
          before ++ ([.check 0, .balance 0 1000000 ['A'], .alert 0 1000000 1000000] ++
            notify (worldAnswering "0xf4240".toList) [] 0 1000000 1000000) ∧
        (∀ e ∈ before, e.iteration < 0) ∧
        (∀ j b' n', Event.balance j b' n' ∈ before → b' < 1000000)) ∧
      (∀ j, Event.check j ∈
        (runLoop (worldAnswering "0xf4240".toList) clientAB 1000000 false true [] 2).1 → j ≤ 0)) ∧
    (Event.balance 0 1000000 ['A'] ∈
        (runLoop (worldAnswering "0xf4240".toList) clientAB 1000000 false false [] 2).1 →
      Event.alert 0 1000000 1000000 ∈
        (runLoop (worldAnswering "0xf4240".toList) clientAB 1000000 false false [] 2).1 ∧
      ((worldAnswering "0xf4240".toList).done (0 + 1) = false →
        (worldAnswering "0xf4240".toList).ctxErr (0 + 1) = false →
        Event.check (0 + 1) ∈
          (runLoop (worldAnswering "0xf4240".toList) clientAB 1000000 false false [] (2 + 1)).1 ∧
        ∀ b' n',
          Event.balance (0 + 1) b' n' ∈
            (runLoop (worldAnswering "0xf4240".toList) clientAB 1000000 false false []
              (2 + 1)).1 →
          1000000 ≤ b' →
          Event.alert (0 + 1) b' 1000000 ∈
            (runLoop (worldAnswering "0xf4240".toList) clientAB 1000000 false false []
              (2 + 1)).1))) ∧
    runLoop (worldAnswering "0xf4240".toList) clientAB 1000000 false true [] 2 =
      ([.check 0, .balance 0 1000000 ['A'], .alert 0 1000000 1000000], true) ∧
    runLoop (worldAnswering "0xf4240".toList) clientAB 1000000 false false [] 2 =
      ([.check 0, .balance 0 1000000 ['A'], .alert 0 1000000 1000000,
        .check 1, .balance 1 1000000 ['B'], .alert 1 1000000 1000000], false) :=
  ⟨by decide,
    runLoop_exit_after_alert_policy (worldAnswering "0xf4240".toList) clientAB 1000000 [] 2 0
      1000000 ['A'] (by decide),
    by decide, by decide⟩

/-- C9. A balance check of iteration `k` runs only if, in every iteration up
to `k`, `ctx.Err()` was nil at the guard and the wait did not end on
`ctx.Done()`; every alert belongs to a check that ran.  When an iteration
observes the cancellation, in the wait or at the guard, the run has returned
once the loop has had that many passes, and the `Stopping watcher` line is
the last event, after events of earlier iterations only. -/
theorem runLoop_cancellation_preempts_check (w : World) (client : Client) (threshold : Int)
    (once exitAfterAlert : Bool) (alertURL : GoString) (fuel : Nat) :
    (∀ k, Event.check k ∈ (runLoop w client threshold once exitAfterAlert alertURL fuel).1 →
      ∀ j, j ≤ k → w.ctxErr j = false ∧ (0 < j → w.done j = false)) ∧
    (∀ k b, Event.alert k b threshold ∈
        (runLoop w client threshold once exitAfterAlert alertURL fuel).1 →
      Event.check k ∈ (runLoop w client threshold once exitAfterAlert alertURL fuel).1) ∧
    (∀ j, (0 < j ∧ w.done j = true) ∨ w.ctxErr j = true → j < fuel →
      (runLoop w client threshold once exitAfterAlert alertURL fuel).2 = true) ∧
    (∀ k, Event.stopping k ∈ (runLoop w client threshold once exitAfterAlert alertURL fuel).1 →
      ((0 < k ∧ w.done k = true) ∨ w.ctxErr k = true) ∧
      (runLoop w client threshold once exitAfterAlert alertURL fuel).2 = true ∧
      ∃ before,
        (runLoop w client threshold once exitAfterAlert alertURL fuel).1 =
          before ++ [.stopping k] ∧ ∀ e ∈ before, e.iteration < k) := by
  refine ⟨?_, ?_, ?_, ?_⟩
  · intro k h j hjk
    exact runLoopFrom_check_guards w threshold once exitAfterAlert alertURL k fuel 0 client h j
      (Nat.zero_le j) hjk
  · intro k b h
    exact runLoopFrom_event_has_check w threshold once exitAfterAlert alertURL
      (.alert k b threshold) (fun j => by simp) fuel 0 client h
  · intro j hj hlt
    exact runLoopFrom_returns_on_cancel w threshold once exitAfterAlert alertURL j hj fuel 0
      client (Nat.zero_le j) (by omega)
  · intro k h
    exact runLoopFrom_stopping_last w threshold once exitAfterAlert alertURL k fuel 0 client h

/-- C9, in a world where the cancellation signal is raised during the wait
of iteration 1: one check runs, then the loop stops. -/
theorem runLoop_cancellation_preempts_check_witness :
    Event.check 0 ∈ (runLoop { worldAnswering "0xf423f".toList with done := fun k => decide (1 ≤ k) }
      clientAB 1000000 false true [] 3).1 ∧
    ((0 < 1 ∧ (fun k => decide (1 ≤ k)) 1 = true) ∨
      (worldAnswering "0xf423f".toList).ctxErr 1 = true) ∧
    (runLoop { worldAnswering "0xf423f".toList with done := fun k => decide (1 ≤ k) }
      clientAB 1000000 false true [] 3).2 = true ∧
    runLoop { worldAnswering "0xf423f".toList with done := fun k => decide (1 ≤ k) }
      clientAB 1000000 false true [] 3 =
      ([.check 0, .balance 0 999999 ['A'], .stopping 1], true) :=
  ⟨by decide, Or.inl (by decide),
    (runLoop_cancellation_preempts_check
      { worldAnswering "0xf423f".toList with done := fun k => decide (1 ≤ k) }
      clientAB 1000000 false true [] 3).2.2.1 1 (Or.inl (by decide)) (by decide),
    by decide⟩

theorem fetchBalance_failure_kinds (client : Client) (net : Nat → Reply)
    (h : (Call client net).1.err ≠ none ∨
      (∃ e, jsonUnmarshalString (Call client net).1.result [] = .error e) ∨
      (∃ hexValue e, jsonUnmarshalString (Call client net).1.result [] = .ok hexValue ∧
        hexToBigInt hexValue = .error e)) :
    ∃ err, (fetchBalance client net).1 = .error err := by
  cases herr : (Call client net).1.err with
  | some e =>
    refine ⟨e, ?_⟩
    simp only [fetchBalance, herr]
  | none =>
    rcases h with h | ⟨e, h⟩ | ⟨hexValue, e, h, hhex⟩
    · exact absurd herr h
    · refine ⟨"decode result: ".toList ++ e, ?_⟩
      simp only [fetchBalance, herr, h]
    · refine ⟨e, ?_⟩
      simp only [fetchBalance, herr, h, hhex]

/-- C10. A check whose fetch fails, because the dispatcher returns its
aggregate error, because the result is no JSON string, or because the hex
text is invalid, logs the failure and nothing else, and does not ask for the
loop to end.  In a run, the iteration of a failed fetch has no alert, and with
single-shot off, when the next iteration sees no cancellation, the next check
runs. -/
theorem runLoop_failed_check_is_recoverable (w : World) (client : Client) (threshold : Int)
    (once exitAfterAlert : Bool) (alertURL : GoString) (fuel k : Nat) (err : GoString) :
    (∀ (c : Client) (iteration : Nat),
      ((Call c (w.net iteration)).1.err ≠ none ∨
        (∃ e, jsonUnmarshalString (Call c (w.net iteration)).1.result [] = .error e) ∨
        (∃ hexValue e,
          jsonUnmarshalString (Call c (w.net iteration)).1.result [] = .ok hexValue ∧
          hexToBigInt hexValue = .error e)) →
      ∃ reason, (fetchBalance c (w.net iteration)).1 = .error reason ∧
        checkOnce w threshold exitAfterAlert alertURL iteration c =
          ([.check iteration, .fetchFailed iteration reason], false,
            (fetchBalance c (w.net iteration)).2)) ∧
    (Event.fetchFailed k err ∈ (runLoop w client threshold once exitAfterAlert alertURL fuel).1 →
      (∀ b t', Event.alert k b t' ∉
        (runLoop w client threshold once exitAfterAlert alertURL fuel).1) ∧
      (once = false → w.done (k + 1) = false → w.ctxErr (k + 1) = false →
        Event.check (k + 1) ∈
          (runLoop w client threshold once exitAfterAlert alertURL (fuel + 1)).1)) := by
  constructor
  · intro c iteration h
    obtain ⟨reason, hreason⟩ := fetchBalance_failure_kinds c (w.net iteration) h
    refine ⟨reason, hreason, ?_⟩
    rcases checkOnce_cases w threshold exitAfterAlert alertURL iteration c with
      ⟨e, hf, hc⟩ | ⟨b0, n0, hf, _, _⟩ | ⟨b0, n0, hf, _, _⟩
    · rw [hreason] at hf
      cases hf
      exact hc
    · rw [hreason] at hf
      cases hf
    · rw [hreason] at hf
      cases hf
  · intro h
    refine ⟨fun b t' => runLoopFrom_failed_no_alert w threshold once exitAfterAlert alertURL k err
      b t' fuel 0 client h, ?_⟩
    intro honce hdone hctx
    subst honce
    exact runLoopFrom_next_check w threshold exitAfterAlert alertURL k (.fetchFailed k err)
      (Or.inl ⟨err, rfl⟩) hdone hctx fuel 0 client h

/-- C10, in the world where every request of iteration 0 times out and later
requests are answered with `0xf4240`: the failed check raises no alert and the
loop goes on to the check of iteration 1. -/
theorem runLoop_failed_check_is_recoverable_witness :
    Event.fetchFailed 0 "all endpoints failed: A: timeout; B: timeout".toList ∈
      (runLoop (worldFailingFirst "0xf4240".toList) clientAB 1000000 false true ['u'] 1).1 ∧
    ((∀ b t', Event.alert 0 b t' ∉
        (runLoop (worldFailingFirst "0xf4240".toList) clientAB 1000000 false true ['u'] 1).1) ∧
      (false = false → (worldFailingFirst "0xf4240".toList).done (0 + 1) = false →
        (worldFailingFirst "0xf4240".toList).ctxErr (0 + 1) = false →
        Event.check (0 + 1) ∈
          (runLoop (worldFailingFirst "0xf4240".toList) clientAB 1000000 false true ['u']
            (1 + 1)).1)) ∧
    runLoop (worldFailingFirst "0xf4240".toList) clientAB 1000000 false true ['u'] 2 =
      ([.check 0, .fetchFailed 0 "all endpoints failed: A: timeout; B: timeout".toList,
        .check 1, .balance 1 1000000 ['B'], .alert 1 1000000 1000000,
        .send 1 "USDC balance 1.000000 >= threshold 1.000000".toList, .webhookNotified 1],
       true) :=
  ⟨by decide,
    (runLoop_failed_check_is_recoverable (worldFailingFirst "0xf4240".toList) clientAB 1000000
      false true ['u'] 1 0 "all endpoints failed: A: timeout; B: timeout".toList).2 (by decide),
    by decide⟩

/-! ## Lemmas: what ParseAmount rejects -/

theorem TrimSpace_eq_rdropWhile (s : GoString) :
    TrimSpace s = List.rdropWhile isSpace (s.dropWhile isSpace) := rfl

theorem TrimSpace_cons_not_space (a : Char) (rest : GoString) (ha : isSpace a = false) :
    ∃ tail, TrimSpace (a :: rest) = a :: tail := by
  have hdrop : (a :: rest).dropWhile isSpace = a :: rest := by
    simp [List.dropWhile, ha]
  rw [TrimSpace_eq_rdropWhile, hdrop]
  have hpre : List.rdropWhile isSpace (a :: rest) <+: a :: rest := List.rdropWhile_prefix _ _
  have hne : List.rdropWhile isSpace (a :: rest) ≠ [] := by
    intro h
    have := (List.rdropWhile_eq_nil_iff.mp h) a (List.mem_cons_self a rest)
    rw [ha] at this
    exact Bool.false_ne_true this
  obtain ⟨b, tail, hb⟩ := List.exists_cons_of_ne_nil hne
  obtain ⟨suffix, hs⟩ := hpre
  rw [hb] at hs ⊢
  simp only [List.cons_append, List.cons.injEq] at hs
  exact ⟨tail, by rw [hs.1]⟩

theorem SplitN2_parts (s : GoString) (sep : Char) :
    (SplitN2 s sep).headD [] = s.takeWhile (fun c => c != sep) ∧
    (if (SplitN2 s sep).length = 2 then (SplitN2 s sep).getD 1 [] else []) =
      (s.dropWhile (fun c => c != sep)).drop 1 := by
  unfold SplitN2
  cases hd : s.dropWhile (fun c => c != sep) with
  | nil =>
    have hs := List.takeWhile_append_dropWhile (fun c => c != sep) s
    rw [hd, List.append_nil] at hs
    simp [hs]
  | cons a rest => simp

theorem strip_plus_eq (t : GoString) :
    (if HasPrefix t ['+'] = true then t.drop 1 else t) =
      (match t with
       | '+' :: rest => rest
       | trimmed => trimmed) := by
  cases t with
  | nil =>
    have hp : ¬ (HasPrefix [] ['+'] = true) := by simp [HasPrefix, List.isPrefixOf]
    rw [if_neg hp]
  | cons a r =>
    by_cases ha : a = '+'
    · subst ha
      have hp : HasPrefix ('+' :: r) ['+'] = true := by simp [HasPrefix, List.isPrefixOf]
      rw [if_pos hp]
      rfl
    · have hp : ¬ (HasPrefix (a :: r) ['+'] = true) := by
        simp [HasPrefix, List.isPrefixOf, Ne.symm ha]
      rw [if_neg hp]
      split
      · rename_i heq
        simp only [List.cons.injEq] at heq
        exact absurd heq.1 ha
      · rfl

theorem strip_plus_dropWhile (t : GoString) :
    (match t with
     | '+' :: rest => rest
     | trimmed => trimmed).dropWhile (fun c => c != '.') =
      t.dropWhile (fun c => c != '.') := by
  split
  · simp [List.dropWhile]
  · rfl

theorem ParseAmount_eq (input : GoString) :
    ParseAmount input =
      if TrimSpace input = [] then .error "amount is empty".toList
      else if HasPrefix (TrimSpace input) ['-'] = true then
        .error "amount cannot be negative".toList
      else if (ContainsAny (if integerPart input = [] then ['0'] else integerPart input)
          [' ', '_'] || ContainsAny (fractionalPart input) [' ', '_']) = true then
        .error "amount cannot contain spaces or underscores".toList
      else if goLen (fractionalPart input) > 6 then
        .error "amount has more than 6 decimal places".toList
      else
        match SetString ((if integerPart input = [] then ['0'] else integerPart input) ++
            (fractionalPart input ++ List.replicate (6 - goLen (fractionalPart input)) '0'))
            10 with
        | none => .error ("invalid amount: ".toList ++ input)
        | some amount => .ok amount := by
  have hparts := SplitN2_parts
    (if HasPrefix (TrimSpace input) ['+'] = true then (TrimSpace input).drop 1
      else TrimSpace input) '.'
  have hwhole : (if HasPrefix (TrimSpace input) ['+'] = true then (TrimSpace input).drop 1
      else TrimSpace input).takeWhile (fun c => c != '.') = integerPart input := by
    rw [strip_plus_eq]
    rfl
  have hfrac : ((if HasPrefix (TrimSpace input) ['+'] = true then (TrimSpace input).drop 1
      else TrimSpace input).dropWhile (fun c => c != '.')).drop 1 = fractionalPart input := by
    rw [strip_plus_eq, strip_plus_dropWhile]
    rfl
  rw [hwhole] at hparts
  rw [hfrac] at hparts
  unfold ParseAmount
  simp only [hparts.1, hparts.2, decimals, Repeat_zero_char]

theorem goLen_ge_length (s : GoString) : s.length ≤ goLen s := by
  induction s with
  | nil => exact Nat.le_refl _
  | cons a t ih =>
    have ha : 1 ≤ a.utf8Size := by
      unfold Char.utf8Size
      dsimp only
      split_ifs <;> omega
    simp only [goLen, List.map_cons, List.sum_cons, List.length_cons] at ih ⊢
    omega

theorem digitValue_lt_ten (c : Char) (h : digitValue 10 c < 10) : isDecimalDigit c = true := by
  rw [isDecimalDigit_iff]
  unfold digitValue at h
  by_cases h1 : 48 ≤ c.toNat ∧ c.toNat ≤ 57
  · exact h1
  · exfalso
    simp only [h1, if_false] at h
    split_ifs at h <;> omega

theorem scanDigits_none (l : List Char) (h : ∃ c ∈ l, isDecimalDigit c = false) :
    ∀ acc, scanDigits 10 l acc = none := by
  induction l with
  | nil =>
    obtain ⟨c, hc, _⟩ := h
    simp at hc
  | cons a t ih =>
    intro acc
    obtain ⟨c, hc, hdig⟩ := h
    unfold scanDigits
    by_cases ha : digitValue 10 a < 10
    · rw [if_pos ha]
      rcases List.mem_cons.mp hc with rfl | hc
      · rw [digitValue_lt_ten c ha] at hdig
        exact absurd hdig (by simp)
      · exact ih ⟨c, hc, hdig⟩ _
    · rw [if_neg ha]

theorem SetString_none_of_nondigit (s : GoString)
    (h : (∃ c ∈ s.drop 1, isDecimalDigit c = false) ∨
      (∃ a, s.head? = some a ∧ isDecimalDigit a = false ∧ a ≠ '+' ∧ a ≠ '-')) :
    SetString s 10 = none := by
  cases s with
  | nil =>
    rcases h with ⟨c, hc, _⟩ | ⟨a, ha, _⟩
    · simp at hc
    · simp at ha
  | cons a rest =>
    simp only [List.drop_succ_cons, List.drop_zero, List.head?_cons, Option.some.injEq] at h
    unfold SetString
    split
    · rename_i rest' heq
      simp only [List.cons.injEq] at heq
      obtain ⟨ha, hrest⟩ := heq
      subst hrest
      rcases h with ⟨c, hc, hdig⟩ | ⟨b, hb, _, _, hminus⟩
      · obtain ⟨d, t, ht⟩ := List.exists_cons_of_ne_nil (List.ne_nil_of_mem hc)
        simp only [ht]
        rw [← ht, scanDigits_none rest ⟨c, hc, hdig⟩]
      · rw [← hb, ha] at hminus
        exact absurd rfl hminus
    · rename_i rest' heq
      simp only [List.cons.injEq] at heq
      obtain ⟨ha, hrest⟩ := heq
      subst hrest
      rcases h with ⟨c, hc, hdig⟩ | ⟨b, hb, _, hplus, _⟩
      · obtain ⟨d, t, ht⟩ := List.exists_cons_of_ne_nil (List.ne_nil_of_mem hc)
        simp only [ht]
        rw [← ht, scanDigits_none rest ⟨c, hc, hdig⟩]
      · rw [← hb, ha] at hplus
        exact absurd rfl hplus
    · have hbad : ∃ c ∈ a :: rest, isDecimalDigit c = false := by
        rcases h with ⟨c, hc, hdig⟩ | ⟨b, hb, hdig, _, _⟩
        · exact ⟨c, List.mem_cons_of_mem a hc, hdig⟩
        · exact ⟨a, List.mem_cons_self a rest, by rw [hb]; exact hdig⟩
      simp only [scanDigits_none (a :: rest) hbad]

theorem ParseAmount_error_of_SetString_none (input : GoString)
    (h : SetString ((if integerPart input = [] then ['0'] else integerPart input) ++
      (fractionalPart input ++ List.replicate (6 - goLen (fractionalPart input)) '0')) 10 =
      none) :
    ∃ e, ParseAmount input = .error e := by
  rw [ParseAmount_eq]
  by_cases h1 : TrimSpace input = []
  · rw [if_pos h1]
    exact ⟨_, rfl⟩
  · rw [if_neg h1]
    by_cases h2 : HasPrefix (TrimSpace input) ['-'] = true
    · rw [if_pos h2]
      exact ⟨_, rfl⟩
    · rw [if_neg h2]
      by_cases h3 : (ContainsAny (if integerPart input = [] then ['0'] else integerPart input)
          [' ', '_'] || ContainsAny (fractionalPart input) [' ', '_']) = true
      · rw [if_pos h3]
        exact ⟨_, rfl⟩
      · rw [if_neg h3]
        by_cases h4 : goLen (fractionalPart input) > 6
        · rw [if_pos h4]
          exact ⟨_, rfl⟩
        · rw [if_neg h4, h]
          exact ⟨_, rfl⟩

theorem ParseAmount_error_of_long_fraction (input : GoString)
    (h : 6 < goLen (fractionalPart input)) : ∃ e, ParseAmount input = .error e := by
  rw [ParseAmount_eq]
  by_cases h1 : TrimSpace input = []
  · rw [if_pos h1]
    exact ⟨_, rfl⟩
  · rw [if_neg h1]
    by_cases h2 : HasPrefix (TrimSpace input) ['-'] = true
    · rw [if_pos h2]
      exact ⟨_, rfl⟩
    · rw [if_neg h2]
      by_cases h3 : (ContainsAny (if integerPart input = [] then ['0'] else integerPart input)
          [' ', '_'] || ContainsAny (fractionalPart input) [' ', '_']) = true
      · rw [if_pos h3]
        exact ⟨_, rfl⟩
      · rw [if_neg h3, if_pos h]
        exact ⟨_, rfl⟩

theorem ParseAmount_error_of_nondigit (input : GoString)
    (h : (∃ c ∈ fractionalPart input, isDecimalDigit c = false) ∨
      (∃ c ∈ (integerPart input).drop 1, isDecimalDigit c = false) ∨
      (∃ a, (integerPart input).head? = some a ∧ isDecimalDigit a = false ∧ a ≠ '+' ∧
        a ≠ '-')) :
    ∃ e, ParseAmount input = .error e := by
  have hset : SetString ((if integerPart input = [] then ['0'] else integerPart input) ++
      (fractionalPart input ++ List.replicate (6 - goLen (fractionalPart input)) '0')) 10 =
      none := by
    apply SetString_none_of_nondigit
    rcases h with ⟨c, hc, hdig⟩ | ⟨c, hc, hdig⟩ | ⟨a, ha, hdig, hp, hm⟩
    · left
      refine ⟨c, ?_, hdig⟩
      by_cases hw : integerPart input = []
      · rw [if_pos hw]
        simp only [List.singleton_append, List.drop_succ_cons, List.drop_zero]
        exact List.mem_append_left _ hc
      · rw [if_neg hw]
        obtain ⟨w0, wr, hwr⟩ := List.exists_cons_of_ne_nil hw
        rw [hwr]
        simp only [List.cons_append, List.drop_succ_cons, List.drop_zero]
        exact List.mem_append_right _ (List.mem_append_left _ hc)
    · left
      refine ⟨c, ?_, hdig⟩
      have hw : integerPart input ≠ [] := by
        intro hnil
        rw [hnil] at hc
        simp at hc
      rw [if_neg hw]
      obtain ⟨w0, wr, hwr⟩ := List.exists_cons_of_ne_nil hw
      rw [hwr] at hc ⊢
      simp only [List.cons_append, List.drop_succ_cons, List.drop_zero] at hc ⊢
      exact List.mem_append_left _ hc
    · right
      have hw : integerPart input ≠ [] := by
        intro hnil
        rw [hnil] at ha
        simp at ha
      rw [if_neg hw]
      obtain ⟨w0, wr, hwr⟩ := List.exists_cons_of_ne_nil hw
      rw [hwr] at ha ⊢
      exact ⟨a, by simpa using ha, hdig, hp, hm⟩
  exact ParseAmount_error_of_SetString_none input hset

theorem blank_char_facts (c : Char) (h : isSpace c = true ∨ c = '_') :
    isDecimalDigit c = false ∧ c ≠ '+' ∧ c ≠ '-' ∧ c ≠ '.' := by
  rcases h with h | h
  · refine ⟨?_, ?_, ?_, ?_⟩
    · cases hd : isDecimalDigit c with
      | false => rfl
      | true =>
        rw [digit_not_space c hd] at h
        exact absurd h (by simp)
    · intro e
      rw [e] at h
      revert h
      decide
    · intro e
      rw [e] at h
      revert h
      decide
    · intro e
      rw [e] at h
      revert h
      decide
  · rw [h]
    decide

theorem mem_integer_or_fractional (input : GoString) (c : Char) (hc : c ∈ TrimSpace input)
    (hp : c ≠ '+') (hd : c ≠ '.') : c ∈ integerPart input ∨ c ∈ fractionalPart input := by
  have hstrip : c ∈ (match TrimSpace input with
      | '+' :: rest => rest
      | trimmed => trimmed) := by
    split
    · rename_i rest heq
      rw [heq] at hc
      rcases List.mem_cons.mp hc with h | h
      · exact absurd h hp
      · exact h
    · exact hc
  have hsplit := List.takeWhile_append_dropWhile (fun c => c != '.')
    (match TrimSpace input with
      | '+' :: rest => rest
      | trimmed => trimmed)
  rw [← hsplit] at hstrip
  rcases List.mem_append.mp hstrip with h | h
  · exact Or.inl h
  · right
    rw [strip_plus_dropWhile] at h
    unfold fractionalPart
    cases hdw : (TrimSpace input).dropWhile (fun c => c != '.') with
    | nil =>
      rw [hdw] at h
      simp at h
    | cons d fr =>
      rw [hdw] at h
      have hdot : d = '.' := by
        have := dropWhile_head_false _ _ d fr hdw
        simpa using this
      rcases List.mem_cons.mp h with h | h
      · rw [hdot] at h
        exact absurd h hd
      · simpa using h

/-! ## Theorems: what ParseAmount rejects -/

/-- C14. `ParseAmount` returns an error for the empty string, for every
input whose first character is `-`, and for every input whose fractional part
(the text after the first `.` of the trimmed input) has more than six
characters. -/
theorem ParseAmount_rejects_empty_negative_long_fraction :
    ParseAmount [] = .error "amount is empty".toList ∧
    (∀ rest, ParseAmount ('-' :: rest) = .error "amount cannot be negative".toList) ∧
    (∀ input, 6 < (fractionalPart input).length → ∃ e, ParseAmount input = .error e) := by
  refine ⟨by decide, ?_, ?_⟩
  · intro rest
    obtain ⟨tail, ht⟩ := TrimSpace_cons_not_space '-' rest (by decide)
    have h1 : ¬ (TrimSpace ('-' :: rest) = []) := by
      rw [ht]
      exact List.cons_ne_nil _ _
    have h2 : HasPrefix (TrimSpace ('-' :: rest)) ['-'] = true := by
      rw [ht]
      simp [HasPrefix, List.isPrefixOf]
    rw [ParseAmount_eq, if_neg h1, if_pos h2]
  · intro input h
    exact ParseAmount_error_of_long_fraction input
      (Nat.lt_of_lt_of_le h (goLen_ge_length _))

/-- C15, as stated, fails on white space around the amount: `ParseAmount`
trims it first, so ` 1 ` is accepted. -/
theorem ParseAmount_accepts_surrounding_space :
    (∃ c ∈ " 1 ".toList, isSpace c = true ∨ c = '_') ∧
    ParseAmount " 1 ".toList = .ok 1000000 :=
  ⟨⟨' ', by decide, Or.inl (by decide)⟩, by decide⟩

/-- C15, amended. `ParseAmount` returns an error for every input that, once
the surrounding white space is trimmed, still contains a white-space
character or `_`. -/
theorem ParseAmount_rejects_inner_blank (input : GoString)
    (h : ∃ c ∈ TrimSpace input, isSpace c = true ∨ c = '_') :
    ∃ e, ParseAmount input = .error e := by
  obtain ⟨c, hc, hblank⟩ := h
  obtain ⟨hdig, hp, hm, hd⟩ := blank_char_facts c hblank
  apply ParseAmount_error_of_nondigit
  rcases mem_integer_or_fractional input c hc hp hd with h | h
  · right
    cases hw : integerPart input with
    | nil =>
      rw [hw] at h
      simp at h
    | cons a rest =>
      rw [hw] at h
      rcases List.mem_cons.mp h with h | h
      · right
        exact ⟨a, rfl, by rw [← h]; exact hdig, by rw [← h]; exact hp, by rw [← h]; exact hm⟩
      · left
        exact ⟨c, by simpa using h, hdig⟩
  · exact Or.inl ⟨c, h, hdig⟩

/-- C15, amended, at `1_000` and at an amount with a tab inside. -/
theorem ParseAmount_rejects_inner_blank_witness :
    (∃ c ∈ TrimSpace "1_000".toList, isSpace c = true ∨ c = '_') ∧
    (∃ e, ParseAmount "1_000".toList = .error e) ∧
    ParseAmount "1_000".toList = .error "amount cannot contain spaces or underscores".toList ∧
    ParseAmount ['1', Char.ofNat 9, '2'] =
      .error ("invalid amount: ".toList ++ ['1', Char.ofNat 9, '2']) :=
  ⟨⟨'_', by decide, Or.inr rfl⟩,
    ParseAmount_rejects_inner_blank "1_000".toList ⟨'_', by decide, Or.inr rfl⟩,
    by decide, by decide⟩

/-- C16, as stated, fails on an input with a leading blank: removing an
optional `+` and splitting at the first `.` leaves the integer part ` 1`,
which has a character that is no digit, and yet `ParseAmount`, which trims
first, accepts the input. -/
theorem ParseAmount_accepts_leading_space :
    (∃ c ∈ (" 1".toList).takeWhile (fun c => c != '.'), isDecimalDigit c = false) ∧
    ParseAmount " 1".toList = .ok 1000000 :=
  ⟨⟨' ', by decide, by decide⟩, by decide⟩

/-- C16, amended. `ParseAmount` returns an error for every input that, after
trimming surrounding white space, removing one optional leading `+` and
splitting at the first `.`, has a fractional part with a character other than
`0`..`9`, or an integer part with such a character after its first
character, or an integer part whose first character is neither a digit nor a
sign. -/
theorem ParseAmount_rejects_nondigit_content (input : GoString)
    (h : (∃ c ∈ fractionalPart input, isDecimalDigit c = false) ∨
      (∃ c ∈ (integerPart input).drop 1, isDecimalDigit c = false) ∨
      (∃ a, (integerPart input).head? = some a ∧ isDecimalDigit a = false ∧ a ≠ '+' ∧
        a ≠ '-')) :
    ∃ e, ParseAmount input = .error e :=
  ParseAmount_error_of_nondigit input h

/-- C16, amended, at `abc`, at `1.2x` and at `1-2`. -/
theorem ParseAmount_rejects_nondigit_content_witness :
    ((∃ c ∈ fractionalPart "1.2x".toList, isDecimalDigit c = false) ∨
      (∃ c ∈ (integerPart "1.2x".toList).drop 1, isDecimalDigit c = false) ∨
      (∃ a, (integerPart "1.2x".toList).head? = some a ∧ isDecimalDigit a = false ∧ a ≠ '+' ∧
        a ≠ '-')) ∧
    (∃ e, ParseAmount "1.2x".toList = .error e) ∧
    ParseAmount "abc".toList = .error "invalid amount: abc".toList ∧
    ParseAmount "1-2".toList = .error "invalid amount: 1-2".toList :=
  ⟨Or.inl ⟨'x', by decide, by decide⟩,
    ParseAmount_rejects_nondigit_content "1.2x".toList (Or.inl ⟨'x', by decide, by decide⟩),
    by decide, by decide⟩

/-! ## Theorems: FormatAmount -/

theorem toDigitsCore_head (fuel : Nat) : ∀ (n : Nat) (ds : List Char), n < fuel → 0 < n →
    (Nat.toDigitsCore 10 fuel n ds).head? ≠ some '0' := by
  induction fuel with
  | zero => intro n ds h; omega
  | succ fuel ih =>
    intro n ds h hpos
    simp only [Nat.toDigitsCore]
    by_cases hz : n / 10 = 0
    · rw [if_pos hz]
      have hlt : n < 10 := by omega
      have hmod : n % 10 = n := Nat.mod_eq_of_lt hlt
      rw [hmod]
      simp only [List.head?_cons, ne_eq, Option.some.injEq]
      interval_cases n <;> decide
    · rw [if_neg hz]
      exact ih (n / 10) _ (by omega) (by omega)

theorem toDigits_isNumeralOf (n : Nat) : isNumeralOf (Nat.toDigits 10 n) n = true := by
  obtain ⟨hne, hall, hval⟩ := toDigits_spec n
  unfold isNumeralOf
  have hemp : (Nat.toDigits 10 n).isEmpty = false := by
    cases h : Nat.toDigits 10 n with
    | nil => exact absurd h hne
    | cons a t => rfl
  have hdig : (Nat.toDigits 10 n).all isDecimalDigit = true := List.all_eq_true.mpr hall
  have hcanon : ((Nat.toDigits 10 n).head? != some '0' || Nat.toDigits 10 n == ['0']) = true := by
    by_cases hz : n = 0
    · subst hz
      decide
    · have := toDigitsCore_head (n + 1) n [] (Nat.lt_succ_self n) (by omega)
      have h' : ((Nat.toDigits 10 n).head? != some '0') = true := by
        simpa [Nat.toDigits] using this
      rw [h']
      rfl
  rw [hemp, hdig, hcanon, hval]
  simp

/-- C17. For a non-negative amount `n`, with quotient and remainder by
`10^6`: when the remainder is zero `FormatAmount` gives the decimal numeral of
the quotient, and otherwise that numeral, a `.`, and six digits that denote
the remainder (so zeros pad it on the left and trailing zeros stay).  The nil
amount gives `0`; 0, 1000000, 1230000 and 1234567 give `0`, `1`, `1.230000`
and `1.234567`. -/
theorem FormatAmount_quotient_and_padded_remainder (n : Nat) :
    (n % 1000000 = 0 → isNumeralOf (FormatAmount (some (n : Int))) (n / 1000000) = true) ∧
    (n % 1000000 ≠ 0 → ∃ q r, FormatAmount (some (n : Int)) = q ++ '.' :: r ∧
      isNumeralOf q (n / 1000000) = true ∧ r.length = 6 ∧
      (∀ c ∈ r, isDecimalDigit c = true) ∧ digitsValue r = n % 1000000) ∧
    FormatAmount none = "0".toList ∧
    FormatAmount (some 0) = "0".toList ∧
    FormatAmount (some 1000000) = "1".toList ∧
    FormatAmount (some 1230000) = "1.230000".toList ∧
    FormatAmount (some 1234567) = "1.234567".toList := by
  have hq : Int.tdiv (n : Int) decimalFactor = ((n / 1000000 : Nat) : Int) := rfl
  have hm : Int.emod (n : Int) decimalFactor = ((n % 1000000 : Nat) : Int) := rfl
  refine ⟨?_, ?_, by decide, by decide, by decide, by decide, by decide⟩
  · intro hz
    unfold FormatAmount
    simp only [hq, hm, hz, Nat.cast_zero, if_true, bigString_natCast]
    exact toDigits_isNumeralOf _
  · intro hz
    obtain ⟨l, hl, hlen, hall, hval⟩ := fmt06d_natCast (n % 1000000) (Nat.mod_lt n (by decide))
    refine ⟨Nat.toDigits 10 (n / 1000000), l, ?_, toDigits_isNumeralOf _, hlen, hall, hval⟩
    have hz' : ¬ (((n % 1000000 : Nat) : Int) = 0) := by omega
    unfold FormatAmount
    simp only [hq, hm, bigString_natCast]
    rw [if_neg hz', hl]

/-- C18. For every non-negative amount `n`, of any size, `ParseAmount`
accepts `FormatAmount n` and gives `n` back. -/
theorem ParseAmount_inverts_FormatAmount (n : Nat) :
    ParseAmount (FormatAmount (some (n : Int))) = .ok (n : Int) := by
  obtain ⟨w, rest, f, hfmt, hne, hw, hf, hr, hq, hm⟩ := FormatAmount_natCast n
  have hlen : f.length ≤ 6 := by
    rcases hr with h | h
    · rw [h.2.1]
      simp
    · omega
  have hr' : rest = [] ∧ f = [] ∨ rest = '.' :: f := by
    rcases hr with h | h
    · exact Or.inl ⟨h.1, h.2.1⟩
    · exact Or.inr h.1
  rw [hfmt, ParseAmount_plain w f rest hne hw hf hlen hr', hq, hm]
  have hdm := Nat.div_add_mod n 1000000
  have hval : n / 1000000 * 10 ^ 6 + n % 1000000 * 10 ^ (6 - f.length) = n := by
    rcases hr with h | h
    · rw [h.2.2]
      omega
    · rw [h.2]
      omega
  rw [hval]

/-! ## Lemmas: addresses -/

theorem hex_mem (c : Char) (h : isHexChar c = true) :
    c ∈ "0123456789abcdefABCDEF".toList := by
  have hr : (48 ≤ c.toNat ∧ c.toNat ≤ 57) ∨ (97 ≤ c.toNat ∧ c.toNat ≤ 102) ∨
      (65 ≤ c.toNat ∧ c.toNat ≤ 70) := by
    simpa [isHexChar] using h
  rw [← Char.ofNat_toNat c]
  generalize c.toNat = n at hr
  rcases hr with ⟨h1, h2⟩ | ⟨h1, h2⟩ | ⟨h1, h2⟩ <;> interval_cases n <;> decide

theorem hex_char_facts (c : Char) (h : isHexChar c = true) :
    c.utf8Size = 1 ∧ isSpace c = false ∧ isHexChar (hexLower c) = true ∧
      hexLower (hexLower c) = hexLower c ∧
      (if 65 ≤ c.toNat ∧ c.toNat ≤ 90 then Char.ofNat (c.toNat + 32) else c) = hexLower c := by
  have hall : ∀ d ∈ "0123456789abcdefABCDEF".toList,
      d.utf8Size = 1 ∧ isSpace d = false ∧ isHexChar (hexLower d) = true ∧
        hexLower (hexLower d) = hexLower d ∧
        (if 65 ≤ d.toNat ∧ d.toNat ≤ 90 then Char.ofNat (d.toNat + 32) else d) = hexLower d := by
    decide
  exact hall c (hex_mem c h)

theorem goLen_hex (s : GoString) (h : ∀ c ∈ s, isHexChar c = true) : goLen s = s.length := by
  induction s with
  | nil => rfl
  | cons a t ih =>
    have ha := (hex_char_facts a (h a (List.mem_cons_self a t))).1
    have ht := ih (fun c hc => h c (List.mem_cons_of_mem a hc))
    simp only [goLen, List.map_cons, List.sum_cons, List.length_cons] at ht ⊢
    omega

theorem ToLower_hex (s : GoString) (h : ∀ c ∈ s, isHexChar c = true) :
    ToLower s = s.map hexLower := by
  unfold ToLower
  apply List.map_congr_left
  intro c hc
  exact (hex_char_facts c (h c hc)).2.2.2.2

theorem strip_0x_eq (x : GoString) :
    (if (HasPrefix (TrimSpace x) ['0', 'x'] || HasPrefix (TrimSpace x) ['0', 'X']) = true
      then (TrimSpace x).drop 2 else TrimSpace x) = addressBody x := by
  unfold addressBody
  generalize TrimSpace x = t
  by_cases h1 : ∃ rest, t = '0' :: 'x' :: rest
  · obtain ⟨rest, rfl⟩ := h1
    have hp : (HasPrefix ('0' :: 'x' :: rest) ['0', 'x'] ||
        HasPrefix ('0' :: 'x' :: rest) ['0', 'X']) = true := by
      simp [HasPrefix, List.isPrefixOf]
    rw [if_pos hp]
    rfl
  · by_cases h2 : ∃ rest, t = '0' :: 'X' :: rest
    · obtain ⟨rest, rfl⟩ := h2
      have hp : (HasPrefix ('0' :: 'X' :: rest) ['0', 'x'] ||
          HasPrefix ('0' :: 'X' :: rest) ['0', 'X']) = true := by
        simp [HasPrefix, List.isPrefixOf]
      rw [if_pos hp]
      rfl
    · have hp : ¬ ((HasPrefix t ['0', 'x'] || HasPrefix t ['0', 'X']) = true) := by
        cases t with
        | nil => simp [HasPrefix, List.isPrefixOf]
        | cons a r =>
          cases r with
          | nil => simp [HasPrefix, List.isPrefixOf]
          | cons b r' =>
            by_cases ha : a = '0'
            · subst ha
              have hb1 : b ≠ 'x' := by
                intro e
                subst e
                exact h1 ⟨r', rfl⟩
              have hb2 : b ≠ 'X' := by
                intro e
                subst e
                exact h2 ⟨r', rfl⟩
              simp [HasPrefix, List.isPrefixOf, Ne.symm hb1, Ne.symm hb2]
            · simp [HasPrefix, List.isPrefixOf, Ne.symm ha]
      rw [if_neg hp]
      split
      · rename_i rest
        exact absurd ⟨rest, rfl⟩ h1
      · rename_i rest
        exact absurd ⟨rest, rfl⟩ h2
      · rfl

theorem NormalizeAddress_eq (x : GoString) :
    NormalizeAddress x =
      if TrimSpace x = [] then .error "address is empty".toList
      else if goLen (addressBody x) ≠ 40 then
        .error ("address must be 40 hex characters, got ".toList ++
          fmtd (goLen (addressBody x)))
      else
        match hexDecodeString (addressBody x) with
        | .error err => .error ("invalid hex address: ".toList ++ err)
        | .ok _ => .ok (['0', 'x'] ++ ToLower (addressBody x)) := by
  unfold NormalizeAddress
  simp only [strip_0x_eq]

theorem addressBody_of_empty (x : GoString) (h : TrimSpace x = []) : addressBody x = [] := by
  unfold addressBody
  rw [h]

theorem NormalizeAddress_ok (x : GoString)
    (h : (addressBody x).length = 40 ∧ ∀ c ∈ addressBody x, isHexChar c = true) :
    NormalizeAddress x = .ok ('0' :: 'x' :: (addressBody x).map hexLower) := by
  have hne : ¬ (TrimSpace x = []) := by
    intro he
    rw [addressBody_of_empty x he] at h
    simp at h
  have hlen : ¬ (goLen (addressBody x) ≠ 40) := by
    rw [goLen_hex _ h.2, h.1]
    simp
  have hdec : hexDecodeString (addressBody x) = .ok () := by
    unfold hexDecodeString
    have hall : (addressBody x).all isHexChar = true := List.all_eq_true.mpr h.2
    rw [hall, goLen_hex _ h.2, h.1]
    rfl
  rw [NormalizeAddress_eq, if_neg hne, if_neg hlen, hdec, ToLower_hex _ h.2]
  rfl

theorem NormalizeAddress_error (x : GoString)
    (h : ¬ ((addressBody x).length = 40 ∧ ∀ c ∈ addressBody x, isHexChar c = true)) :
    ∃ e, NormalizeAddress x = .error e := by
  rw [NormalizeAddress_eq]
  by_cases h1 : TrimSpace x = []
  · rw [if_pos h1]
    exact ⟨_, rfl⟩
  · rw [if_neg h1]
    by_cases h2 : goLen (addressBody x) ≠ 40
    · rw [if_pos h2]
      exact ⟨_, rfl⟩
    · rw [if_neg h2]
      by_cases h3 : (addressBody x).all isHexChar = true
      · exfalso
        have hall : ∀ c ∈ addressBody x, isHexChar c = true := List.all_eq_true.mp h3
        apply h
        refine ⟨?_, hall⟩
        rw [← goLen_hex _ hall]
        simpa using h2
      · have hdec : hexDecodeString (addressBody x) =
            .error "encoding/hex: invalid byte".toList := by
          unfold hexDecodeString
          have : (addressBody x).all isHexChar = false := by simpa using h3
          rw [this]
          rfl
        rw [hdec]
        exact ⟨_, rfl⟩

theorem NormalizeAddress_ok_inv (x y : GoString) (h : NormalizeAddress x = .ok y) :
    ((addressBody x).length = 40 ∧ ∀ c ∈ addressBody x, isHexChar c = true) ∧
      y = '0' :: 'x' :: (addressBody x).map hexLower := by
  by_cases hc : (addressBody x).length = 40 ∧ ∀ c ∈ addressBody x, isHexChar c = true
  · refine ⟨hc, ?_⟩
    rw [NormalizeAddress_ok x hc] at h
    cases h
    rfl
  · obtain ⟨e, he⟩ := NormalizeAddress_error x hc
    rw [he] at h
    cases h

theorem addressBody_normalized (b : GoString) (hb : ∀ c ∈ b, isHexChar c = true) :
    addressBody ('0' :: 'x' :: b.map hexLower) = b.map hexLower ∧
      (∀ c ∈ b.map hexLower, isHexChar c = true) ∧
      (b.map hexLower).map hexLower = b.map hexLower := by
  have hhex : ∀ c ∈ b.map hexLower, isHexChar c = true := by
    intro c hc
    obtain ⟨d, hd, rfl⟩ := List.mem_map.mp hc
    exact (hex_char_facts d (hb d hd)).2.2.1
  have hnospace : ∀ c ∈ '0' :: 'x' :: b.map hexLower, isSpace c = false := by
    intro c hc
    rcases List.mem_cons.mp hc with rfl | hc
    · decide
    · rcases List.mem_cons.mp hc with rfl | hc
      · decide
      · exact (hex_char_facts c (hhex c hc)).2.1
  refine ⟨?_, hhex, ?_⟩
  · unfold addressBody
    rw [TrimSpace_of_no_space _ hnospace]
    rfl
  · rw [List.map_map]
    apply List.map_congr_left
    intro c hc
    exact (hex_char_facts c (hb c hc)).2.2.2.1

/-! ## Theorems: addresses and call data -/

/-- C11. `NormalizeAddress` succeeds exactly when its input, after trimming
surrounding white space and stripping one optional leading `0x` or `0X`, is
40 hexadecimal characters; it then returns `0x` followed by these characters
in lower case, 42 characters in all, and otherwise it returns an error. -/
theorem NormalizeAddress_accepts_forty_hex (x : GoString) :
    (((addressBody x).length = 40 ∧ ∀ c ∈ addressBody x, isHexChar c = true) →
      NormalizeAddress x = .ok ('0' :: 'x' :: (addressBody x).map hexLower) ∧
      ('0' :: 'x' :: (addressBody x).map hexLower).length = 42) ∧
    (¬ ((addressBody x).length = 40 ∧ ∀ c ∈ addressBody x, isHexChar c = true) →
      ∃ e, NormalizeAddress x = .error e) ∧
    (∀ y, NormalizeAddress x = .ok y →
      ((addressBody x).length = 40 ∧ ∀ c ∈ addressBody x, isHexChar c = true) ∧
      y = '0' :: 'x' :: (addressBody x).map hexLower) := by
  refine ⟨?_, NormalizeAddress_error x, NormalizeAddress_ok_inv x⟩
  intro h
  refine ⟨NormalizeAddress_ok x h, ?_⟩
  simp [h.1]

/-- C11, at the address of the test `TestNormalizeAddress` and at its
rejected inputs. -/
theorem NormalizeAddress_accepts_forty_hex_witness :
    ((addressBody " 0xABCDEFabcdefABCDEFabcdefABCDEFabcdefABCD ".toList).length = 40 ∧
      ∀ c ∈ addressBody " 0xABCDEFabcdefABCDEFabcdefABCDEFabcdefABCD ".toList,
        isHexChar c = true) ∧
    NormalizeAddress " 0xABCDEFabcdefABCDEFabcdefABCDEFabcdefABCD ".toList =
      .ok "0xabcdefabcdefabcdefabcdefabcdefabcdefabcd".toList ∧
    (∃ e, NormalizeAddress "0x123".toList = .error e) ∧
    (∃ e, NormalizeAddress "0xGG".toList = .error e) :=
  ⟨by decide,
    ((NormalizeAddress_accepts_forty_hex
      " 0xABCDEFabcdefABCDEFabcdefABCDEFabcdefABCD ".toList).1 (by decide)).1.trans (by decide),
    (NormalizeAddress_accepts_forty_hex "0x123".toList).2.1 (by decide),
    (NormalizeAddress_accepts_forty_hex "0xGG".toList).2.1 (by decide)⟩

/-- C12. `NormalizeAddress` is idempotent: a result `y` of `NormalizeAddress`
is accepted by `NormalizeAddress` and returned as it is. -/
theorem NormalizeAddress_idempotent (x y : GoString) (h : NormalizeAddress x = .ok y) :
    NormalizeAddress y = .ok y := by
  obtain ⟨⟨hlen, hhex⟩, rfl⟩ := NormalizeAddress_ok_inv x y h
  obtain ⟨hbody, hhex', hidem⟩ := addressBody_normalized (addressBody x) hhex
  have hcond : (addressBody ('0' :: 'x' :: (addressBody x).map hexLower)).length = 40 ∧
      ∀ c ∈ addressBody ('0' :: 'x' :: (addressBody x).map hexLower), isHexChar c = true := by
    rw [hbody]
    exact ⟨by simp [hlen], hhex'⟩
  rw [NormalizeAddress_ok _ hcond, hbody, hidem]

/-- C12, at the address of the test `TestNormalizeAddress`. -/
theorem NormalizeAddress_idempotent_witness :
    NormalizeAddress " 0xABCDEFabcdefABCDEFabcdefABCDEFabcdefABCD ".toList =
      .ok "0xabcdefabcdefabcdefabcdefabcdefabcdefabcd".toList ∧
    NormalizeAddress "0xabcdefabcdefabcdefabcdefabcdefabcdefabcd".toList =
      .ok "0xabcdefabcdefabcdefabcdefabcdefabcdefabcd".toList :=
  ⟨by decide,
    NormalizeAddress_idempotent " 0xABCDEFabcdefABCDEFabcdefABCDEFabcdefABCD ".toList
      "0xabcdefabcdefabcdefabcdefabcdefabcdefabcd".toList (by decide)⟩

/-- C13. `EncodeBalanceOfCall` fails exactly when `NormalizeAddress` fails,
with the same error (the length check behind it never fires); on an accepted
address it returns `0x`, the selector `70a08231`, 24 zeros and the 40
lower-case hexadecimal characters of the normalized address, 74 characters in
all.  For the address `0x0000000000000000000000000000000000000001` this is
the selector, 63 zeros and `1`. -/
theorem EncodeBalanceOfCall_selector_and_padded_address (a : GoString) :
    (∀ e, NormalizeAddress a = .error e → EncodeBalanceOfCall a = .error e) ∧
    (∀ y, NormalizeAddress a = .ok y →
      EncodeBalanceOfCall a =
        .ok ("0x70a08231".toList ++ List.replicate 24 '0' ++ (addressBody a).map hexLower) ∧
      ("0x70a08231".toList ++ List.replicate 24 '0' ++ (addressBody a).map hexLower).length =
        74 ∧
      y = '0' :: 'x' :: (addressBody a).map hexLower ∧
      ((addressBody a).map hexLower).length = 40 ∧
      ∀ c ∈ (addressBody a).map hexLower, isHexChar c = true ∧ hexLower c = c) ∧
    EncodeBalanceOfCall "0x0000000000000000000000000000000000000001".toList =
      .ok ("0x70a08231".toList ++ List.replicate 63 '0' ++ ['1']) := by
  refine ⟨?_, ?_, by decide⟩
  · intro e he
    unfold EncodeBalanceOfCall AddressDataHex
    rw [he]
  · intro y hy
    obtain ⟨⟨hlen, hhex⟩, rfl⟩ := NormalizeAddress_ok_inv a y hy
    obtain ⟨_, hhex', hidem⟩ := addressBody_normalized (addressBody a) hhex
    have hgl : goLen ((addressBody a).map hexLower) = 40 := by
      rw [goLen_hex _ hhex']
      simp [hlen]
    refine ⟨?_, by simp [hlen], rfl, by simp [hlen], ?_⟩
    · unfold EncodeBalanceOfCall AddressDataHex
      rw [hy]
      simp only [List.drop_succ_cons, List.drop_zero, hgl, ne_eq, not_true_eq_false, if_false,
        Repeat_zero_char, methodBalanceOf]
      rfl
    · intro c hc
      refine ⟨hhex' c hc, ?_⟩
      obtain ⟨d, hd, rfl⟩ := List.mem_map.mp hc
      exact (hex_char_facts d (hhex d hd)).2.2.2.1

/-! ## Lemmas: LoadEndpoints -/

theorem fmtd_succ (n : Nat) : fmtd ((n : Int) + 1) = Nat.toDigits 10 (n + 1) := by
  have h : ((n : Int) + 1) = ((n + 1 : Nat) : Int) := by push_cast; rfl
  rw [h]
  exact bigString_natCast (n + 1)

theorem LoadInv_congr (st st' : LoadState) (he : st'.endpoints = st.endpoints)
    (hb : st'.blocks = st.blocks) (h : LoadInv st) : LoadInv st' := by
  unfold LoadInv at h ⊢
  rw [he, hb]
  exact h

theorem flush_inv (st st' : LoadState) (force : Bool) (h : LoadInv st)
    (hf : flush st force = .ok st') : LoadInv st' := by
  unfold flush at hf
  by_cases h1 : (!st.inCollection) = true
  · rw [if_pos h1] at hf
    cases hf
    exact h
  · rw [if_neg h1] at hf
    by_cases h2 : TrimSpace st.current.URL = []
    · rw [if_pos h2] at hf
      by_cases h3 : force = true
      · rw [if_pos h3] at hf
        cases hf
      · rw [if_neg h3] at hf
        cases hf
        exact LoadInv_congr st _ rfl rfl h
    · rw [if_neg h2] at hf
      cases hf
      obtain ⟨hlen, hidx⟩ := h
      refine ⟨by simp [hlen], ?_⟩
      intro i block hblock
      simp only at hblock ⊢
      by_cases hi : i < st.blocks.length
      · rw [List.getElem?_append_left hi] at hblock
        rw [List.getElem?_append_left (by omega)]
        exact hidx i block hblock
      · have hi' : st.blocks.length ≤ i := by omega
        rw [List.getElem?_append_right hi'] at hblock
        rw [List.getElem?_append_right (by omega)]
        have hzero : i - st.blocks.length = 0 := by
          by_contra hne
          have hpos : 1 ≤ i - st.blocks.length := by omega
          rw [List.getElem?_eq_none (by simpa using hpos)] at hblock
          cases hblock
        rw [hzero] at hblock
        have hzero' : i - st.endpoints.length = 0 := by omega
        rw [hzero']
        simp only [List.getElem?_cons_zero, Option.some.injEq] at hblock ⊢
        subst hblock
        have hieq : i = st.endpoints.length := by omega
        refine ⟨_, rfl, h2, ?_, ?_, ?_⟩
        · by_cases hn : TrimSpace st.current.Name = []
          · rw [if_pos hn]
          · rw [if_neg hn]
        · intro hn
          rw [if_pos hn, hieq]
          simp only
          rw [fmtd_succ]
        · intro hn
          rw [if_neg hn]

theorem scanLine_inv (st st' : LoadState) (rawLine : GoString) (h : LoadInv st)
    (hs : scanLine st rawLine = .ok st') : LoadInv st' := by
  have h0 : LoadInv { st with lineNo := st.lineNo + 1 } := LoadInv_congr st _ rfl rfl h
  unfold scanLine at hs
  simp only at hs
  by_cases c1 : (TrimSpace rawLine = [] || HasPrefix (TrimSpace rawLine) ['#']) = true
  · rw [if_pos c1] at hs
    cases hs
    exact h0
  · rw [if_neg c1] at hs
    by_cases c2 : (HasPrefix (TrimSpace rawLine) ['[', '['] &&
        HasSuffix (TrimSpace rawLine) [']', ']']) = true
    · rw [if_pos c2] at hs
      cases hfl : flush { st with lineNo := st.lineNo + 1 } true with
      | error err =>
        rw [hfl] at hs
        cases hs
      | ok st1 =>
        rw [hfl] at hs
        have h1 := flush_inv _ st1 true h0 hfl
        simp only at hs
        by_cases c3 : TrimSpace rawLine = "[[rpc.endpoints]]".toList
        · rw [if_pos c3] at hs
          cases hs
          exact LoadInv_congr st1 _ rfl rfl h1
        · rw [if_neg c3] at hs
          cases hs
          exact LoadInv_congr st1 _ rfl rfl h1
    · rw [if_neg c2] at hs
      by_cases c4 : (!st.inCollection) = true
      · rw [if_pos c4] at hs
        cases hs
        exact h0
      · rw [if_neg c4] at hs
        by_cases c5 : (SplitN2 (TrimSpace rawLine) '=').length ≠ 2
        · rw [if_pos c5] at hs
          cases hs
        · rw [if_neg c5] at hs
          by_cases c6 : TrimSpace ((SplitN2 (TrimSpace rawLine) '=').headD []) = "name".toList
          · rw [if_pos c6] at hs
            cases hs
            exact LoadInv_congr st _ rfl rfl h
          · rw [if_neg c6] at hs
            by_cases c7 : TrimSpace ((SplitN2 (TrimSpace rawLine) '=').headD []) = "url".toList
            · rw [if_pos c7] at hs
              cases hs
              exact LoadInv_congr st _ rfl rfl h
            · rw [if_neg c7] at hs
              cases hs
              exact h0

theorem scanLines_inv (lines : List GoString) :
    ∀ (st st' : LoadState), LoadInv st → scanLines st lines = .ok st' → LoadInv st' := by
  induction lines with
  | nil =>
    intro st st' h hs
    unfold scanLines at hs
    cases hs
    exact h
  | cons rawLine rest ih =>
    intro st st' h hs
    unfold scanLines at hs
    cases hl : scanLine st rawLine with
    | error err =>
      rw [hl] at hs
      cases hs
    | ok st1 =>
      rw [hl] at hs
      exact ih st1 st' (scanLine_inv st st1 rawLine h hl) hs

theorem loadState_inv (opened : Except GoString ConfigFile) (st : LoadState)
    (h : loadState opened = .ok st) : LoadInv st ∧ st.endpoints ≠ [] := by
  unfold loadState at h
  cases opened with
  | error err => cases h
  | ok file =>
    simp only at h
    cases hs : scanLines ⟨[], Endpoint.zero, false, 0, []⟩ file.lines with
    | error err =>
      rw [hs] at h
      cases h
    | ok st1 =>
      rw [hs] at h
      simp only at h
      have hinit : LoadInv ⟨[], Endpoint.zero, false, 0, []⟩ := by
        refine ⟨rfl, ?_⟩
        intro i block hb
        simp at hb
      have h1 := scanLines_inv file.lines _ st1 hinit hs
      cases hse : file.scanErr with
      | some err =>
        rw [hse] at h
        cases h
      | none =>
        rw [hse] at h
        simp only at h
        cases hfl : flush st1 true with
        | error err =>
          rw [hfl] at h
          cases h
        | ok st2 =>
          rw [hfl] at h
          simp only at h
          have h2 := flush_inv st1 st2 true h1 hfl
          by_cases hz : st2.endpoints.length = 0
          · rw [if_pos hz] at h
            cases h
          · rw [if_neg hz] at h
            cases h
            refine ⟨h2, ?_⟩
            intro hnil
            rw [hnil] at hz
            exact hz rfl

/-! ## Theorems: LoadEndpoints -/

/-- C19. When `LoadEndpoints` accepts a configuration, the returned list is
not empty and has one endpoint per `[[rpc.endpoints]]` block read, in file
order; the endpoint of the block at position `i` (counted from 0) has the url
of that block, and its name is `endpoint-` followed by `i + 1` when the block
gives no name or a blank one, and the name of the block otherwise. -/
theorem LoadEndpoints_default_names (opened : Except GoString ConfigFile)
    (endpoints : List Endpoint) (h : LoadEndpoints opened = .ok endpoints) :
    endpoints ≠ [] ∧ endpoints.length = (readBlocks opened).length ∧
    ∀ i block, (readBlocks opened)[i]? = some block →
      ∃ ep, endpoints[i]? = some ep ∧ TrimSpace block.URL ≠ [] ∧ ep.URL = block.URL ∧
        (TrimSpace block.Name = [] →
          ep.Name = "endpoint-".toList ++ Nat.toDigits 10 (i + 1)) ∧
        (TrimSpace block.Name ≠ [] → ep.Name = block.Name) := by
  unfold LoadEndpoints at h
  unfold readBlocks
  cases hst : loadState opened with
  | error err =>
    rw [hst] at h
    cases h
  | ok st =>
    rw [hst] at h
    cases h
    obtain ⟨⟨hlen, hidx⟩, hne⟩ := loadState_inv opened st hst
    exact ⟨hne, hlen, hidx⟩

/-- C19, on the configuration of the test `TestLoadEndpoints`: a first block
named `first` and a second block without a name give the names `first` and
`endpoint-2`. -/
theorem LoadEndpoints_default_names_witness :
    LoadEndpoints (.ok testConfig) =
      .ok [{ Name := "first".toList, URL := "https://a.example".toList },
           { Name := "endpoint-2".toList, URL := "https://b.example".toList }] ∧
    readBlocks (.ok testConfig) =
      [{ Name := "first".toList, URL := "https://a.example".toList },
       { Name := [], URL := "https://b.example".toList }] ∧
    ([{ Name := "first".toList, URL := "https://a.example".toList },
      { Name := "endpoint-2".toList, URL := "https://b.example".toList }] ≠ ([] : List Endpoint) ∧
      ([{ Name := "first".toList, URL := "https://a.example".toList },
        { Name := "endpoint-2".toList, URL := "https://b.example".toList }] :
          List Endpoint).length = (readBlocks (.ok testConfig)).length ∧
      ∀ i block, (readBlocks (.ok testConfig))[i]? = some block →
        ∃ ep, ([{ Name := "first".toList, URL := "https://a.example".toList },
            { Name := "endpoint-2".toList, URL := "https://b.example".toList }] :
              List Endpoint)[i]? = some ep ∧
          TrimSpace block.URL ≠ [] ∧ ep.URL = block.URL ∧
          (TrimSpace block.Name = [] →
            ep.Name = "endpoint-".toList ++ Nat.toDigits 10 (i + 1)) ∧
          (TrimSpace block.Name ≠ [] → ep.Name = block.Name)) :=
  ⟨by decide, by decide,
    LoadEndpoints_default_names (.ok testConfig)
      [{ Name := "first".toList, URL := "https://a.example".toList },
       { Name := "endpoint-2".toList, URL := "https://b.example".toList }] (by decide)⟩

/-! ## Lemmas: responses with and without an error object -/

theorem callSingle_ok_inv (c : Client) (e : Endpoint) (r : Reply) (res : RawMessage)
    (h : (callSingle c e r).1 = .ok res) :
    ∃ preview resp, r = .http 200 preview (.ok resp) ∧ resp.Error = none ∧
      resp.Result = res := by
  unfold callSingle at h
  cases r with
  | encodeFailed err => simp at h
  | buildFailed err => simp at h
  | transportFailed err => simp at h
  | http status preview body =>
    simp only at h
    by_cases hs : status ≠ 200
    · rw [if_pos hs] at h
      simp at h
    · rw [if_neg hs] at h
      have hs' : status = 200 := by simpa using hs
      subst hs'
      cases body with
      | error err => simp at h
      | ok resp =>
        simp only at h
        cases herr : resp.Error with
        | some e' =>
          rw [herr] at h
          simp at h
        | none =>
          rw [herr] at h
          simp only [Except.ok.injEq] at h
          exact ⟨preview, resp, rfl, herr, h⟩

theorem attempt_with_error_object (c : Client) (net : Nat → Reply) (idx : Nat)
    (preview : GoString) (result : RawMessage) (err : jsonRPCError)
    (h : net idx = .http 200 preview (.ok { Result := result, Error := some err })) :
    attempt c net idx =
      .error ("rpc error ".toList ++ fmtd err.Code ++ ": ".toList ++ err.Message) := by
  unfold attempt callSingle
  rw [h]
  rfl

theorem attempt_without_result_or_error (c : Client) (net : Nat → Reply) (idx : Nat)
    (preview : GoString)
    (h : net idx = .http 200 preview (.ok { Result := .absent, Error := none })) :
    attempt c net idx = .ok .absent := by
  unfold attempt callSingle
  rw [h]
  rfl

/-! ## Theorems: responses with and without an error object -/

/-- C20, as stated, fails for a response that carries neither a result nor
an error object: `callSingle` takes it for a success, and `Call` returns it,
with a nil result, from the first endpoint without trying the next one. -/
theorem Call_accepts_response_without_result_or_error :
    (Call clientAB (fun _ => replyNeither)).1 =
      { result := .absent, endpoint := endpointA, err := none, tried := [0] } := by
  decide

/-- C20, amended. A response that carries an error object, with a result or
without, makes the attempt that received it fail; when attempts fail and
endpoints are left, `Call` tries the next one; and a call that succeeds
returns the result of a response, received with status 200 by the last
endpoint tried, that carries no error object.  A response with neither a
result nor an error object makes the attempt succeed with the nil result. -/
theorem Call_rejects_response_with_error_object (c : Client) (net : Nat → Reply)
    (hn : 0 < c.endpoints.length) :
    (∀ idx preview result err,
      net idx = .http 200 preview (.ok { Result := result, Error := some err }) →
      attempt c net idx =
        .error ("rpc error ".toList ++ fmtd err.Code ++ ": ".toList ++ err.Message)) ∧
    (∀ j, j + 1 < c.endpoints.length →
      (∀ i, i ≤ j → ∃ e, attempt c net ((c.next + i) % c.endpoints.length) = .error e) →
      (c.next + (j + 1)) % c.endpoints.length ∈ (Call c net).1.tried) ∧
    ((Call c net).1.err = none →
      ∃ idx preview resp, (Call c net).1.tried.getLast? = some idx ∧
        net idx = .http 200 preview (.ok resp) ∧ resp.Error = none ∧
        (Call c net).1.result = resp.Result ∧
        (Call c net).1.endpoint = c.endpoints.getD idx Endpoint.zero) ∧
    (∀ idx preview, net idx = .http 200 preview (.ok { Result := .absent, Error := none }) →
      attempt c net idx = .ok .absent) := by
  obtain ⟨_, _, hcase⟩ := Call_spec c net hn
  refine ⟨fun idx preview result err h => attempt_with_error_object c net idx preview result err h,
    ?_, ?_, fun idx preview h => attempt_without_result_or_error c net idx preview h⟩
  · intro j hj hfail
    rcases hcase with ⟨k, res, hk, _, hok, hout⟩ | ⟨_, hout⟩
    · have hjk : j < k := by
        by_contra hle
        obtain ⟨e, he⟩ := hfail k (by omega)
        rw [hok] at he
        cases he
      rw [hout]
      exact List.mem_map.mpr ⟨j + 1, List.mem_range.mpr (by omega), rfl⟩
    · rw [hout]
      exact List.mem_map.mpr ⟨j + 1, List.mem_range.mpr hj, rfl⟩
  · intro hnone
    rcases hcase with ⟨k, res, hk, _, hok, hout⟩ | ⟨_, hout⟩
    · obtain ⟨preview, resp, hreply, herr, hres⟩ := callSingle_ok_inv _ _ _ res hok
      refine ⟨(c.next + k) % c.endpoints.length, preview, resp, ?_, hreply, herr, ?_, ?_⟩
      · rw [hout]
        simp only [List.getLast?_map, List.range_succ, List.getLast?_concat, Option.map_some']
      · rw [hout, hres]
      · rw [hout]
    · rw [hout] at hnone
      simp at hnone

/-- C20, amended, on the pool `[A, B]`: when `A` answers with both a result
and an error object and `B` with a result only, the call fails over to `B`;
when every endpoint answers with neither, the call returns the nil result of
`A`, which `fetchBalance` then fails to decode. -/
theorem Call_rejects_response_with_error_object_witness :
    0 < clientAB.endpoints.length ∧
    (Call clientAB (fun idx =>
      if idx = 0 then
        .http 200 [] (.ok { Result := .str "0x02".toList,
                            Error := some { Code := -32000, Message := "busy".toList } })
      else .http 200 [] (.ok { Result := .str "0x01".toList, Error := none }))).1 =
      { result := .str "0x01".toList, endpoint := endpointB, err := none, tried := [0, 1] } ∧
    (∀ idx preview,
      (fun _ => replyNeither) idx = .http 200 preview (.ok { Result := .absent, Error := none }) →
      attempt clientAB (fun _ => replyNeither) idx = .ok .absent) ∧
    (fetchBalance clientAB (fun _ => replyNeither)).1 =
      .error "decode result: unexpected end of JSON input".toList :=
  ⟨by decide, by decide,
    (Call_rejects_response_with_error_object clientAB (fun _ => replyNeither) (by decide)).2.2.2,
    by decide⟩

/-! ## Lemmas: hexadecimal quantities -/

theorem digitValue_hex (c : Char) (h : isHexChar c = true) :
    digitValue 16 c = hexDigitValue c ∧ digitValue 16 c < 16 ∧ c ≠ '+' ∧ c ≠ '-' := by
  have hall : ∀ d ∈ "0123456789abcdefABCDEF".toList,
      digitValue 16 d = hexDigitValue d ∧ digitValue 16 d < 16 ∧ d ≠ '+' ∧ d ≠ '-' := by
    decide
  exact hall c (hex_mem c h)

theorem isHexChar_of_digitValue (c : Char) (h : digitValue 16 c < 16) : isHexChar c = true := by
  unfold digitValue at h
  simp only [isHexChar, decide_eq_true_eq]
  by_cases h1 : 48 ≤ c.toNat ∧ c.toNat ≤ 57
  · exact Or.inl h1
  · rw [if_neg h1] at h
    by_cases h2 : 97 ≤ c.toNat ∧ c.toNat ≤ 122
    · rw [if_pos h2] at h
      right
      left
      omega
    · rw [if_neg h2] at h
      by_cases h3 : 65 ≤ c.toNat ∧ c.toNat ≤ 90
      · rw [if_pos h3] at h
        simp only [show (16 : Nat) ≤ 36 by decide, if_true] at h
        right
        right
        omega
      · rw [if_neg h3] at h
        omega

theorem scanDigits_hex (l : List Char) (h : ∀ c ∈ l, isHexChar c = true) :
    ∀ acc, scanDigits 16 l acc =
      some (l.foldl (fun acc c => acc * 16 + hexDigitValue c) acc) := by
  induction l with
  | nil => intro acc; rfl
  | cons a t ih =>
    intro acc
    have ha := digitValue_hex a (h a (List.mem_cons_self a t))
    unfold scanDigits
    rw [if_pos ha.2.1, ih (fun c hc => h c (List.mem_cons_of_mem a hc)), ha.1]
    rfl

theorem scanDigits_hex_inv (l : List Char) :
    ∀ acc v, scanDigits 16 l acc = some v → ∀ c ∈ l, isHexChar c = true := by
  induction l with
  | nil =>
    intro acc v _ c hc
    simp at hc
  | cons a t ih =>
    intro acc v hv c hc
    unfold scanDigits at hv
    by_cases ha : digitValue 16 a < 16
    · rw [if_pos ha] at hv
      rcases List.mem_cons.mp hc with rfl | hc
      · exact isHexChar_of_digitValue c ha
      · exact ih _ v hv c hc
    · rw [if_neg ha] at hv
      cases hv

theorem SetString_hex_digits (digits : List Char) (hne : digits ≠ [])
    (h : ∀ c ∈ digits, isHexChar c = true) :
    SetString digits 16 = some (hexValue digits : Int) := by
  obtain ⟨a, t, rfl⟩ := List.exists_cons_of_ne_nil hne
  have ha := digitValue_hex a (h a (List.mem_cons_self a t))
  have hscan := scanDigits_hex (a :: t) h 0
  unfold SetString
  split
  · rename_i heq
    simp only [List.cons.injEq] at heq
    exact absurd heq.1 ha.2.2.2
  · rename_i heq
    simp only [List.cons.injEq] at heq
    exact absurd heq.1 ha.2.2.1
  · simp only [hscan]
    rfl

theorem SetString_hex_inv (s : GoString) (z : Int) (h : SetString s 16 = some z) :
    ∃ digits, digits ≠ [] ∧ (∀ c ∈ digits, isHexChar c = true) ∧
      (((s = digits ∨ s = '+' :: digits) ∧ z = (hexValue digits : Int)) ∨
       (s = '-' :: digits ∧ z = -(hexValue digits : Int))) := by
  have hbody : ∀ (body : List Char) (v : Nat), body ≠ [] → scanDigits 16 body 0 = some v →
      (∀ c ∈ body, isHexChar c = true) ∧ v = hexValue body := by
    intro body v _ hv
    have hall := scanDigits_hex_inv body 0 v hv
    refine ⟨hall, ?_⟩
    rw [scanDigits_hex body hall 0] at hv
    simp only [Option.some.injEq] at hv
    exact hv.symm
  unfold SetString at h
  split at h
  · rename_i rest
    simp only at h
    cases hrest : rest with
    | nil =>
      rw [hrest] at h
      simp at h
    | cons a t =>
      rw [hrest] at h
      simp only at h
      cases hs : scanDigits 16 (a :: t) 0 with
      | none =>
        rw [hs] at h
        simp at h
      | some v =>
        rw [hs] at h
        simp only [if_true, Option.some.injEq] at h
        obtain ⟨hall, hv⟩ := hbody (a :: t) v (List.cons_ne_nil a t) hs
        exact ⟨a :: t, List.cons_ne_nil a t, hall, Or.inr ⟨rfl, by rw [← h, hv]⟩⟩
  · rename_i rest
    simp only at h
    cases hrest : rest with
    | nil =>
      rw [hrest] at h
      simp at h
    | cons a t =>
      rw [hrest] at h
      simp only at h
      cases hs : scanDigits 16 (a :: t) 0 with
      | none =>
        rw [hs] at h
        simp at h
      | some v =>
        rw [hs] at h
        simp only [Bool.false_eq_true, if_false, Option.some.injEq] at h
        obtain ⟨hall, hv⟩ := hbody (a :: t) v (List.cons_ne_nil a t) hs
        exact ⟨a :: t, List.cons_ne_nil a t, hall, Or.inl ⟨Or.inr rfl, by rw [← h, hv]⟩⟩
  · simp only at h
    cases hrest : s with
    | nil =>
      rw [hrest] at h
      simp at h
    | cons a t =>
      rw [hrest] at h
      simp only at h
      cases hs : scanDigits 16 (a :: t) 0 with
      | none =>
        rw [hs] at h
        simp at h
      | some v =>
        rw [hs] at h
        simp only [Bool.false_eq_true, if_false, Option.some.injEq] at h
        obtain ⟨hall, hv⟩ := hbody (a :: t) v (List.cons_ne_nil a t) hs
        exact ⟨a :: t, List.cons_ne_nil a t, hall, Or.inl ⟨Or.inl rfl, by rw [← h, hv]⟩⟩

theorem HasPrefix_0x (value : GoString) (h : HasPrefix value ['0', 'x'] = true) :
    ∃ body, value = '0' :: 'x' :: body := by
  cases value with
  | nil => simp [HasPrefix, List.isPrefixOf] at h
  | cons a r =>
    cases r with
    | nil => simp [HasPrefix, List.isPrefixOf] at h
    | cons b body =>
      simp only [HasPrefix, List.isPrefixOf, Bool.and_true, Bool.and_eq_true, beq_iff_eq] at h
      exact ⟨body, by rw [← h.1, ← h.2]⟩

theorem hexToBigInt_0x (body : GoString) :
    hexToBigInt ('0' :: 'x' :: body) =
      if body = [] then .ok 0
      else
        match SetString body 16 with
        | none => .error ("invalid hex value: ".toList ++ '0' :: 'x' :: body)
        | some amount => .ok amount := by
  have hp : HasPrefix ('0' :: 'x' :: body) ['0', 'x'] = true := by
    simp [HasPrefix, List.isPrefixOf]
  unfold hexToBigInt
  rw [hp]
  rfl

/-! ## Theorems: hexadecimal quantities -/

/-- C21, as stated, fails on a signed quantity: `hexToBigInt` hands the text
after `0x` to `SetString`, which reads a sign, so `0x-1` is accepted, with a
negative result, although `-` is no hexadecimal digit. -/
theorem hexToBigInt_accepts_sign :
    hexToBigInt "0x-1".toList = .ok (-1) ∧
    ¬ (∀ c ∈ ("0x-1".toList).drop 2, isHexChar c = true) ∧
    hexToBigInt "0x+ff".toList = .ok 255 := by
  decide

/-- C21, amended. Whenever `hexToBigInt` succeeds on a string, the string is
`0x` followed by nothing, and the result is 0, or by an optional sign `+` or
`-` and one or more hexadecimal digits, and the result is the integer that
the digits denote, most significant digit first, negated under the sign `-`.
Every string `0x` followed by zero or more hexadecimal digits is accepted,
with the non-negative integer that the digits denote. -/
theorem hexToBigInt_reads_optionally_signed_hex :
    (∀ value z, hexToBigInt value = .ok z →
      ∃ body, value = '0' :: 'x' :: body ∧
        ((body = [] ∧ z = 0) ∨
         ∃ digits, digits ≠ [] ∧ (∀ c ∈ digits, isHexChar c = true) ∧
           (((body = digits ∨ body = '+' :: digits) ∧ z = (hexValue digits : Int)) ∨
            (body = '-' :: digits ∧ z = -(hexValue digits : Int))))) ∧
    (∀ digits, (∀ c ∈ digits, isHexChar c = true) →
      hexToBigInt ('0' :: 'x' :: digits) = .ok (hexValue digits : Int)) ∧
    hexToBigInt "0x".toList = .ok 0 ∧
    hexToBigInt "0xf4240".toList = .ok 1000000 ∧
    hexToBigInt "0xF4240".toList = .ok 1000000 := by
  refine ⟨?_, ?_, by decide, by decide, by decide⟩
  · intro value z h
    have hp : HasPrefix value ['0', 'x'] = true := by
      cases hpre : HasPrefix value ['0', 'x'] with
      | true => rfl
      | false =>
        unfold hexToBigInt at h
        rw [hpre] at h
        simp at h
    obtain ⟨body, rfl⟩ := HasPrefix_0x value hp
    refine ⟨body, rfl, ?_⟩
    rw [hexToBigInt_0x] at h
    by_cases hb : body = []
    · rw [if_pos hb] at h
      simp only [Except.ok.injEq] at h
      exact Or.inl ⟨hb, h.symm⟩
    · rw [if_neg hb] at h
      right
      cases hs : SetString body 16 with
      | none =>
        rw [hs] at h
        simp at h
      | some amount =>
        rw [hs] at h
        simp only [Except.ok.injEq] at h
        subst h
        exact SetString_hex_inv body amount hs
  · intro digits hd
    rw [hexToBigInt_0x]
    by_cases hb : digits = []
    · rw [if_pos hb, hb]
      rfl
    · rw [if_neg hb, SetString_hex_digits digits hb hd]

end UsdcWatch
